import Mathlib

set_option maxHeartbeats 1600000

/-!
Verification of the image-placement resolution subsystem of the
hebrew-bible-ereader repository: the placement Normalizer
(fix_placements.py), the even-distribution Builder and the
uniqueness-aware Selector (generate_tanakh.py), and the roman-numeral
reference decoder (generate_placement_map.py / suggest_placements.py).

Python dictionaries are modelled as insertion-ordered association lists
with unique keys; machine integers are Int/Nat; fallible operations
return Option/Except.
-/

namespace HebrewBible

/-! ## Association-list model of a Python dict -/

/-- A placement map: Python dict mapping filename to a list of
reference strings (insertion-ordered; keys unique). -/
abbrev PMap := List (String × List String)

/-- Dictionary lookup on an association list (first matching key). -/
def alookup {α β : Type} [DecidableEq α] : List (α × β) → α → Option β
  | [], _ => none
  | p :: ps, k => if p.1 = k then some p.2 else alookup ps k

/-- `data[fn] = v` on an existing key: replace the value, keep order. -/
def setKey (d : PMap) (k : String) (v : List String) : PMap :=
  d.map (fun p => if p.1 = k then (k, v) else p)

/-! ## Integer and reference parsing (fix_placements.parse_ref) -/

/-- Numeric value of an ASCII digit character. -/
def digitVal (c : Char) : Option Nat :=
  if '0' ≤ c ∧ c ≤ '9' then some (c.toNat - '0'.toNat) else none

/-- Parse a non-empty all-digit character run. -/
def parseDigits (cs : List Char) : Option Nat :=
  if cs.isEmpty then none
  else cs.foldl (fun acc c =>
    match acc, digitVal c with
    | some a, some d => some (a * 10 + d)
    | _, _ => none) (some 0)

/-- Model of Python `int(s)` on the strings this program produces:
an optional sign followed by a non-empty digit run. -/
def pyInt (s : String) : Option Int :=
  match s.data with
  | [] => none
  | c :: rest =>
    if c = '-' then (parseDigits rest).map (fun n => -(n : Int))
    else if c = '+' then (parseDigits rest).map (fun n => (n : Int))
    else (parseDigits (c :: rest)).map (fun n => (n : Int))

/-- `s.rsplit(" ", 1)` restricted to the two-part case: split at the
last space; `none` when the string has no space. -/
def rsplitSpace : List Char → Option (List Char × List Char)
  | [] => none
  | c :: cs =>
    match rsplitSpace cs with
    | some (l, r) => some (c :: l, r)
    | none => if c = ' ' then some ([], cs) else none

/-- `fix_placements.parse_ref`: split a `"<Book> <chapter>"` string at
its last space and parse the chapter as an integer; `none` on failure. -/
def parse_ref (ref : String) : Option (String × Int) :=
  match rsplitSpace ref.data with
  | none => none
  | some (bk, ch) =>
    match pyInt (String.mk ch) with
    | none => none
    | some n => some (String.mk bk, n)

/-! ## The canonical 39-book registry (fix_placements.BOOK_CHAPTER_COUNTS) -/

def BOOK_CHAPTER_COUNTS : List (String × Int) :=
  [("Genesis", 50), ("Exodus", 40), ("Leviticus", 27), ("Numbers", 36),
   ("Deuteronomy", 34),
   ("Joshua", 24), ("Judges", 21), ("I_Samuel", 31), ("II_Samuel", 24),
   ("I_Kings", 22), ("II_Kings", 25), ("Isaiah", 66), ("Jeremiah", 52),
   ("Ezekiel", 48), ("Hosea", 14), ("Joel", 4), ("Amos", 9),
   ("Obadiah", 1), ("Jonah", 4), ("Micah", 7), ("Nahum", 3),
   ("Habakkuk", 3), ("Zephaniah", 3), ("Haggai", 2), ("Zechariah", 14),
   ("Malachi", 3),
   ("Psalms", 150), ("Proverbs", 31), ("Job", 42), ("Song_of_Songs", 8),
   ("Ruth", 4), ("Lamentations", 5), ("Ecclesiastes", 12), ("Esther", 10),
   ("Daniel", 12), ("Ezra", 10), ("Nehemiah", 13), ("I_Chronicles", 29),
   ("II_Chronicles", 36)]

/-- `BOOK_CHAPTER_COUNTS.get(book)` combined with Python's falsiness
test `if not maxc` (both `None` and `0` are falsy). -/
def getMaxc (book : String) : Option Int :=
  match alookup BOOK_CHAPTER_COUNTS book with
  | none => none
  | some m => if m = 0 then none else some m

/-! ## highest_free -/

/-- Scan candidates `k, k-1, ..., 1` for the first one not in `used`. -/
def highestFreeFrom (used : List Int) : Nat → Option Int
  | 0 => none
  | k + 1 =>
    if ((k + 1 : Nat) : Int) ∈ used then highestFreeFrom used k
    else some ((k + 1 : Nat) : Int)

/-- `fix_placements.highest_free`: highest chapter of `book` (from
`chapterCount` downward) not in `used`; `none` if the book is unknown
or every chapter is used. -/
def highest_free (book : String) (used : List Int) : Option Int :=
  match getMaxc book with
  | none => none
  | some m => highestFreeFrom used m.toNat

/-! ## The Normalizer (fix_placements.main) -/

/-- One change-log line `<reason>: <filename>: <book> <old> -> <new>`. -/
structure ChangeEntry where
  reason : String
  fn : String
  book : String
  oldc : Int
  newc : Int
deriving DecidableEq, Repr

/-- Decimal digit character for `d < 10`. -/
def digitChar (d : Nat) : Char := Char.ofNat ('0'.toNat + d)

/-- Digit-extraction loop with structural fuel (any `fuel > n` is
enough). -/
def natDigitsAux : Nat → Nat → List Char
  | 0, _ => []
  | fuel + 1, n =>
    if n < 10 then [digitChar n]
    else natDigitsAux fuel (n / 10) ++ [digitChar (n % 10)]

/-- Decimal digit string of a natural number (what Python string
interpolation prints for a non-negative int). -/
def natDigits (n : Nat) : List Char := natDigitsAux (n + 1) n

/-- Decimal rendering of an integer (Python `str` of an int). -/
def intRepr (c : Int) : String :=
  if c < 0 then String.mk ('-' :: natDigits (-c).toNat)
  else String.mk (natDigits c.toNat)

/-- Rendering of a change-log entry as the printed line. -/
def ChangeEntry.render (e : ChangeEntry) : String :=
  e.reason ++ ": " ++ e.fn ++ ": " ++ e.book ++ " " ++ intRepr e.oldc
    ++ " -> " ++ intRepr e.newc

/-- `f"{book} {dest}"`: the canonical reference string written back. -/
def refStr (book : String) (c : Int) : String :=
  book ++ " " ++ intRepr c

/-- Per-book chapter groups: `per_book[book]` is an insertion-ordered
map chapter -> filenames assigned to it. -/
abbrev PerBook := List (String × List (Int × List String))

/-- `chmap.setdefault(chap, []).append(fn)`. -/
def chAdd (cm : List (Int × List String)) (chap : Int) (fn : String) :
    List (Int × List String) :=
  match cm with
  | [] => [(chap, [fn])]
  | p :: ps => if p.1 = chap then (p.1, p.2 ++ [fn]) :: ps else p :: chAdd ps chap fn

/-- `per_book.setdefault(book, {}).setdefault(chap, []).append(fn)`. -/
def pbAdd (pb : PerBook) (book : String) (chap : Int) (fn : String) : PerBook :=
  match pb with
  | [] => [(book, [(chap, [fn])])]
  | p :: ps => if p.1 = book then (p.1, chAdd p.2 chap fn) :: ps else p :: pbAdd ps book chap fn

/-- The contribution of one entry's reference list to the `used` set
computed for `book` (the set comprehension in fix_placements.main). -/
def usedEntry (book : String) (maxc : Int) (refs : List String) : Option Int :=
  match refs with
  | [] => none
  | r :: _ =>
    match parse_ref r with
    | none => none
    | some bc => if bc.1 = book ∧ 1 ≤ bc.2 ∧ bc.2 ≤ maxc then some bc.2 else none

/-- The `used` set for `book`: in-range primary chapters of all entries
currently referencing `book`. -/
def usedOf (data : PMap) (book : String) (maxc : Int) : List Int :=
  data.filterMap (fun p => usedEntry book maxc p.2)

/-- State threaded through the first pass of the Normalizer. -/
structure St1 where
  data : PMap
  per_book : PerBook
  changes : List ChangeEntry
deriving Repr

/-- One iteration of the first pass (per-entry range repair and
per-book grouping) of fix_placements.main. -/
def phase1Step (st : St1) (fn : String) (refs : List String) : St1 :=
  match refs with
  | [] => st
  | r :: _ =>
    match parse_ref r with
    | none => st
    | some bc =>
      match getMaxc bc.1 with
      | none => st
      | some maxc =>
        if bc.2 < 1 ∨ maxc < bc.2 then
          match highest_free bc.1 (usedOf st.data bc.1 maxc) with
          | some dest =>
            { data := setKey st.data fn [refStr bc.1 dest]
              per_book := pbAdd st.per_book bc.1 dest fn
              changes := st.changes ++ [⟨"fix-range", fn, bc.1, bc.2, dest⟩] }
          | none => { st with per_book := pbAdd st.per_book bc.1 bc.2 fn }
        else { st with per_book := pbAdd st.per_book bc.1 bc.2 fn }

/-- First pass: walk the map in insertion order, repairing
out-of-range chapters and grouping entries per book. -/
def phase1 (data : PMap) : St1 :=
  data.foldl (fun st p => phase1Step st p.1 p.2) ⟨data, [], []⟩

/-- Destination for a displaced duplicate: highest free chapter, or the
book's last chapter when none is free. -/
def dupDest (book : String) (maxc : Int) (used : List Int) : Int :=
  match highest_free book used with
  | some d => d
  | none => maxc

/-- State threaded through one book's duplicate-resolution pass. -/
structure St2 where
  data : PMap
  used : List Int
  changes : List ChangeEntry

/-- Move one surplus filename away from chapter `chap` (the inner loop
of the duplicate-resolution pass). -/
def moveOne (book : String) (maxc : Int) (chap : Int) (st : St2) (fn : String) : St2 :=
  let dest := dupDest book maxc st.used
  if dest = chap then st
  else
    { data := setKey st.data fn [refStr book dest]
      used := dest :: st.used
      changes := st.changes ++ [⟨"move-dup", fn, book, chap, dest⟩] }

/-- Process one chapter group: keep the first filename, displace the
rest. -/
def phase2Chap (book : String) (maxc : Int) (cm : List (Int × List String))
    (st : St2) (chap : Int) : St2 :=
  let fns := (alookup cm chap).getD []
  if fns.length ≤ 1 then st
  else fns.tail.foldl (moveOne book maxc chap) st

/-- Insert into an ascending list of chapters. -/
def insertIntSorted (x : Int) : List Int → List Int
  | [] => [x]
  | y :: ys => if x ≤ y then x :: y :: ys else y :: insertIntSorted x ys

/-- `sorted(chmap.keys())`. -/
def sortInts (l : List Int) : List Int := l.foldr insertIntSorted []

/-- Duplicate resolution for one book of `per_book`. -/
def phase2Book (acc : PMap × List ChangeEntry) (e : String × List (Int × List String)) :
    PMap × List ChangeEntry :=
  match getMaxc e.1 with
  | none => acc
  | some maxc =>
    let used := (e.2.filter (fun p => !p.2.isEmpty)).map Prod.fst
    let chaps := sortInts (e.2.map Prod.fst)
    let st := chaps.foldl (fun st c => phase2Chap e.1 maxc e.2 st c)
      ⟨acc.1, used, acc.2⟩
    (st.data, st.changes)

/-- `fix_placements.main` as a function from the loaded placement map
to the written-back map and the change log. -/
def normalize (data : PMap) : PMap × List ChangeEntry :=
  let st := phase1 data
  st.per_book.foldl phase2Book (st.data, st.changes)

/-! ## Roman-numeral decoding
(generate_placement_map.roman_to_int / suggest_placements.roman_to_int) -/

/-- The symbol table shared by both decoder copies. -/
def romanValue (c : Char) : Option Int :=
  if c = 'I' then some 1
  else if c = 'V' then some 5
  else if c = 'X' then some 10
  else if c = 'L' then some 50
  else if c = 'C' then some 100
  else if c = 'D' then some 500
  else if c = 'M' then some 1000
  else none

/-- The subtractive-rule accumulation loop over the reversed symbol
run (`total`, `prev` as in the source). -/
def romanGo (total prev : Int) : List Char → Option Int
  | [] => some total
  | c :: rest =>
    match romanValue c with
    | none => none
    | some v => romanGo (if v < prev then total - v else total + v) v rest

/-- `roman_to_int`: empty input and non-symbol characters yield `none`;
a zero total is also `none` (Python `total or None`). -/
def roman_to_int (s : String) : Option Int :=
  if s.data.isEmpty then none
  else
    match romanGo 0 0 ((s.data.map Char.toUpper).reverse) with
    | none => none
    | some total => if total = 0 then none else some total

/-! ## The Builder's even-distribution targets
(generate_tanakh._build_balanced_placements) -/

/-- The list of initial target chapters computed for `count` images in
a book of `chapters` chapters (before collision probing):
`max(1, min(chapters, (i + 1) * (chapters + 1) // (count + 1)))`. -/
def balancedTargets (chapters count : Nat) : List Nat :=
  (List.range count).map
    (fun i => max 1 (min chapters ((i + 1) * (chapters + 1) / (count + 1))))

/-- Rounding of `a / b` to the nearest integer, ties to even (the
semantics of Python `round`). Used only to state the spec's version of
the Builder formula. -/
def roundNearest (a b : Nat) : Nat :=
  let q := a / b
  let r := a % b
  if 2 * r < b then q
  else if b < 2 * r then q + 1
  else if q % 2 = 0 then q else q + 1

/-- The target formula as the spec words it (with `round` in place of
the code's floor division); kept separate so it can be compared with
`balancedTargets`, which is translated from the source. -/
def specTarget (chapters count i : Nat) : Nat :=
  max 1 (min chapters (roundNearest ((i + 1) * (chapters + 1)) (count + 1)))

/-! ## The uniqueness-aware Selector (generate_tanakh.TanakhGenerator) -/

/-- One image record from the Chagall download config. -/
structure ImageRec where
  filename : String
  title : String
  path : String
  book : String
deriving DecidableEq, Repr

/-- One record of how an image was used (the Illustration Index). -/
structure UsageRec where
  kind : String
  book : String
  chapter : Option Int
deriving DecidableEq, Repr

/-- The generator's per-run configuration: the loaded maps and tables
that selection consults but never mutates. `images_exist` models the
filesystem probe `Path("images")/filename).exists()`. -/
structure Cfg where
  explicit_enabled : Bool
  explicit_book_intro : List (String × String)
  explicit_chapter_map : List ((String × Int) × String)
  image_map : List ((String × Int) × String)
  balanced_chapter_map : List ((String × Int) × String)
  chagall_chapter_map : List ((String × Int) × List String)
  chagall_images : List (String × List ImageRec)
  all_chagall_images : List ImageRec
  book_intro_overrides : List (String × String)
  book_order : List String
  source_book_by_filename : List (String × String)
  images_exist : String → Bool

/-- The per-run mutable usage state (the UsageLedger). -/
structure Ledger where
  used_images : List String
  image_usages : List (String × List UsageRec)
  source_book_usage_counts : List (String × Nat)

/-- Update an association list at a key (Python dict assignment). -/
def aset {α β : Type} [DecidableEq α] : List (α × β) → α → β → List (α × β)
  | [], k, v => [(k, v)]
  | p :: ps, k, v => if p.1 = k then (k, v) :: ps else p :: aset ps k v

/-- `image_usages.setdefault(fn, []).append(rec)`. -/
def usageAdd : List (String × List UsageRec) → String → UsageRec →
    List (String × List UsageRec)
  | [], fn, r => [(fn, [r])]
  | p :: ps, fn, r =>
    if p.1 = fn then (p.1, p.2 ++ [r]) :: ps else p :: usageAdd ps fn r

/-- `source_book_by_filename.get(fn, "General")`. -/
def srcBook (cfg : Cfg) (fn : String) : String :=
  (alookup cfg.source_book_by_filename fn).getD "General"

/-- `initLedger`: empty usage set and zeroed per-source-book counters
(`__init__` of TanakhGenerator). -/
def initLedger (cfg : Cfg) : Ledger :=
  ⟨[], [], (cfg.book_order ++ ["General"]).map (fun b => (b, 0))⟩

/-- Append a usage record for `fn` to the Illustration Index. -/
def recordUsage (led : Ledger) (fn : String) (r : UsageRec) : Ledger :=
  { led with image_usages := usageAdd led.image_usages fn r }

/-- Mark `fn` used and bump its source book's usage counter. -/
def markUsed (cfg : Cfg) (led : Ledger) (fn : String) : Ledger :=
  { led with
    used_images := fn :: led.used_images
    source_book_usage_counts :=
      aset led.source_book_usage_counts (srcBook cfg fn)
        ((alookup led.source_book_usage_counts (srcBook cfg fn)).getD 0 + 1) }

/-- Python falsiness of an optional string: `None` and `""` coincide. -/
def optStr : Option String → Option String
  | some s => if s = "" then none else some s
  | none => none

/-- The sort key of `pick_candidate_for_chapter`: prefer source book
equal to the target book, then lower source-book usage, then earlier
canonical position, then the filename itself. -/
def scoreKey (cfg : Cfg) (led : Ledger) (book fn : String) : Nat × Nat × Nat × String :=
  let src := srcBook cfg fn
  let prefer : Nat := if src = book then 0 else 1
  let usage := (alookup led.source_book_usage_counts src).getD 0
  let order := if src ∈ cfg.book_order then cfg.book_order.indexOf src
    else cfg.book_order.length + 1
  (prefer, usage, order, fn)

/-- Lexicographic (code-point) string comparison, Python `<=`. -/
def strLeb : List Char → List Char → Bool
  | [], _ => true
  | _ :: _, [] => false
  | a :: as, b :: bs =>
    if a.toNat < b.toNat then true
    else if b.toNat < a.toNat then false
    else strLeb as bs

/-- Lexicographic comparison of sort keys (Python tuple ordering). -/
def keyLeb (x y : Nat × Nat × Nat × String) : Bool :=
  if x.1 ≠ y.1 then decide (x.1 < y.1)
  else if x.2.1 ≠ y.2.1 then decide (x.2.1 < y.2.1)
  else if x.2.2.1 ≠ y.2.2.1 then decide (x.2.2.1 < y.2.2.1)
  else strLeb x.2.2.2.data y.2.2.2.data

/-- Insert into a list sorted by `le`. -/
def insertLeb {α : Type} (le : α → α → Bool) (x : α) : List α → List α
  | [] => [x]
  | y :: ys => if le x y then x :: y :: ys else y :: insertLeb le x ys

/-- Insertion sort by `le` (models Python `list.sort(key=...)`). -/
def sortLeb {α : Type} (le : α → α → Bool) (l : List α) : List α :=
  l.foldr (insertLeb le) []

/-- `pick_candidate_for_chapter`: among unused images whose placement
map primary reference is exactly (book, chap), the minimum under the
score order. -/
def pick_candidate_for_chapter (cfg : Cfg) (led : Ledger) (book : String) (chap : Int) :
    Option String :=
  if cfg.chagall_chapter_map.isEmpty then none
  else
    let files := (alookup cfg.chagall_chapter_map (book, chap)).getD []
    if files.isEmpty then none
    else
      let unused := files.filter (fun f => !(decide (f ∈ led.used_images)))
      if unused.isEmpty then none
      else
        (sortLeb (fun a b =>
          keyLeb (scoreKey cfg led book a) (scoreKey cfg led book b)) unused).head?

/-- `for img in all_chagall_images: if img["filename"] == filename`. -/
def findByFilename (ims : List ImageRec) (fn : String) : Option ImageRec :=
  ims.find? (fun im => im.filename == fn)

/-- Split at the last occurrence of `sep` (generalizes `rsplitSpace`). -/
def rsplitChar (sep : Char) : List Char → Option (List Char × List Char)
  | [] => none
  | c :: cs =>
    match rsplitChar sep cs with
    | some (l, r) => some (c :: l, r)
    | none => if c = sep then some ([], cs) else none

/-- `Path(filename).stem.replace("_", " ")`. -/
def stemTitle (fn : String) : String :=
  String.mk ((match rsplitChar '.' fn.data with
    | some p => p.1
    | none => fn.data).map (fun c => if c = '_' then ' ' else c))

/-- First image in the list that is truthy and not yet used. -/
def first_unused (led : Ledger) : List ImageRec → Option ImageRec
  | [] => none
  | im :: ims =>
    if im.filename ≠ "" ∧ im.filename ∉ led.used_images then some im
    else first_unused led ims

/-- `_select_book_image`: explicit mode resolves (or fails on) the
required mapping; heuristic mode tries the override, then the book's
pool, then the General pool. -/
def select_book_image (cfg : Cfg) (led : Ledger) (book : String) :
    Except String (Option ImageRec) :=
  if cfg.explicit_enabled then
    match optStr (alookup cfg.explicit_book_intro book) with
    | none => Except.error ("Missing explicit intro image for book: " ++ book)
    | some filename =>
      match findByFilename cfg.all_chagall_images filename with
      | some img => Except.ok (some img)
      | none =>
        if cfg.images_exist filename then
          Except.ok (some ⟨filename, stemTitle filename, "images/" ++ filename, "General"⟩)
        else Except.error ("Intro image not found for " ++ book ++ ": " ++ filename)
  else
    let images := (alookup cfg.chagall_images book).getD []
    let ovPick :=
      match optStr (alookup cfg.book_intro_overrides book) with
      | some ov =>
        images.find? (fun im => im.filename == ov && !(decide (im.filename ∈ led.used_images)))
      | none => none
    match ovPick with
    | some im => Except.ok (some im)
    | none =>
      match first_unused led images with
      | some im => Except.ok (some im)
      | none => Except.ok (first_unused led ((alookup cfg.chagall_images "General").getD []))

/-- The book-intro operation (`create_book_intro_page` up to the point
the page is rendered): select, record, enforce explicit-mode
uniqueness, mark used. -/
def selectBookIntroImage (cfg : Cfg) (led : Ledger) (book : String) :
    Except String (Option String × Ledger) :=
  match select_book_image cfg led book with
  | Except.error e => Except.error e
  | Except.ok none => Except.ok (none, led)
  | Except.ok (some img) =>
    let led1 := recordUsage led img.filename ⟨"intro", book, none⟩
    if cfg.explicit_enabled ∧ img.filename ∈ led1.used_images then
      Except.error ("Image reused across intro/chapters: " ++ img.filename)
    else Except.ok (some img.filename, markUsed cfg led1 img.filename)

/-- Record and mark a chosen chapter image (`if image_file:` tail of
`create_chapter_responsive`). -/
def finishChapter (cfg : Cfg) (led : Ledger) (book : String) (chap : Int) :
    Option String → Option String × Ledger
  | none => (none, led)
  | some f =>
    let led1 := recordUsage led f ⟨"chapter", book, some chap⟩
    (some f, markUsed cfg led1 f)

/-- The first image-map probe of `create_chapter_responsive`: the
explicit per-chapter map in strict mode, the hand-curated map
otherwise. -/
def chapterMapPick (cfg : Cfg) (book : String) (chap : Int) : Option String :=
  if cfg.explicit_enabled then optStr (alookup cfg.explicit_chapter_map (book, chap))
  else optStr (alookup cfg.image_map (book, chap))

/-- The same probe after the balanced-distribution fallback
(`if not image_file and not explicit`). -/
def chapterMapPick2 (cfg : Cfg) (book : String) (chap : Int) : Option String :=
  match chapterMapPick cfg book chap with
  | none =>
    if cfg.explicit_enabled then none
    else optStr (alookup cfg.balanced_chapter_map (book, chap))
  | some f => some f

/-- The chapter-image operation (image-selection portion of
`create_chapter_responsive`): explicit/hand-curated map, then balanced
slot, then placement-map candidates; used images are rejected (a hard
error in explicit mode). -/
def selectChapterImage (cfg : Cfg) (led : Ledger) (book : String) (chap : Int) :
    Except String (Option String × Ledger) :=
  match chapterMapPick2 cfg book chap with
  | some f =>
    if f ∈ led.used_images then
      if cfg.explicit_enabled then
        Except.error ("Image reused across intro/chapters: " ++ f)
      else
        Except.ok (finishChapter cfg led book chap
          (optStr (pick_candidate_for_chapter cfg led book chap)))
    else Except.ok (finishChapter cfg led book chap (some f))
  | none =>
    if cfg.explicit_enabled then Except.ok (finishChapter cfg led book chap none)
    else
      Except.ok (finishChapter cfg led book chap
        (optStr (pick_candidate_for_chapter cfg led book chap)))

/-- One selection step of a generation run. -/
inductive Op where
  | intro (book : String)
  | chapter (book : String) (chap : Int)

/-- Run one operation. -/
def runOp (cfg : Cfg) (led : Ledger) : Op → Except String (Option String × Ledger)
  | Op.intro b => selectBookIntroImage cfg led b
  | Op.chapter b c => selectChapterImage cfg led b c

/-- Run a sequence of operations, collecting the selected filenames; a
raised error aborts the run. -/
def runOps (cfg : Cfg) : Ledger → List Op → List (Option String) × Ledger
  | led, [] => ([], led)
  | led, op :: ops =>
    match runOp cfg led op with
    | Except.error _ => ([], led)
    | Except.ok (r, led1) =>
      let rest := runOps cfg led1 ops
      (r :: rest.1, rest.2)

/-- Every filename the chapter-image operation can select for
`(book, chap)`: the hand-curated map entry, the balanced slot, and the
placement-map candidates. -/
def chapterCandidates (cfg : Cfg) (book : String) (chap : Int) : List String :=
  (match alookup cfg.image_map (book, chap) with
    | some f => [f]
    | none => []) ++
  (match alookup cfg.balanced_chapter_map (book, chap) with
    | some f => [f]
    | none => []) ++
  (alookup cfg.chagall_chapter_map (book, chap)).getD []

/-! ## Views of a placement map used to state the Normalizer's
invariants -/

/-- The parsed primary reference of an entry (first list element). -/
def primary (refs : List String) : Option (String × Int) :=
  match refs with
  | [] => none
  | r :: _ => parse_ref r

/-- The primary chapter an entry assigns to book `b`, if any. -/
def entryChap (b : String) (refs : List String) : Option Int :=
  match refs with
  | [] => none
  | r :: _ =>
    match parse_ref r with
    | none => none
    | some bc => if bc.1 = b then some bc.2 else none

/-- The chapters `1, 2, ..., m` as integers. -/
def intsUpTo (m : Nat) : List Int :=
  (List.range m).map (fun i => (i : Int) + 1)

/-- The multiset (as a list) of primary chapters the map assigns to
book `b`. -/
def chaptersOf (d : PMap) (b : String) : List Int :=
  d.filterMap (fun p => entryChap b p.2)

/-- The (chapter, filename) pairs the map assigns to book `b`. -/
def dataPairs (d : PMap) (b : String) : List (Int × String) :=
  d.filterMap (fun p => (entryChap b p.2).map (fun c => (c, p.1)))

/-- The (chapter, filename) pairs stored in one book's `per_book`
chapter groups. -/
def pbPairs (cm : List (Int × List String)) : List (Int × String) :=
  (cm.map (fun p => p.2.map (fun fn => (p.1, fn)))).flatten

/-- The (chapter, filename) pairs recorded for book `b` in `per_book`. -/
def pbPairsOf (pb : PerBook) (b : String) : List (Int × String) :=
  pbPairs ((alookup pb b).getD [])

/-- The keys (filenames) of a placement map. -/
def keysOf (d : PMap) : List String := d.map Prod.fst

/-- Chapter `c` is out of range for a book of `m` chapters. -/
abbrev outRange (m c : Int) : Prop := c < 1 ∨ m < c

/-- Normal form of a placement map: out-of-range chapters and repeat
assignments survive only when every chapter of the book is occupied
in range (the book is overfull). -/
def NormalMap (d : PMap) : Prop :=
  ∀ b m, getMaxc b = some m →
    (∀ c, c ∈ chaptersOf d b → outRange m c →
      ∀ x : Int, 1 ≤ x → x ≤ m → x ∈ usedOf d b m) ∧
    (∀ c, c ≠ m → (chaptersOf d b).count c ≤ 1) ∧
    (1 < (chaptersOf d b).count m →
      ∀ x : Int, 1 ≤ x → x ≤ m → x ∈ usedOf d b m)

/-- The running invariant of the first pass: `P` is the processed
prefix (with repairs applied), `S` the untouched suffix. -/
def Phase1Pre (dorig P S : PMap) (pb : PerBook) (ch : List ChangeEntry) : Prop :=
  (keysOf (P ++ S)).Nodup ∧
  (∀ q ∈ S, alookup dorig q.1 = some q.2) ∧
  (∀ b m, getMaxc b = some m → (pbPairsOf pb b).Perm (dataPairs P b)) ∧
  (pb.map Prod.fst).Nodup ∧
  (∀ q ∈ pb, getMaxc q.1 ≠ none) ∧
  (∀ q ∈ pb, (q.2.map Prod.fst).Nodup) ∧
  (∀ q ∈ pb, ∀ g ∈ q.2, g.2 ≠ []) ∧
  (∀ b m, getMaxc b = some m → ∀ c ∈ chaptersOf P b, outRange m c →
    ∀ x : Int, 1 ≤ x → x ≤ m → x ∈ usedOf (P ++ S) b m) ∧
  (∀ e ∈ ch, ∃ refs bc, alookup dorig e.fn = some refs ∧ primary refs = some bc) ∧
  (∀ fn, (∀ e ∈ ch, e.fn ≠ fn) → alookup (P ++ S) fn = alookup dorig fn)

/-- Established by the first pass of the Normalizer: keys are
preserved, `per_book` mirrors the data per registered book, chapter
groups are well-formed, out-of-range survivors imply a fully occupied
book, change subjects had parseable originals, and unchanged entries
keep their original values. -/
def Phase1Inv (dorig : PMap) (ks : List String) (st : St1) : Prop :=
  keysOf st.data = ks ∧
  (∀ b m, getMaxc b = some m →
    (pbPairsOf st.per_book b).Perm (dataPairs st.data b)) ∧
  (st.per_book.map Prod.fst).Nodup ∧
  (∀ q ∈ st.per_book, getMaxc q.1 ≠ none) ∧
  (∀ q ∈ st.per_book, (q.2.map Prod.fst).Nodup) ∧
  (∀ q ∈ st.per_book, ∀ g ∈ q.2, g.2 ≠ []) ∧
  (∀ b m, getMaxc b = some m → ∀ c ∈ chaptersOf st.data b, outRange m c →
    ∀ x : Int, 1 ≤ x → x ≤ m → x ∈ usedOf st.data b m) ∧
  (∀ e ∈ st.changes, ∃ refs bc, alookup dorig e.fn = some refs ∧
    primary refs = some bc) ∧
  (∀ fn, (∀ e ∈ st.changes, e.fn ≠ fn) → alookup st.data fn = alookup dorig fn)

/-- The out-of-range survivors condition: any out-of-range chapter of
a registered book implies every chapter of that book is occupied in
range. -/
def InvA (d : PMap) : Prop :=
  ∀ b m, getMaxc b = some m → ∀ c ∈ chaptersOf d b, outRange m c →
    ∀ x : Int, 1 ≤ x → x ≤ m → x ∈ usedOf d b m

/-- The duplicate-resolution postcondition for one book: repeats only
at the last chapter, and only when the whole book is occupied. -/
def BookCnt (d : PMap) (b : String) (m : Int) : Prop :=
  (∀ c : Int, c ≠ m → (chaptersOf d b).count c ≤ 1) ∧
  (1 < (chaptersOf d b).count m → ∀ x : Int, 1 ≤ x → x ≤ m → x ∈ usedOf d b m)

/-- Change-log subjects had parseable original entries. -/
def ChOk (dorig : PMap) (ch : List ChangeEntry) : Prop :=
  ∀ e ∈ ch, ∃ refs bc, alookup dorig e.fn = some refs ∧ primary refs = some bc

/-- Entries never mentioned in the change log keep their original
values. -/
def FrameOk (dorig d : PMap) (ch : List ChangeEntry) : Prop :=
  ∀ fn, (∀ e ∈ ch, e.fn ≠ fn) → alookup d fn = alookup dorig fn

/-- Invariant of the per-book duplicate-resolution fold, with `R` the
chapters still to process. -/
def Phase2In (dorig dz : PMap) (b : String) (m : Int)
    (cm : List (Int × List String)) (R : List Int) (st : St2) : Prop :=
  keysOf st.data = keysOf dz ∧
  (∀ b2, b2 ≠ b → dataPairs st.data b2 = dataPairs dz b2) ∧
  InvA st.data ∧
  (∀ c ∈ chaptersOf st.data b, c ∈ st.used) ∧
  (∀ x ∈ st.used, x ∈ chaptersOf st.data b) ∧
  (∀ c ∈ R, ∀ fn ∈ (alookup cm c).getD [], (c, fn) ∈ dataPairs st.data b) ∧
  (∀ c ∈ R, c ≠ m → (chaptersOf st.data b).count c = ((alookup cm c).getD []).length) ∧
  (m ∈ R → ((alookup cm m).getD []).length ≤ (chaptersOf st.data b).count m ∧
    (((alookup cm m).getD []).length < (chaptersOf st.data b).count m →
      ∀ x : Int, 1 ≤ x → x ≤ m → x ∈ st.used)) ∧
  (∀ c : Int, c ∉ R → c ≠ m → (chaptersOf st.data b).count c ≤ 1) ∧
  (m ∉ R → 1 < (chaptersOf st.data b).count m →
    ∀ x : Int, 1 ≤ x → x ≤ m → x ∈ st.used) ∧
  ChOk dorig st.changes ∧
  FrameOk dorig st.data st.changes

/-- Invariant while displacing the surplus filenames of one chapter
group (`c0` the chapter being processed, `ftail` the extras left). -/
def MGInv (dorig dz : PMap) (b : String) (m : Int)
    (cm : List (Int × List String)) (Rr : List Int) (c0 : Int)
    (ftail : List String) (st : St2) : Prop :=
  keysOf st.data = keysOf dz ∧
  (∀ b2, b2 ≠ b → dataPairs st.data b2 = dataPairs dz b2) ∧
  InvA st.data ∧
  (∀ c ∈ chaptersOf st.data b, c ∈ st.used) ∧
  (∀ x ∈ st.used, x ∈ chaptersOf st.data b) ∧
  (∀ c ∈ Rr, ∀ fn ∈ (alookup cm c).getD [], (c, fn) ∈ dataPairs st.data b) ∧
  (∀ c ∈ Rr, c ≠ m → (chaptersOf st.data b).count c = ((alookup cm c).getD []).length) ∧
  (m ∈ Rr → ((alookup cm m).getD []).length ≤ (chaptersOf st.data b).count m ∧
    (((alookup cm m).getD []).length < (chaptersOf st.data b).count m →
      ∀ x : Int, 1 ≤ x → x ≤ m → x ∈ st.used)) ∧
  (∀ c : Int, c ∉ Rr → c ≠ m → c ≠ c0 → (chaptersOf st.data b).count c ≤ 1) ∧
  (m ∉ Rr → m ≠ c0 → 1 < (chaptersOf st.data b).count m →
    ∀ x : Int, 1 ≤ x → x ≤ m → x ∈ st.used) ∧
  (∀ fn ∈ ftail, (c0, fn) ∈ dataPairs st.data b) ∧
  ((c0 ≠ m → (chaptersOf st.data b).count c0 = 1 + ftail.length) ∧
   (c0 = m → 1 + ftail.length ≤ (chaptersOf st.data b).count c0 ∧
     (1 + ftail.length < (chaptersOf st.data b).count c0 →
       ∀ x : Int, 1 ≤ x → x ≤ m → x ∈ st.used))) ∧
  ChOk dorig st.changes ∧
  FrameOk dorig st.data st.changes

/-! # Theorems -/

/-! ## Roman decoding -/

theorem romanGo_none_of_bad {cs : List Char} (hbad : ∃ c ∈ cs, romanValue c = none) :
    ∀ total prev : Int, romanGo total prev cs = none := by
  induction cs with
  | nil => rcases hbad with ⟨c, hc, _⟩; cases hc
  | cons c rest ih =>
    intro total prev
    rcases hbad with ⟨d, hd, hv⟩
    rcases List.mem_cons.mp hd with rfl | hdr
    · simp [romanGo, hv]
    · cases hvc : romanValue c with
      | none => simp [romanGo, hvc]
      | some v => simpa [romanGo, hvc] using ih ⟨d, hdr, hv⟩ _ _

/-- Claim C7: the roman decoder uses subtractive decoding and fails
softly — it decodes XIV, IX, III (and the malformed IIII
permissively), rejects the empty string, and returns none whenever any
character is outside the seven symbol letters. -/
theorem c7_roman_decoder :
    roman_to_int (String.mk ['X', 'I', 'V']) = some 14 ∧
    roman_to_int (String.mk ['I', 'X']) = some 9 ∧
    roman_to_int (String.mk ['I', 'I', 'I']) = some 3 ∧
    roman_to_int (String.mk []) = none ∧
    roman_to_int (String.mk ['I', 'I', 'I', 'I']) = some 4 ∧
    (∀ s : String, (∃ c ∈ s.data, romanValue c.toUpper = none) →
      roman_to_int s = none) := by
  refine ⟨by rfl, by rfl, by rfl, by rfl, by rfl, ?_⟩
  intro s hbad
  rcases hbad with ⟨c, hc, hv⟩
  have hne : s.data.isEmpty = false := by
    cases hd : s.data with
    | nil => rw [hd] at hc; cases hc
    | cons a l => rfl
  have hmem : c.toUpper ∈ (s.data.map Char.toUpper).reverse :=
    List.mem_reverse.mpr (List.mem_map_of_mem Char.toUpper hc)
  unfold roman_to_int
  rw [hne, romanGo_none_of_bad ⟨c.toUpper, hmem, hv⟩]
  rfl

theorem c7_roman_decoder_witness :
    roman_to_int (String.mk ['X', 'Q']) = none :=
  c7_roman_decoder.2.2.2.2.2 (String.mk ['X', 'Q']) ⟨'Q', by decide, by decide⟩

/-! ## The Builder's even-distribution formula -/

/-- Claim C5 counterexample: at chapterCount 4, count 2, the 0-th
target computed by the code (floor division) is 1, while the spec's
rounded formula gives 2. -/
theorem c5_round_counterexample :
    (balancedTargets 4 2)[0]? = some 1 ∧ specTarget 4 2 0 = 2 ∧
    (balancedTargets 4 2)[0]? ≠ some (specTarget 4 2 0) := by decide

/-- Claim C5 (amended): the Builder's even-distribution pass computes
the i-th initial target chapter with floor division,
`max(1, min(chapterCount, (i+1) * (chapterCount+1) // (count+1)))`. -/
theorem c5_floor_formula (chapters count i : Nat) (h : i < count) :
    (balancedTargets chapters count)[i]? =
      some (max 1 (min chapters ((i + 1) * (chapters + 1) / (count + 1)))) := by
  simp [balancedTargets, List.getElem?_map, List.getElem?_range, h]

theorem c5_floor_formula_witness :
    (balancedTargets 4 2)[0]? =
      some (max 1 (min 4 ((0 + 1) * (4 + 1) / (2 + 1)))) :=
  c5_floor_formula 4 2 0 (by decide)

theorem balancedTargets_bounds {chapters count : Nat} (h : count ≤ chapters)
    {i : Nat} (hi : i < count) :
    1 ≤ (i + 1) * (chapters + 1) / (count + 1) ∧
      (i + 1) * (chapters + 1) / (count + 1) ≤ chapters := by
  have hpos : 0 < count + 1 := Nat.succ_pos _
  constructor
  · have h1 : count + 1 ≤ (i + 1) * (chapters + 1) := by
      have h2 : 1 * (chapters + 1) ≤ (i + 1) * (chapters + 1) :=
        Nat.mul_le_mul_right _ (by omega)
      omega
    exact (Nat.one_le_div_iff hpos).mpr h1
  · have h2 : (i + 1) * (chapters + 1) < (chapters + 1) * (count + 1) := by
      have h3 : (i + 1) * (chapters + 1) ≤ count * (chapters + 1) :=
        Nat.mul_le_mul_right _ (by omega)
      have h4 : count * (chapters + 1) < (count + 1) * (chapters + 1) := by
        have he : (count + 1) * (chapters + 1) =
            count * (chapters + 1) + (chapters + 1) := by ring
        omega
      calc (i + 1) * (chapters + 1) ≤ count * (chapters + 1) := h3
        _ < (count + 1) * (chapters + 1) := h4
        _ = (chapters + 1) * (count + 1) := Nat.mul_comm _ _
    have h5 := (Nat.div_lt_iff_lt_mul hpos).mpr h2
    omega

theorem balancedTargets_strict_mono {chapters count : Nat} (h : count ≤ chapters)
    {i j : Nat} (hij : i < j) (hj : j < count) :
    (i + 1) * (chapters + 1) / (count + 1) <
      (j + 1) * (chapters + 1) / (count + 1) := by
  have hpos : 0 < count + 1 := Nat.succ_pos _
  have hstep : (i + 1) * (chapters + 1) + (count + 1) ≤ (j + 1) * (chapters + 1) := by
    have h1 : (i + 2) * (chapters + 1) ≤ (j + 1) * (chapters + 1) :=
      Nat.mul_le_mul_right _ (by omega)
    have h2 : (i + 2) * (chapters + 1) = (i + 1) * (chapters + 1) + (chapters + 1) := by
      ring
    omega
  have h1 : ((i + 1) * (chapters + 1) + (count + 1)) / (count + 1) =
      (i + 1) * (chapters + 1) / (count + 1) + 1 := Nat.add_div_right _ hpos
  have h2 : ((i + 1) * (chapters + 1) + (count + 1)) / (count + 1) ≤
      (j + 1) * (chapters + 1) / (count + 1) := Nat.div_le_div_right hstep
  omega

/-- Claim C6: when a book's image count is at most its chapter count,
the Builder's initial target chapters are pairwise distinct. -/
theorem c6_even_distribution_nodup (chapters count : Nat) (h : count ≤ chapters) :
    (balancedTargets chapters count).Nodup := by
  unfold balancedTargets
  refine List.Nodup.map_on ?_ (List.nodup_range _)
  intro x hx y hy hxy
  have hx' : x < count := List.mem_range.mp hx
  have hy' : y < count := List.mem_range.mp hy
  have ex : max 1 (min chapters ((x + 1) * (chapters + 1) / (count + 1))) =
      (x + 1) * (chapters + 1) / (count + 1) := by
    rw [min_eq_right (balancedTargets_bounds h hx').2,
      max_eq_right (balancedTargets_bounds h hx').1]
  have ey : max 1 (min chapters ((y + 1) * (chapters + 1) / (count + 1))) =
      (y + 1) * (chapters + 1) / (count + 1) := by
    rw [min_eq_right (balancedTargets_bounds h hy').2,
      max_eq_right (balancedTargets_bounds h hy').1]
  rw [ex, ey] at hxy
  rcases Nat.lt_trichotomy x y with hlt | heq | hgt
  · exact absurd hxy (Nat.ne_of_lt (balancedTargets_strict_mono h hlt hy'))
  · exact heq
  · exact absurd hxy.symm (Nat.ne_of_lt (balancedTargets_strict_mono h hgt hx'))

theorem c6_even_distribution_nodup_witness :
    (balancedTargets 5 3).Nodup :=
  c6_even_distribution_nodup 5 3 (by decide)

/-! ## Strict-mode intro selection -/

/-- Claim C9: in strict (explicit-mapping) mode, the book-intro
operation for a book with no entry in the explicit intro mapping
raises an error naming the missing book, so the run halts before that
book's intro page is produced. -/
theorem c9_strict_missing_intro (cfg : Cfg) (led : Ledger) (book : String)
    (hexp : cfg.explicit_enabled = true)
    (hmiss : alookup cfg.explicit_book_intro book = none) :
    selectBookIntroImage cfg led book =
      Except.error ("Missing explicit intro image for book: " ++ book) := by
  unfold selectBookIntroImage select_book_image
  rw [hexp, hmiss]
  rfl

theorem c9_strict_missing_intro_witness :
    selectBookIntroImage
      (Cfg.mk true [] [] [] [] [] [] [] [] [] [] (fun _ => false))
      (Ledger.mk [] [] []) "Genesis" =
      Except.error ("Missing explicit intro image for book: " ++ "Genesis") :=
  c9_strict_missing_intro _ _ "Genesis" rfl rfl

/-! ## Insertion sort: permutation, sortedness, head minimality -/

theorem insertLeb_perm {α : Type} (le : α → α → Bool) (x : α) (l : List α) :
    (insertLeb le x l).Perm (x :: l) := by
  induction l with
  | nil => simp [insertLeb]
  | cons y ys ih =>
    cases hxy : le x y with
    | true => simp [insertLeb, hxy]
    | false =>
      simp only [insertLeb, hxy, Bool.false_eq_true, if_false]
      exact (ih.cons y).trans (List.Perm.swap x y ys)

theorem sortLeb_perm {α : Type} (le : α → α → Bool) (l : List α) :
    (sortLeb le l).Perm l := by
  induction l with
  | nil => simp [sortLeb]
  | cons a l ih => exact (insertLeb_perm le a (sortLeb le l)).trans (ih.cons a)

theorem insertLeb_pairwise {α : Type} (le : α → α → Bool)
    (htot : ∀ a b, le a b = true ∨ le b a = true)
    (htrans : ∀ a b c, le a b = true → le b c = true → le a c = true)
    (x : α) (l : List α) (hl : l.Pairwise (fun a b => le a b = true)) :
    (insertLeb le x l).Pairwise (fun a b => le a b = true) := by
  induction l with
  | nil => simp [insertLeb]
  | cons y ys ih =>
    rcases List.pairwise_cons.mp hl with ⟨hy, hys⟩
    cases hxy : le x y with
    | true =>
      simp only [insertLeb, hxy, if_true]
      refine List.pairwise_cons.mpr ⟨?_, hl⟩
      intro z hz
      rcases List.mem_cons.mp hz with rfl | hzys
      · exact hxy
      · exact htrans x y z hxy (hy z hzys)
    | false =>
      simp only [insertLeb, hxy, Bool.false_eq_true, if_false]
      refine List.pairwise_cons.mpr ⟨?_, ih hys⟩
      intro z hz
      have hz' := (insertLeb_perm le x ys).mem_iff.mp hz
      rcases List.mem_cons.mp hz' with rfl | hzys
      · rcases htot z y with h | h
        · rw [h] at hxy; cases hxy
        · exact h
      · exact hy z hzys

theorem sortLeb_pairwise {α : Type} (le : α → α → Bool)
    (htot : ∀ a b, le a b = true ∨ le b a = true)
    (htrans : ∀ a b c, le a b = true → le b c = true → le a c = true)
    (l : List α) :
    (sortLeb le l).Pairwise (fun a b => le a b = true) := by
  induction l with
  | nil => simp [sortLeb]
  | cons a l ih => exact insertLeb_pairwise le htot htrans a (sortLeb le l) ih

theorem sortLeb_head_min {α : Type} (le : α → α → Bool)
    (htot : ∀ a b, le a b = true ∨ le b a = true)
    (htrans : ∀ a b c, le a b = true → le b c = true → le a c = true)
    (l : List α) (f : α) (hf : (sortLeb le l).head? = some f) :
    f ∈ l ∧ ∀ g ∈ l, le f g = true := by
  have hperm := sortLeb_perm le l
  have hpw := sortLeb_pairwise le htot htrans l
  cases hs : sortLeb le l with
  | nil => rw [hs] at hf; cases hf
  | cons a rest =>
    rw [hs] at hf hperm hpw
    have hfa : a = f := by injection hf
    subst hfa
    refine ⟨hperm.mem_iff.mp (List.mem_cons_self _ _), ?_⟩
    intro g hg
    have hg' : g ∈ a :: rest := hperm.mem_iff.mpr hg
    rcases List.mem_cons.mp hg' with h | hgr
    · subst h
      rcases htot g g with h2 | h2 <;> exact h2
    · exact (List.pairwise_cons.mp hpw).1 g hgr

/-! ## The candidate score order is a total preorder -/

theorem strLeb_total : ∀ as bs : List Char, strLeb as bs = true ∨ strLeb bs as = true := by
  intro as
  induction as with
  | nil => intro bs; left; simp [strLeb]
  | cons a as ih =>
    intro bs
    cases bs with
    | nil => right; simp [strLeb]
    | cons b bs =>
      rcases Nat.lt_trichotomy a.toNat b.toNat with h | h | h
      · left; simp [strLeb, h]
      · rcases ih bs with ht | ht
        · left; simpa [strLeb, h, Nat.lt_irrefl] using ht
        · right; simpa [strLeb, h, Nat.lt_irrefl] using ht
      · right; simp [strLeb, h]

theorem strLeb_trans : ∀ as bs cs : List Char,
    strLeb as bs = true → strLeb bs cs = true → strLeb as cs = true := by
  intro as
  induction as with
  | nil => intro bs cs _ _; simp [strLeb]
  | cons a as ih =>
    intro bs cs hab hbc
    cases bs with
    | nil => simp [strLeb] at hab
    | cons b bs =>
      cases cs with
      | nil => simp [strLeb] at hbc
      | cons c cs =>
        by_cases h1 : a.toNat < b.toNat
        · by_cases h2 : b.toNat < c.toNat
          · have h3 : a.toNat < c.toNat := Nat.lt_trans h1 h2
            simp [strLeb, h3]
          · by_cases h3 : c.toNat < b.toNat
            · simp [strLeb, h2, h3] at hbc
            · have h4 : a.toNat < c.toNat := by omega
              simp [strLeb, h4]
        · by_cases h4 : b.toNat < a.toNat
          · simp [strLeb, h1, h4] at hab
          · have hab' : strLeb as bs = true := by
              simpa [strLeb, h1, h4] using hab
            by_cases h2 : b.toNat < c.toNat
            · have h5 : a.toNat < c.toNat := by omega
              simp [strLeb, h5]
            · by_cases h3 : c.toNat < b.toNat
              · simp [strLeb, h2, h3] at hbc
              · have hbc' : strLeb bs cs = true := by
                  simpa [strLeb, h2, h3] using hbc
                have h5 : ¬ a.toNat < c.toNat := by omega
                have h6 : ¬ c.toNat < a.toNat := by omega
                simpa [strLeb, h5, h6] using ih bs cs hab' hbc'

theorem keyLeb_iff (x y : Nat × Nat × Nat × String) : keyLeb x y = true ↔
    (x.1 < y.1 ∨ (x.1 = y.1 ∧ (x.2.1 < y.2.1 ∨ (x.2.1 = y.2.1 ∧
      (x.2.2.1 < y.2.2.1 ∨ (x.2.2.1 = y.2.2.1 ∧
        strLeb x.2.2.2.data y.2.2.2.data = true)))))) := by
  unfold keyLeb
  by_cases h1 : x.1 = y.1 <;> by_cases h2 : x.2.1 = y.2.1 <;>
    by_cases h3 : x.2.2.1 = y.2.2.1 <;>
    simp [h1, h2, h3, decide_eq_true_eq]

theorem keyLeb_total (x y : Nat × Nat × Nat × String) :
    keyLeb x y = true ∨ keyLeb y x = true := by
  rw [keyLeb_iff, keyLeb_iff]
  rcases Nat.lt_trichotomy x.1 y.1 with h1 | h1 | h1
  · exact Or.inl (Or.inl h1)
  · rcases Nat.lt_trichotomy x.2.1 y.2.1 with h2 | h2 | h2
    · exact Or.inl (Or.inr ⟨h1, Or.inl h2⟩)
    · rcases Nat.lt_trichotomy x.2.2.1 y.2.2.1 with h3 | h3 | h3
      · exact Or.inl (Or.inr ⟨h1, Or.inr ⟨h2, Or.inl h3⟩⟩)
      · rcases strLeb_total x.2.2.2.data y.2.2.2.data with h | h
        · exact Or.inl (Or.inr ⟨h1, Or.inr ⟨h2, Or.inr ⟨h3, h⟩⟩⟩)
        · exact Or.inr (Or.inr ⟨h1.symm, Or.inr ⟨h2.symm, Or.inr ⟨h3.symm, h⟩⟩⟩)
      · exact Or.inr (Or.inr ⟨h1.symm, Or.inr ⟨h2.symm, Or.inl h3⟩⟩)
    · exact Or.inr (Or.inr ⟨h1.symm, Or.inl h2⟩)
  · exact Or.inr (Or.inl h1)

theorem keyLeb_trans (x y z : Nat × Nat × Nat × String)
    (hxy : keyLeb x y = true) (hyz : keyLeb y z = true) : keyLeb x z = true := by
  rw [keyLeb_iff] at hxy hyz ⊢
  rcases hxy with h1 | ⟨e1, hxy⟩
  · rcases hyz with h2 | ⟨e2, _⟩
    · exact Or.inl (Nat.lt_trans h1 h2)
    · exact Or.inl (e2 ▸ h1)
  · rcases hyz with h2 | ⟨e2, hyz⟩
    · exact Or.inl (e1 ▸ h2)
    · refine Or.inr ⟨e1.trans e2, ?_⟩
      rcases hxy with h1 | ⟨f1, hxy⟩
      · rcases hyz with h2 | ⟨f2, _⟩
        · exact Or.inl (Nat.lt_trans h1 h2)
        · exact Or.inl (f2 ▸ h1)
      · rcases hyz with h2 | ⟨f2, hyz⟩
        · exact Or.inl (f1 ▸ h2)
        · refine Or.inr ⟨f1.trans f2, ?_⟩
          rcases hxy with h1 | ⟨g1, hxy⟩
          · rcases hyz with h2 | ⟨g2, _⟩
            · exact Or.inl (Nat.lt_trans h1 h2)
            · exact Or.inl (g2 ▸ h1)
          · rcases hyz with h2 | ⟨g2, hyz⟩
            · exact Or.inl (g1 ▸ h2)
            · exact Or.inr ⟨g1.trans g2, strLeb_trans _ _ _ hxy hyz⟩

/-! ## Claim C8: the candidate picker takes the score-order minimum -/

/-- Claim C8: when unused placement-map candidates exist for the exact
(book, chapter), `pick_candidate_for_chapter` returns a candidate that
is score-minimal: preferring source book = target book, then lower
source-book usage, then earlier registry order, then the
lexicographically smaller filename. -/
theorem c8_pick_minimum (cfg : Cfg) (led : Ledger) (book : String) (chap : Int)
    (hm : cfg.chagall_chapter_map.isEmpty = false)
    (hne : ((alookup cfg.chagall_chapter_map (book, chap)).getD []).filter
      (fun f => !(decide (f ∈ led.used_images))) ≠ []) :
    ∃ f, pick_candidate_for_chapter cfg led book chap = some f ∧
      f ∈ ((alookup cfg.chagall_chapter_map (book, chap)).getD []).filter
        (fun f => !(decide (f ∈ led.used_images))) ∧
      ∀ g ∈ ((alookup cfg.chagall_chapter_map (book, chap)).getD []).filter
        (fun f => !(decide (f ∈ led.used_images))),
        keyLeb (scoreKey cfg led book f) (scoreKey cfg led book g) = true := by
  have hfne : ((alookup cfg.chagall_chapter_map (book, chap)).getD []).isEmpty = false := by
    cases hfe : (alookup cfg.chagall_chapter_map (book, chap)).getD [] with
    | nil =>
      exfalso; apply hne
      rw [hfe]; rfl
    | cons a l => rfl
  have hune : (((alookup cfg.chagall_chapter_map (book, chap)).getD []).filter
      (fun f => !(decide (f ∈ led.used_images)))).isEmpty = false := by
    cases hue : ((alookup cfg.chagall_chapter_map (book, chap)).getD []).filter
        (fun f => !(decide (f ∈ led.used_images))) with
    | nil => exact absurd hue hne
    | cons a l => rfl
  have hsort : ∃ f rest,
      sortLeb (fun a b => keyLeb (scoreKey cfg led book a) (scoreKey cfg led book b))
        (((alookup cfg.chagall_chapter_map (book, chap)).getD []).filter
          (fun f => !(decide (f ∈ led.used_images)))) = f :: rest := by
    cases hs : sortLeb (fun a b =>
        keyLeb (scoreKey cfg led book a) (scoreKey cfg led book b))
        (((alookup cfg.chagall_chapter_map (book, chap)).getD []).filter
          (fun f => !(decide (f ∈ led.used_images)))) with
    | nil =>
      exfalso
      have hlen := (sortLeb_perm (fun a b =>
        keyLeb (scoreKey cfg led book a) (scoreKey cfg led book b))
        (((alookup cfg.chagall_chapter_map (book, chap)).getD []).filter
          (fun f => !(decide (f ∈ led.used_images))))).length_eq
      rw [hs] at hlen
      cases hue : ((alookup cfg.chagall_chapter_map (book, chap)).getD []).filter
          (fun f => !(decide (f ∈ led.used_images))) with
      | nil => exact absurd hue hne
      | cons a l => rw [hue] at hlen; simp at hlen
    | cons f rest => exact ⟨f, rest, rfl⟩
  rcases hsort with ⟨f, rest, hs⟩
  have hmin := sortLeb_head_min
    (fun a b => keyLeb (scoreKey cfg led book a) (scoreKey cfg led book b))
    (fun a b => keyLeb_total _ _) (fun a b c => keyLeb_trans _ _ _)
    (((alookup cfg.chagall_chapter_map (book, chap)).getD []).filter
      (fun f => !(decide (f ∈ led.used_images)))) f (by rw [hs]; rfl)
  refine ⟨f, ?_, hmin.1, hmin.2⟩
  unfold pick_candidate_for_chapter
  simp only []
  rw [hm]
  simp only [Bool.false_eq_true, if_false, hfne, hune]
  rw [hs]
  rfl

theorem c8_pick_minimum_witness :
    ∃ f, pick_candidate_for_chapter
        (Cfg.mk false [] [] [] [] [(("Genesis", (1 : Int)), ["b.jpg", "a.jpg"])]
          [] [] [] ["Genesis"] [] (fun _ => false))
        (Ledger.mk [] [] []) "Genesis" 1 = some f ∧
      f ∈ (["b.jpg", "a.jpg"] : List String) ∧ f = "a.jpg" := by
  rcases c8_pick_minimum
      (Cfg.mk false [] [] [] [] [(("Genesis", (1 : Int)), ["b.jpg", "a.jpg"])]
        [] [] [] ["Genesis"] [] (fun _ => false))
      (Ledger.mk [] [] []) "Genesis" 1 (by rfl) (by decide) with ⟨f, hf, hmem, _⟩
  refine ⟨f, hf, ?_, ?_⟩
  · simpa [alookup] using hmem
  · have hpick : pick_candidate_for_chapter
        (Cfg.mk false [] [] [] [] [(("Genesis", (1 : Int)), ["b.jpg", "a.jpg"])]
          [] [] [] ["Genesis"] [] (fun _ => false))
        (Ledger.mk [] [] []) "Genesis" 1 = some "a.jpg" := by rfl
    rw [hpick] at hf
    injection hf.symm

/-! ## Ledger facts for the two selection operations -/

theorem optStr_some {o : Option String} {f : String} (h : optStr o = some f) :
    o = some f := by
  cases o with
  | none => cases h
  | some s =>
    by_cases hs : s = ""
    · rw [optStr, if_pos hs] at h; cases h
    · rw [optStr, if_neg hs] at h; exact h

theorem pick_unused {cfg : Cfg} {led : Ledger} {book : String} {chap : Int} {f : String}
    (h : pick_candidate_for_chapter cfg led book chap = some f) :
    f ∉ led.used_images ∧
      f ∈ (alookup cfg.chagall_chapter_map (book, chap)).getD [] := by
  unfold pick_candidate_for_chapter at h
  simp only [] at h
  split_ifs at h
  have hmem : f ∈ sortLeb (fun a b =>
      keyLeb (scoreKey cfg led book a) (scoreKey cfg led book b))
      (((alookup cfg.chagall_chapter_map (book, chap)).getD []).filter
        (fun g => !(decide (g ∈ led.used_images)))) := by
    cases hs : sortLeb (fun a b =>
        keyLeb (scoreKey cfg led book a) (scoreKey cfg led book b))
        (((alookup cfg.chagall_chapter_map (book, chap)).getD []).filter
          (fun g => !(decide (g ∈ led.used_images)))) with
    | nil => rw [hs] at h; cases h
    | cons a l =>
      rw [hs] at h
      have : a = f := by injection h
      rw [← this]; exact List.mem_cons_self _ _
  have hmem2 := (sortLeb_perm _ _).mem_iff.mp hmem
  have hsplit := List.mem_filter.mp hmem2
  refine ⟨?_, hsplit.1⟩
  have := hsplit.2
  simp only [Bool.not_eq_true', decide_eq_false_iff_not] at this
  exact this

theorem finishChapter_led {cfg : Cfg} {led : Ledger} {book : String} {chap : Int}
    {o : Option String} :
    ((finishChapter cfg led book chap o).2.used_images = led.used_images ∧ o = none) ∨
    (∃ f, o = some f ∧ (finishChapter cfg led book chap o).1 = some f ∧
      (finishChapter cfg led book chap o).2.used_images = f :: led.used_images) := by
  cases o with
  | none => exact Or.inl ⟨rfl, rfl⟩
  | some f => exact Or.inr ⟨f, rfl, rfl, rfl⟩

theorem finishChapter_fst {cfg : Cfg} {led : Ledger} {book : String} {chap : Int}
    {o : Option String} : (finishChapter cfg led book chap o).1 = o := by
  cases o <;> rfl

theorem selectChapter_ok {cfg : Cfg} {led : Ledger} {book : String} {chap : Int}
    {r : Option String} {led' : Ledger}
    (h : selectChapterImage cfg led book chap = Except.ok (r, led')) :
    (∀ x, x ∈ led.used_images → x ∈ led'.used_images) ∧
    (∀ f, r = some f → f ∉ led.used_images ∧
      led'.used_images = f :: led.used_images) := by
  unfold selectChapterImage at h
  cases hfm : chapterMapPick2 cfg book chap with
  | some f0 =>
    rw [hfm] at h
    simp only [] at h
    by_cases hu : f0 ∈ led.used_images
    · rw [if_pos hu] at h
      by_cases hexp : cfg.explicit_enabled
      · rw [if_pos hexp] at h; cases h
      · rw [if_neg hexp] at h
        have hpair : (r, led') = finishChapter cfg led book chap
            (optStr (pick_candidate_for_chapter cfg led book chap)) := by
          injection h with h1; exact h1.symm
        cases hp : optStr (pick_candidate_for_chapter cfg led book chap) with
        | none =>
          rw [hp] at hpair
          have hr : r = none := congrArg Prod.fst hpair
          have hl : led' = led := congrArg Prod.snd hpair
          subst hl
          exact ⟨fun x hx => hx, fun f hf => by rw [hr] at hf; cases hf⟩
        | some g =>
          rw [hp] at hpair
          have hr : r = some g := congrArg Prod.fst hpair
          have hl : led'.used_images = g :: led.used_images := congrArg (fun p => p.2.used_images) hpair
          have hg := (pick_unused (optStr_some hp)).1
          refine ⟨fun x hx => by rw [hl]; exact List.mem_cons_of_mem _ hx, ?_⟩
          intro f hf
          rw [hr] at hf
          have : g = f := by injection hf
          subst this
          exact ⟨hg, hl⟩
    · rw [if_neg hu] at h
      have hpair : (r, led') = finishChapter cfg led book chap (some f0) := by
        injection h with h1; exact h1.symm
      have hr : r = some f0 := congrArg Prod.fst hpair
      have hl : led'.used_images = f0 :: led.used_images := congrArg (fun p => p.2.used_images) hpair
      refine ⟨fun x hx => by rw [hl]; exact List.mem_cons_of_mem _ hx, ?_⟩
      intro f hf
      rw [hr] at hf
      have : f0 = f := by injection hf
      subst this
      exact ⟨hu, hl⟩
  | none =>
    rw [hfm] at h
    simp only [] at h
    by_cases hexp : cfg.explicit_enabled
    · rw [if_pos hexp] at h
      have hpair : (r, led') = finishChapter cfg led book chap none := by
        injection h with h1; exact h1.symm
      have hr : r = none := congrArg Prod.fst hpair
      have hl : led' = led := congrArg Prod.snd hpair
      subst hl
      exact ⟨fun x hx => hx, fun f hf => by rw [hr] at hf; cases hf⟩
    · rw [if_neg hexp] at h
      have hpair : (r, led') = finishChapter cfg led book chap
          (optStr (pick_candidate_for_chapter cfg led book chap)) := by
        injection h with h1; exact h1.symm
      cases hp : optStr (pick_candidate_for_chapter cfg led book chap) with
      | none =>
        rw [hp] at hpair
        have hr : r = none := congrArg Prod.fst hpair
        have hl : led' = led := congrArg Prod.snd hpair
        subst hl
        exact ⟨fun x hx => hx, fun f hf => by rw [hr] at hf; cases hf⟩
      | some g =>
        rw [hp] at hpair
        have hr : r = some g := congrArg Prod.fst hpair
        have hl : led'.used_images = g :: led.used_images := congrArg (fun p => p.2.used_images) hpair
        have hg := (pick_unused (optStr_some hp)).1
        refine ⟨fun x hx => by rw [hl]; exact List.mem_cons_of_mem _ hx, ?_⟩
        intro f hf
        rw [hr] at hf
        have : g = f := by injection hf
        subst this
        exact ⟨hg, hl⟩

theorem selectChapter_candidates {cfg : Cfg} {led : Ledger} {book : String} {chap : Int}
    {r : Option String} {led' : Ledger} (hexp : cfg.explicit_enabled = false)
    (h : selectChapterImage cfg led book chap = Except.ok (r, led'))
    {f : String} (hf : r = some f) : f ∈ chapterCandidates cfg book chap := by
  subst hf
  unfold selectChapterImage at h
  cases hfm : chapterMapPick2 cfg book chap with
  | some f0 =>
    rw [hfm] at h
    have hf0 : alookup cfg.image_map (book, chap) = some f0 ∨
        alookup cfg.balanced_chapter_map (book, chap) = some f0 := by
      unfold chapterMapPick2 chapterMapPick at hfm
      rw [hexp] at hfm
      simp only [Bool.false_eq_true, if_false] at hfm
      cases hi : optStr (alookup cfg.image_map (book, chap)) with
      | some g => rw [hi] at hfm; exact Or.inl (optStr_some (hi.trans hfm))
      | none => rw [hi] at hfm; exact Or.inr (optStr_some hfm)
    simp only [] at h
    by_cases hu : f0 ∈ led.used_images
    · rw [if_pos hu, hexp] at h
      simp only [Bool.false_eq_true, if_false] at h
      have hpair : (some f, led') = finishChapter cfg led book chap
          (optStr (pick_candidate_for_chapter cfg led book chap)) := by
        injection h with h1; exact h1.symm
      cases hp : optStr (pick_candidate_for_chapter cfg led book chap) with
      | none => rw [hp] at hpair; cases (congrArg Prod.fst hpair : (some f : Option String) = none)
      | some g =>
        rw [hp] at hpair
        have : (some f : Option String) = some g := congrArg Prod.fst hpair
        have hfg : f = g := by injection this
        subst hfg
        have hmem := (pick_unused (optStr_some hp)).2
        unfold chapterCandidates
        exact List.mem_append_right _ hmem
    · rw [if_neg hu] at h
      have hpair : (some f, led') = finishChapter cfg led book chap (some f0) := by
        injection h with h1; exact h1.symm
      have : (some f : Option String) = some f0 := congrArg Prod.fst hpair
      have hff : f = f0 := by injection this
      subst hff
      unfold chapterCandidates
      rcases hf0 with hl | hr
      · rw [hl]
        exact List.mem_append_left _ (List.mem_append_left _ (List.mem_singleton.mpr rfl))
      · rw [hr]
        exact List.mem_append_left _ (List.mem_append_right _ (List.mem_singleton.mpr rfl))
  | none =>
    rw [hfm] at h
    simp only [] at h
    rw [hexp] at h
    simp only [Bool.false_eq_true, if_false] at h
    have hpair : (some f, led') = finishChapter cfg led book chap
        (optStr (pick_candidate_for_chapter cfg led book chap)) := by
      injection h with h1; exact h1.symm
    cases hp : optStr (pick_candidate_for_chapter cfg led book chap) with
    | none => rw [hp] at hpair; cases (congrArg Prod.fst hpair : (some f : Option String) = none)
    | some g =>
      rw [hp] at hpair
      have : (some f : Option String) = some g := congrArg Prod.fst hpair
      have hfg : f = g := by injection this
      subst hfg
      have hmem := (pick_unused (optStr_some hp)).2
      unfold chapterCandidates
      exact List.mem_append_right _ hmem

theorem selectChapter_no_error {cfg : Cfg} (led : Ledger) (book : String) (chap : Int)
    (hexp : cfg.explicit_enabled = false) :
    ∃ out, selectChapterImage cfg led book chap = Except.ok out := by
  unfold selectChapterImage
  cases hfm : chapterMapPick2 cfg book chap with
  | some f0 =>
    simp only []
    by_cases hu : f0 ∈ led.used_images
    · rw [if_pos hu, hexp]
      simp only [Bool.false_eq_true, if_false]
      exact ⟨_, rfl⟩
    · rw [if_neg hu]; exact ⟨_, rfl⟩
  | none =>
    simp only []
    rw [hexp]
    simp only [Bool.false_eq_true, if_false]
    exact ⟨_, rfl⟩

theorem first_unused_spec {led : Ledger} : ∀ {l : List ImageRec} {im : ImageRec},
    first_unused led l = some im → im.filename ∉ led.used_images := by
  intro l
  induction l with
  | nil => intro im h; cases h
  | cons a l ih =>
    intro im h
    unfold first_unused at h
    by_cases ha : a.filename ≠ "" ∧ a.filename ∉ led.used_images
    · rw [if_pos ha] at h
      have : a = im := by injection h
      subst this; exact ha.2
    · rw [if_neg ha] at h
      exact ih h

theorem select_book_image_unused {cfg : Cfg} {led : Ledger} {book : String}
    {img : ImageRec} (hexp : cfg.explicit_enabled = false)
    (h : select_book_image cfg led book = Except.ok (some img)) :
    img.filename ∉ led.used_images := by
  unfold select_book_image at h
  rw [hexp] at h
  simp only [Bool.false_eq_true, if_false] at h
  cases hov : optStr (alookup cfg.book_intro_overrides book) with
  | some ov =>
    try rw [hov] at h
    simp only [] at h
    cases hfind : ((alookup cfg.chagall_images book).getD []).find?
        (fun im => im.filename == ov && !(decide (im.filename ∈ led.used_images))) with
    | some im2 =>
      try rw [hfind] at h
      simp only [] at h
      have him : im2 = img := by simpa using h
      subst him
      have hprop := List.find?_some hfind
      rw [Bool.and_eq_true] at hprop
      have := hprop.2
      simp only [Bool.not_eq_true', decide_eq_false_iff_not] at this
      exact this
    | none =>
      try rw [hfind] at h
      simp only [] at h
      cases hfu : first_unused led ((alookup cfg.chagall_images book).getD []) with
      | some im2 =>
        try rw [hfu] at h
        simp only [] at h
        have him : im2 = img := by simpa using h
        subst him
        exact first_unused_spec hfu
      | none =>
        try rw [hfu] at h
        simp only [] at h
        have h2 : first_unused led ((alookup cfg.chagall_images "General").getD []) =
            some img := by simpa using h
        exact first_unused_spec h2
  | none =>
    try rw [hov] at h
    simp only [] at h
    cases hfu : first_unused led ((alookup cfg.chagall_images book).getD []) with
    | some im2 =>
      try rw [hfu] at h
      simp only [] at h
      have him : im2 = img := by simpa using h
      subst him
      exact first_unused_spec hfu
    | none =>
      try rw [hfu] at h
      simp only [] at h
      have h2 : first_unused led ((alookup cfg.chagall_images "General").getD []) =
          some img := by simpa using h
      exact first_unused_spec h2

theorem selectIntro_ok {cfg : Cfg} {led : Ledger} {book : String}
    {r : Option String} {led' : Ledger}
    (h : selectBookIntroImage cfg led book = Except.ok (r, led')) :
    (∀ x, x ∈ led.used_images → x ∈ led'.used_images) ∧
    (∀ f, r = some f → f ∉ led.used_images ∧
      led'.used_images = f :: led.used_images) := by
  unfold selectBookIntroImage at h
  cases hsel : select_book_image cfg led book with
  | error e => rw [hsel] at h; cases h
  | ok o =>
    rw [hsel] at h
    cases o with
    | none =>
      have h1 : ((none : Option String), led) = (r, led') := by simpa using h
      have hr : r = none := (congrArg Prod.fst h1).symm
      have hl : led' = led := (congrArg Prod.snd h1).symm
      subst hl
      exact ⟨fun x hx => hx, fun f hf => by rw [hr] at hf; cases hf⟩
    | some img =>
      simp only [] at h
      by_cases hguard : cfg.explicit_enabled ∧
          img.filename ∈ (recordUsage led img.filename ⟨"intro", book, none⟩).used_images
      · rw [if_pos hguard] at h; cases h
      · rw [if_neg hguard] at h
        have h1 : (some img.filename,
            markUsed cfg (recordUsage led img.filename ⟨"intro", book, none⟩)
              img.filename) = (r, led') := by simpa using h
        have hr : r = some img.filename := (congrArg Prod.fst h1).symm
        have hl : led'.used_images = img.filename :: led.used_images :=
          (congrArg (fun p => p.2.used_images) h1).symm
        have hun : img.filename ∉ led.used_images := by
          by_cases hexp : cfg.explicit_enabled
          · intro hmem
            exact hguard ⟨hexp, hmem⟩
          · exact select_book_image_unused (Bool.eq_false_iff.mpr hexp) hsel
        refine ⟨fun x hx => by rw [hl]; exact List.mem_cons_of_mem _ hx, ?_⟩
        intro f hf
        rw [hr] at hf
        have : img.filename = f := by injection hf
        subst this
        exact ⟨hun, hl⟩

theorem runOp_ok {cfg : Cfg} {led : Ledger} {op : Op} {r : Option String} {led' : Ledger}
    (h : runOp cfg led op = Except.ok (r, led')) :
    (∀ x, x ∈ led.used_images → x ∈ led'.used_images) ∧
    (∀ f, r = some f → f ∉ led.used_images ∧
      led'.used_images = f :: led.used_images) := by
  cases op with
  | intro b => exact selectIntro_ok h
  | chapter b c => exact selectChapter_ok h

/-! ## Run-level invariants -/

theorem runOps_used_mono (cfg : Cfg) (ops : List Op) : ∀ led : Ledger,
    ∀ x ∈ led.used_images, x ∈ (runOps cfg led ops).2.used_images := by
  induction ops with
  | nil => intro led x hx; exact hx
  | cons op ops ih =>
    intro led x hx
    unfold runOps
    cases hop : runOp cfg led op with
    | error e => exact hx
    | ok out =>
      rcases out with ⟨r, led1⟩
      simp only []
      exact ih led1 x ((runOp_ok hop).1 x hx)

theorem runOps_returned_used (cfg : Cfg) (ops : List Op) : ∀ (led : Ledger) (f : String),
    some f ∈ (runOps cfg led ops).1 → f ∈ (runOps cfg led ops).2.used_images := by
  induction ops with
  | nil => intro led f hf; cases hf
  | cons op ops ih =>
    intro led f hf
    unfold runOps at hf ⊢
    cases hop : runOp cfg led op with
    | error e => rw [hop] at hf; cases hf
    | ok out =>
      rcases out with ⟨r, led1⟩
      rw [hop] at hf
      simp only [] at hf ⊢
      rcases List.mem_cons.mp hf with heq | hmem
      · have hfl := ((runOp_ok hop).2 f heq.symm).2
        apply runOps_used_mono cfg ops led1 f
        rw [hfl]; exact List.mem_cons_self _ _
      · exact ih led1 f hmem

theorem runOps_no_reuse (cfg : Cfg) (ops : List Op) : ∀ (led : Ledger) (f : String),
    f ∈ led.used_images → some f ∉ (runOps cfg led ops).1 := by
  induction ops with
  | nil => intro led f _ hmem; cases hmem
  | cons op ops ih =>
    intro led f hf hmem
    unfold runOps at hmem
    cases hop : runOp cfg led op with
    | error e => rw [hop] at hmem; cases hmem
    | ok out =>
      rcases out with ⟨r, led1⟩
      rw [hop] at hmem
      simp only [] at hmem
      rcases List.mem_cons.mp hmem with heq | hmem2
      · exact ((runOp_ok hop).2 f heq.symm).1 hf
      · exact ih led1 f ((runOp_ok hop).1 f hf) hmem2

theorem runOps_some_nodup (cfg : Cfg) (ops : List Op) : ∀ led : Ledger,
    ((runOps cfg led ops).1.filterMap id).Nodup ∧
    (∀ f ∈ (runOps cfg led ops).1.filterMap id, f ∉ led.used_images) := by
  induction ops with
  | nil =>
    intro led
    refine ⟨by simp [runOps], ?_⟩
    intro f hf
    simp [runOps] at hf
  | cons op ops ih =>
    intro led
    unfold runOps
    cases hop : runOp cfg led op with
    | error e =>
      refine ⟨by simp, ?_⟩
      intro f hf
      simp at hf
    | ok out =>
      rcases out with ⟨r, led1⟩
      simp only []
      rcases ih led1 with ⟨hnd, hfresh⟩
      cases r with
      | none =>
        refine ⟨by simpa using hnd, ?_⟩
        intro f hf
        have hf1 : f ∈ (runOps cfg led1 ops).1.filterMap id := by simpa using hf
        intro hmem
        exact hfresh f hf1 ((runOp_ok hop).1 f hmem)
      | some g =>
        rcases (runOp_ok hop).2 g rfl with ⟨hg, hgl⟩
        constructor
        · refine List.Nodup.cons ?_ hnd
          intro hgmem
          apply hfresh g hgmem
          rw [hgl]; exact List.mem_cons_self _ _
        · intro f hf
          rcases List.mem_cons.mp hf with heq | hmem
          · subst heq; exact hg
          · intro hmemled
            exact hfresh f hmem ((runOp_ok hop).1 f hmemled)

theorem runOps_length (cfg : Cfg) (calls : List (String × Int))
    (hexp : cfg.explicit_enabled = false) : ∀ led : Ledger,
    (runOps cfg led (calls.map (fun bc => Op.chapter bc.1 bc.2))).1.length =
      calls.length := by
  induction calls with
  | nil => intro led; rfl
  | cons bc calls ih =>
    intro led
    simp only [List.map_cons]
    unfold runOps
    rcases selectChapter_no_error led bc.1 bc.2 hexp with ⟨out, hout⟩
    have hop : runOp cfg led (Op.chapter bc.1 bc.2) = Except.ok out := hout
    rw [hop]
    rcases out with ⟨r, led1⟩
    simp only [List.length_cons]
    rw [ih led1]

theorem runOps_chapter_in_pool (cfg : Cfg) (calls : List (String × Int))
    (hexp : cfg.explicit_enabled = false) (pool : List String)
    (hcand : ∀ bc ∈ calls, ∀ g, g ∈ chapterCandidates cfg bc.1 bc.2 → g ∈ pool) :
    ∀ led : Ledger, ∀ f ∈ (runOps cfg led
      (calls.map (fun bc => Op.chapter bc.1 bc.2))).1.filterMap id, f ∈ pool := by
  induction calls with
  | nil => intro led f hf; cases hf
  | cons bc calls ih =>
    intro led f hf
    simp only [List.map_cons] at hf
    unfold runOps at hf
    cases hop : runOp cfg led (Op.chapter bc.1 bc.2) with
    | error e => rw [hop] at hf; cases hf
    | ok out =>
      rcases out with ⟨r, led1⟩
      rw [hop] at hf
      simp only [] at hf
      cases r with
      | none =>
        have : f ∈ (runOps cfg led1 (calls.map (fun bc => Op.chapter bc.1 bc.2))).1.filterMap id := by
          simpa using hf
        exact ih (fun bc hbc => hcand bc (List.mem_cons_of_mem _ hbc)) led1 f this
      | some g =>
        rcases List.mem_cons.mp hf with heq | hmem
        · subst heq
          exact hcand bc (List.mem_cons_self _ _) f
            (selectChapter_candidates hexp hop rfl)
        · exact ih (fun bc hbc => hcand bc (List.mem_cons_of_mem _ hbc)) led1 f hmem

theorem countP_isSome_eq (rs : List (Option String)) :
    rs.countP (fun r => r.isSome) = (rs.filterMap id).length := by
  induction rs with
  | nil => rfl
  | cons r rs ih =>
    cases r with
    | none => simpa [List.countP_cons] using ih
    | some g => simpa [List.countP_cons] using ih

theorem filterMap_id_length_of_all_some (rs : List (Option String))
    (h : ∀ r ∈ rs, r.isSome = true) : (rs.filterMap id).length = rs.length := by
  induction rs with
  | nil => rfl
  | cons r rs ih =>
    cases r with
    | none => cases h none (List.mem_cons_self _ _)
    | some g =>
      simpa using ih (fun r hr => h r (List.mem_cons_of_mem _ hr))

/-- Claim C4: an image filename returned once by either selection
operation is never returned again in the same run; and with all
candidate sources for a sequence of k+1 chapter calls drawn from a
k-image pool, at most k calls return an image and, when the first k
all do, the (k+1)-th returns none. -/
theorem c4_no_reuse_and_exhaustion :
    (∀ (cfg : Cfg) (led : Ledger) (ops1 ops2 : List Op) (f : String),
      some f ∈ (runOps cfg led ops1).1 →
      some f ∉ (runOps cfg (runOps cfg led ops1).2 ops2).1) ∧
    (∀ (cfg : Cfg) (led : Ledger) (pool : List String) (calls : List (String × Int)),
      cfg.explicit_enabled = false →
      pool.Nodup →
      (∀ bc ∈ calls, ∀ g, g ∈ chapterCandidates cfg bc.1 bc.2 → g ∈ pool) →
      calls.length = pool.length + 1 →
      (runOps cfg led (calls.map (fun bc => Op.chapter bc.1 bc.2))).1.countP
          (fun r => r.isSome) ≤ pool.length ∧
      ((∀ r ∈ (runOps cfg led (calls.map (fun bc => Op.chapter bc.1 bc.2))).1.take
          pool.length, r.isSome = true) →
        (runOps cfg led (calls.map (fun bc => Op.chapter bc.1 bc.2))).1[pool.length]? =
          some none)) := by
  constructor
  · intro cfg led ops1 ops2 f hf
    exact runOps_no_reuse cfg ops2 _ f (runOps_returned_used cfg ops1 led f hf)
  · intro cfg led pool calls hexp hnd hcand hlen
    have hsome := runOps_some_nodup cfg (calls.map (fun bc => Op.chapter bc.1 bc.2)) led
    have hsub : ∀ f ∈ (runOps cfg led
        (calls.map (fun bc => Op.chapter bc.1 bc.2))).1.filterMap id, f ∈ pool :=
      runOps_chapter_in_pool cfg calls hexp pool hcand led
    have hbound : ((runOps cfg led
        (calls.map (fun bc => Op.chapter bc.1 bc.2))).1.filterMap id).length ≤
        pool.length :=
      (hsome.1.subperm (fun x hx => hsub x hx)).length_le
    have hcount : (runOps cfg led (calls.map (fun bc => Op.chapter bc.1 bc.2))).1.countP
        (fun r => r.isSome) ≤ pool.length := by
      rw [countP_isSome_eq]; exact hbound
    refine ⟨hcount, ?_⟩
    intro htake
    have hlen2 : (runOps cfg led (calls.map (fun bc => Op.chapter bc.1 bc.2))).1.length =
        pool.length + 1 := by rw [runOps_length cfg calls hexp led]; exact hlen
    cases hget : (runOps cfg led
        (calls.map (fun bc => Op.chapter bc.1 bc.2))).1[pool.length]? with
    | none =>
      exfalso
      have := List.getElem?_eq_none_iff.mp hget
      omega
    | some x =>
      cases x with
      | none => rfl
      | some g =>
        exfalso
        set rs := (runOps cfg led (calls.map (fun bc => Op.chapter bc.1 bc.2))).1 with hrs
        have hsplit : rs = rs.take pool.length ++ rs.drop pool.length :=
          (List.take_append_drop _ _).symm
        have hdropget : (rs.drop pool.length)[0]? = some (some g) := by
          rw [List.getElem?_drop]; simpa using hget
        have hdroplen : (rs.drop pool.length).length = 1 := by
          rw [List.length_drop, hlen2]; omega
        have hdrop : rs.drop pool.length = [some g] := by
          cases hd : rs.drop pool.length with
          | nil => rw [hd] at hdroplen; cases hdroplen
          | cons a l =>
            rw [hd] at hdroplen hdropget
            simp only [List.length_cons] at hdroplen
            have hl : l = [] := List.length_eq_zero.mp (by omega)
            have ha : a = some g := by
              simpa using hdropget
            rw [hl, ha]
        have htlen : (rs.take pool.length).length = pool.length := by
          rw [List.length_take, hlen2]; omega
        have hfm : (rs.filterMap id).length = pool.length + 1 := by
          conv_lhs => rw [hsplit]
          rw [List.filterMap_append]
          rw [List.length_append]
          rw [filterMap_id_length_of_all_some _ htake, htlen, hdrop]
          rfl
        omega

theorem c4_no_reuse_and_exhaustion_witness :
    (runOps (Cfg.mk false [] [] [] []
        [(("Genesis", (1 : Int)), ["a.jpg"]), (("Genesis", (2 : Int)), ["a.jpg"])]
        [] [] [] ["Genesis"] [] (fun _ => false))
      (Ledger.mk [] [] [])
      ([(("Genesis", (1 : Int)) : String × Int), ("Genesis", (2 : Int))].map
        (fun bc => Op.chapter bc.1 bc.2))).1.countP (fun r => r.isSome) ≤ 1 :=
  (c4_no_reuse_and_exhaustion.2
    (Cfg.mk false [] [] [] []
      [(("Genesis", (1 : Int)), ["a.jpg"]), (("Genesis", (2 : Int)), ["a.jpg"])]
      [] [] [] ["Genesis"] [] (fun _ => false))
    (Ledger.mk [] [] []) ["a.jpg"]
    [("Genesis", (1 : Int)), ("Genesis", (2 : Int))]
    rfl (by decide) (by decide) (by decide)).1

/-! ## Association-list and placement-map basics -/

theorem alookup_some_mem {α β : Type} [DecidableEq α] :
    ∀ {l : List (α × β)} {k : α} {v : β}, alookup l k = some v → (k, v) ∈ l := by
  intro l
  induction l with
  | nil => intro k v h; cases h
  | cons p ps ih =>
    intro k v h
    obtain ⟨pk, pv⟩ := p
    rw [alookup] at h
    by_cases hp : pk = k
    · rw [if_pos hp] at h
      have hv : pv = v := by injection h
      subst hp; subst hv
      exact List.mem_cons_self _ _
    · rw [if_neg hp] at h
      exact List.mem_cons_of_mem _ (ih h)

theorem alookup_of_mem {α β : Type} [DecidableEq α] :
    ∀ {l : List (α × β)} {k : α} {v : β}, (k, v) ∈ l → (l.map Prod.fst).Nodup →
      alookup l k = some v := by
  intro l
  induction l with
  | nil => intro k v h _; cases h
  | cons p ps ih =>
    intro k v h hnd
    obtain ⟨pk, pv⟩ := p
    rcases List.mem_cons.mp h with heq | hmem
    · injection heq.symm with h1 h2
      rw [alookup, if_pos h1, h2]
    · rw [alookup]
      by_cases hp : pk = k
      · exfalso
        have hkmem : k ∈ ps.map Prod.fst := List.mem_map_of_mem Prod.fst hmem
        rw [← hp] at hkmem
        exact (List.nodup_cons.mp hnd).1 hkmem
      · rw [if_neg hp]
        exact ih hmem (List.nodup_cons.mp hnd).2

theorem alookup_split {α β : Type} [DecidableEq α] :
    ∀ {l : List (α × β)} {k : α} {v : β}, alookup l k = some v →
      ∃ l₁ l₂, l = l₁ ++ (k, v) :: l₂ ∧ (∀ q ∈ l₁, q.1 ≠ k) := by
  intro l
  induction l with
  | nil => intro k v h; cases h
  | cons p ps ih =>
    intro k v h
    obtain ⟨pk, pv⟩ := p
    rw [alookup] at h
    by_cases hp : pk = k
    · rw [if_pos hp] at h
      have hv : pv = v := by injection h
      subst hp; subst hv
      exact ⟨[], ps, rfl, fun q hq => absurd hq (List.not_mem_nil q)⟩
    · rw [if_neg hp] at h
      rcases ih h with ⟨l₁, l₂, heq, hne⟩
      refine ⟨(pk, pv) :: l₁, l₂, by rw [heq]; rfl, ?_⟩
      intro q hq
      rcases List.mem_cons.mp hq with rfl | hq2
      · exact hp
      · exact hne q hq2

theorem setKey_split {d₁ d₂ : PMap} {k : String} {w v : List String}
    (h₁ : ∀ q ∈ d₁, q.1 ≠ k) (h₂ : ∀ q ∈ d₂, q.1 ≠ k) :
    setKey (d₁ ++ (k, w) :: d₂) k v = d₁ ++ (k, v) :: d₂ := by
  unfold setKey
  rw [List.map_append, List.map_cons]
  have e₁ : d₁.map (fun p => if p.1 = k then (k, v) else p) = d₁ := by
    have h := List.map_congr_left (l := d₁)
      (f := fun p => if p.1 = k then (k, v) else p) (g := id)
      (fun q hq => by
        show (if q.1 = k then (k, v) else q) = id q
        rw [if_neg (h₁ q hq)]
        rfl)
    rw [h, List.map_id]
  have e₂ : d₂.map (fun p => if p.1 = k then (k, v) else p) = d₂ := by
    have h := List.map_congr_left (l := d₂)
      (f := fun p => if p.1 = k then (k, v) else p) (g := id)
      (fun q hq => by
        show (if q.1 = k then (k, v) else q) = id q
        rw [if_neg (h₂ q hq)]
        rfl)
    rw [h, List.map_id]
  rw [e₁, e₂, if_pos rfl]

theorem keysOf_setKey (d : PMap) (k : String) (v : List String) :
    keysOf (setKey d k v) = keysOf d := by
  unfold keysOf setKey
  rw [List.map_map]
  apply List.map_congr_left
  intro p _
  by_cases h : p.1 = k
  · simp [h]
  · simp [h]

theorem keysOf_append (d₁ d₂ : PMap) : keysOf (d₁ ++ d₂) = keysOf d₁ ++ keysOf d₂ :=
  List.map_append _ _ _

/-! ## Round trip: parsing the rendered reference string -/

theorem rsplitSpace_no_space : ∀ {cs : List Char}, ' ' ∉ cs → rsplitSpace cs = none := by
  intro cs
  induction cs with
  | nil => intro _; rfl
  | cons c cs ih =>
    intro h
    have hc : ¬ c = ' ' := fun he => h (he ▸ List.mem_cons_self c cs)
    have ht : ' ' ∉ cs := fun hm => h (List.mem_cons_of_mem _ hm)
    unfold rsplitSpace
    rw [ih ht, if_neg hc]

theorem rsplitSpace_append {r : List Char} (hr : ' ' ∉ r) : ∀ l : List Char,
    rsplitSpace (l ++ ' ' :: r) = some (l, r) := by
  intro l
  induction l with
  | nil =>
    simp only [List.nil_append]
    unfold rsplitSpace
    rw [rsplitSpace_no_space hr, if_pos rfl]
  | cons c l ih =>
    simp only [List.cons_append]
    unfold rsplitSpace
    rw [ih]

theorem digitVal_digitChar {d : Nat} (h : d < 10) : digitVal (digitChar d) = some d := by
  interval_cases d <;> decide

theorem digitChar_bounds {d : Nat} (h : d < 10) :
    digitChar d ≠ ' ' ∧ digitChar d ≠ '-' ∧ digitChar d ≠ '+' := by
  interval_cases d <;> exact ⟨by decide, by decide, by decide⟩

theorem natDigitsAux_spec : ∀ fuel n : Nat, n < fuel →
    natDigitsAux fuel n ≠ [] ∧
    (∀ c ∈ natDigitsAux fuel n, ∃ d, d < 10 ∧ c = digitChar d) ∧
    List.foldl (fun acc c =>
      match acc, digitVal c with
      | some a, some d => some (a * 10 + d)
      | _, _ => none) (some 0) (natDigitsAux fuel n) = some n := by
  intro fuel
  induction fuel with
  | zero => intro n h; omega
  | succ fuel ih =>
    intro n h
    by_cases h10 : n < 10
    · unfold natDigitsAux
      rw [if_pos h10]
      refine ⟨by simp, ?_, ?_⟩
      · intro c hc
        exact ⟨n, h10, List.mem_singleton.mp hc⟩
      · simp only [List.foldl_cons, List.foldl_nil]
        rw [digitVal_digitChar h10]
        simp
    · unfold natDigitsAux
      rw [if_neg h10]
      have hdiv : n / 10 < fuel := by
        have h1 : n / 10 < n := Nat.div_lt_self (by omega) (by omega)
        omega
      rcases ih (n / 10) hdiv with ⟨hne, hdig, hval⟩
      refine ⟨by simp, ?_, ?_⟩
      · intro c hc
        rcases List.mem_append.mp hc with h1 | h1
        · exact hdig c h1
        · exact ⟨n % 10, Nat.mod_lt _ (by omega), List.mem_singleton.mp h1⟩
      · rw [List.foldl_append, hval]
        simp only [List.foldl_cons, List.foldl_nil]
        rw [digitVal_digitChar (Nat.mod_lt _ (by omega))]
        simp only []
        congr 1
        omega

theorem parseDigits_natDigits (n : Nat) : parseDigits (natDigits n) = some n := by
  rcases natDigitsAux_spec (n + 1) n (Nat.lt_succ_self n) with ⟨hne, _, hval⟩
  unfold parseDigits natDigits
  have hempty : (natDigitsAux (n + 1) n).isEmpty = false := by
    cases hD : natDigitsAux (n + 1) n with
    | nil => exact absurd hD hne
    | cons c rest => rfl
  rw [hempty]
  simp only [Bool.false_eq_true, if_false]
  exact hval

theorem pyInt_natDigits (n : Nat) : pyInt (String.mk (natDigits n)) = some (n : Int) := by
  rcases natDigitsAux_spec (n + 1) n (Nat.lt_succ_self n) with ⟨hne, hdig, _⟩
  unfold pyInt
  have hdata : (String.mk (natDigits n)).data = natDigitsAux (n + 1) n := rfl
  rw [hdata]
  cases hD : natDigitsAux (n + 1) n with
  | nil => exact absurd hD hne
  | cons c rest =>
    rcases hdig c (by rw [hD]; exact List.mem_cons_self _ _) with ⟨d, hd10, hcd⟩
    have hbounds := digitChar_bounds hd10
    simp only []
    rw [if_neg (by rw [hcd]; exact hbounds.2.1), if_neg (by rw [hcd]; exact hbounds.2.2)]
    rw [← hD]
    have : natDigitsAux (n + 1) n = natDigits n := rfl
    rw [this, parseDigits_natDigits]
    rfl

theorem intRepr_nonneg {c : Int} (h : 1 ≤ c) :
    intRepr c = String.mk (natDigits c.toNat) := by
  unfold intRepr
  rw [if_neg (by omega)]

theorem mk_data (s : String) : String.mk s.data = s := rfl

theorem parse_ref_refStr {b : String} {c : Int} (hb : ' ' ∉ b.data) (hc : 1 ≤ c) :
    parse_ref (refStr b c) = some (b, c) := by
  unfold parse_ref refStr
  have hdata : (b ++ " " ++ intRepr c).data = b.data ++ ' ' :: (intRepr c).data := by
    rw [String.data_append, String.data_append, List.append_assoc]
    rfl
  rw [hdata]
  have hnospace : ' ' ∉ (intRepr c).data := by
    rw [intRepr_nonneg hc]
    intro hmem
    rcases (natDigitsAux_spec (c.toNat + 1) c.toNat (Nat.lt_succ_self _)).2.1 ' ' hmem
      with ⟨d, hd10, hd⟩
    exact (digitChar_bounds hd10).1 hd.symm
  rw [rsplitSpace_append hnospace]
  simp only []
  have hint : pyInt (String.mk (intRepr c).data) = some c := by
    rw [intRepr_nonneg hc, mk_data, pyInt_natDigits]
    congr 1
    omega
  rw [hint]

/-! ## Registry facts -/

theorem registry_no_space : ∀ p ∈ BOOK_CHAPTER_COUNTS, ' ' ∉ p.1.data := by decide

theorem registry_pos : ∀ p ∈ BOOK_CHAPTER_COUNTS, 1 ≤ p.2 := by decide

theorem getMaxc_spec {b : String} {m : Int} (h : getMaxc b = some m) :
    alookup BOOK_CHAPTER_COUNTS b = some m ∧ 1 ≤ m ∧ ' ' ∉ b.data := by
  unfold getMaxc at h
  cases hl : alookup BOOK_CHAPTER_COUNTS b with
  | none => rw [hl] at h; cases h
  | some mm =>
    rw [hl] at h
    simp only [] at h
    by_cases h0 : mm = 0
    · rw [if_pos h0] at h; cases h
    · rw [if_neg h0] at h
      have hmv : mm = m := by injection h
      subst hmv
      have hmem := alookup_some_mem hl
      exact ⟨rfl, registry_pos _ hmem, registry_no_space _ hmem⟩

/-! ## highest_free characterization -/

theorem highestFreeFrom_mem {used : List Int} : ∀ {k : Nat} {d : Int},
    highestFreeFrom used k = some d → 1 ≤ d ∧ d ≤ (k : Int) ∧ d ∉ used := by
  intro k
  induction k with
  | zero => intro d h; cases h
  | succ k ih =>
    intro d h
    rw [highestFreeFrom] at h
    by_cases hmem : ((k + 1 : Nat) : Int) ∈ used
    · rw [if_pos hmem] at h
      rcases ih h with ⟨h1, h2, h3⟩
      refine ⟨h1, by push_cast at h2 ⊢; omega, h3⟩
    · rw [if_neg hmem] at h
      have hd : ((k + 1 : Nat) : Int) = d := by injection h
      subst hd
      refine ⟨by push_cast; omega, by push_cast; omega, hmem⟩

theorem highestFreeFrom_none {used : List Int} : ∀ {k : Nat},
    highestFreeFrom used k = none → ∀ x : Int, 1 ≤ x → x ≤ (k : Int) → x ∈ used := by
  intro k
  induction k with
  | zero => intro _ x h1 h2; exfalso; omega
  | succ k ih =>
    intro h x h1 h2
    rw [highestFreeFrom] at h
    by_cases hmem : ((k + 1 : Nat) : Int) ∈ used
    · rw [if_pos hmem] at h
      by_cases hx : x = ((k + 1 : Nat) : Int)
      · rw [hx]; exact hmem
      · refine ih h x h1 ?_
        push_cast at h2 hx ⊢
        omega
    · rw [if_neg hmem] at h; cases h

theorem highest_free_some {b : String} {used : List Int} {m d : Int}
    (hm : getMaxc b = some m) (h : highest_free b used = some d) :
    1 ≤ d ∧ d ≤ m ∧ d ∉ used := by
  unfold highest_free at h
  rw [hm] at h
  rcases highestFreeFrom_mem h with ⟨h1, h2, h3⟩
  have hmpos := (getMaxc_spec hm).2.1
  refine ⟨h1, ?_, h3⟩
  have hcast : (m.toNat : Int) = m := by omega
  omega

theorem highest_free_none {b : String} {used : List Int} {m : Int}
    (hm : getMaxc b = some m) (h : highest_free b used = none) :
    ∀ x : Int, 1 ≤ x → x ≤ m → x ∈ used := by
  unfold highest_free at h
  rw [hm] at h
  intro x h1 h2
  have hmpos := (getMaxc_spec hm).2.1
  refine highestFreeFrom_none h x h1 ?_
  have hcast : (m.toNat : Int) = m := by omega
  omega

/-! ## View lemmas -/

theorem chaptersOf_eq_map (d : PMap) (b : String) :
    chaptersOf d b = (dataPairs d b).map Prod.fst := by
  unfold chaptersOf dataPairs
  induction d with
  | nil => rfl
  | cons p ps ih =>
    simp only [List.filterMap_cons]
    cases he : entryChap b p.2 with
    | none => simpa using ih
    | some c => simpa using ih

theorem usedEntry_eq (b : String) (m : Int) (refs : List String) :
    usedEntry b m refs =
      match entryChap b refs with
      | none => none
      | some c => if 1 ≤ c ∧ c ≤ m then some c else none := by
  unfold usedEntry entryChap
  cases refs with
  | nil => rfl
  | cons r rs =>
    cases hp : parse_ref r with
    | none => simp [hp]
    | some bc =>
      by_cases hb : bc.1 = b
      · simp [hp, hb]
      · simp [hp, hb]

theorem usedOf_eq_filter (d : PMap) (b : String) (m : Int) :
    usedOf d b m = (chaptersOf d b).filter
      (fun c => decide (1 ≤ c) && decide (c ≤ m)) := by
  unfold usedOf chaptersOf
  induction d with
  | nil => rfl
  | cons p ps ih =>
    simp only [List.filterMap_cons]
    rw [usedEntry_eq]
    cases he : entryChap b p.2 with
    | none => simpa using ih
    | some c =>
      by_cases hc : 1 ≤ c ∧ c ≤ m
      · simp [ih, List.filter_cons, hc.1, hc.2]
      · rcases not_and_or.mp hc with h | h
        · simp [ih, List.filter_cons, h, hc]
        · simp [ih, List.filter_cons, h, hc]

theorem dataPairs_append (d₁ d₂ : PMap) (b : String) :
    dataPairs (d₁ ++ d₂) b = dataPairs d₁ b ++ dataPairs d₂ b := by
  unfold dataPairs
  rw [List.filterMap_append]

theorem dataPairs_fst_mem {d : PMap} {b : String} {pr : Int × String}
    (h : pr ∈ dataPairs d b) : pr.2 ∈ keysOf d := by
  unfold dataPairs at h
  rcases List.mem_filterMap.mp h with ⟨p, hp, hmap⟩
  cases he : entryChap b p.2 with
  | none => rw [he] at hmap; cases hmap
  | some c =>
    rw [he] at hmap
    have : (c, p.1) = pr := by injection hmap
    subst this
    exact List.mem_map_of_mem Prod.fst hp

theorem entryChap_refStr_same {b : String} {c : Int}
    (hb : ' ' ∉ b.data) (hc : 1 ≤ c) :
    entryChap b [refStr b c] = some c := by
  unfold entryChap
  simp only []
  rw [parse_ref_refStr hb hc]
  simp

theorem entryChap_refStr_other {b b2 : String} {c : Int}
    (hb : ' ' ∉ b.data) (hc : 1 ≤ c) (hne : b2 ≠ b) :
    entryChap b2 [refStr b c] = none := by
  unfold entryChap
  simp only []
  rw [parse_ref_refStr hb hc]
  simp [Ne.symm hne]

theorem primary_refStr {b : String} {c : Int} (hb : ' ' ∉ b.data) (hc : 1 ≤ c) :
    primary [refStr b c] = some (b, c) := by
  unfold primary
  simp only []
  exact parse_ref_refStr hb hc

theorem entryChap_of_primary_none {refs : List String}
    (h : primary refs = none) (b : String) : entryChap b refs = none := by
  unfold primary at h
  unfold entryChap
  cases refs with
  | nil => rfl
  | cons r rs =>
    simp only [] at h
    simp [h]

theorem usedEntry_of_primary_none {refs : List String}
    (h : primary refs = none) (b : String) (m : Int) : usedEntry b m refs = none := by
  rw [usedEntry_eq, entryChap_of_primary_none h]

theorem entryChap_eq_primary (b : String) (refs : List String) :
    entryChap b refs =
      match primary refs with
      | none => none
      | some bc => if bc.1 = b then some bc.2 else none := by
  unfold entryChap primary
  cases refs with
  | nil => rfl
  | cons r rs => rfl

/-! ## setKey / chAdd / pbAdd bookkeeping -/

theorem setKey_alookup_ne {d : PMap} {k k2 : String} {v : List String} (h : k2 ≠ k) :
    alookup (setKey d k v) k2 = alookup d k2 := by
  induction d with
  | nil => rfl
  | cons p ps ih =>
    unfold setKey at ih ⊢
    simp only [List.map_cons]
    by_cases hp : p.1 = k
    · rw [if_pos hp]
      rw [alookup, alookup]
      rw [if_neg (by simpa using Ne.symm h), if_neg (by rw [hp]; exact Ne.symm h)]
      exact ih
    · rw [if_neg hp]
      rw [alookup, alookup]
      by_cases hp2 : p.1 = k2
      · rw [if_pos hp2, if_pos hp2]
      · rw [if_neg hp2, if_neg hp2]
        exact ih

theorem chAdd_alookup_same (cm : List (Int × List String)) (c : Int) (fn : String) :
    alookup (chAdd cm c fn) c = some ((alookup cm c).getD [] ++ [fn]) := by
  induction cm with
  | nil => simp [chAdd, alookup]
  | cons p ps ih =>
    rw [chAdd]
    by_cases hp : p.1 = c
    · rw [if_pos hp]
      rw [alookup, if_pos hp, alookup, if_pos hp]
      rfl
    · rw [if_neg hp]
      rw [alookup, if_neg hp, alookup, if_neg hp]
      exact ih

theorem chAdd_alookup_ne {cm : List (Int × List String)} {c c2 : Int} {fn : String}
    (h : c2 ≠ c) : alookup (chAdd cm c fn) c2 = alookup cm c2 := by
  induction cm with
  | nil => simp [chAdd, alookup, Ne.symm h]
  | cons p ps ih =>
    rw [chAdd]
    by_cases hp : p.1 = c
    · rw [if_pos hp]
      rw [alookup, alookup, if_neg (by rw [hp]; exact Ne.symm h),
        if_neg (by rw [hp]; exact Ne.symm h)]
    · rw [if_neg hp]
      rw [alookup, alookup]
      by_cases hp2 : p.1 = c2
      · rw [if_pos hp2, if_pos hp2]
      · rw [if_neg hp2, if_neg hp2]
        exact ih

theorem chAdd_keys_sub (cm : List (Int × List String)) (c : Int) (fn : String) :
    ∀ q ∈ chAdd cm c fn, q.1 ∈ cm.map Prod.fst ∨ q.1 = c := by
  induction cm with
  | nil =>
    intro q hq
    rcases List.mem_singleton.mp hq with rfl
    exact Or.inr rfl
  | cons r rs ihr =>
    intro q hq
    rw [chAdd] at hq
    by_cases hr : r.1 = c
    · rw [if_pos hr] at hq
      rcases List.mem_cons.mp hq with rfl | hq3
      · exact Or.inl (by simp)
      · exact Or.inl (by simp [List.mem_map_of_mem Prod.fst hq3])
    · rw [if_neg hr] at hq
      rcases List.mem_cons.mp hq with rfl | hq3
      · exact Or.inl (by simp)
      · rcases ihr q hq3 with hin | hc
        · exact Or.inl (List.mem_cons_of_mem _ hin)
        · exact Or.inr hc

theorem chAdd_keys_nodup {cm : List (Int × List String)} {c : Int} {fn : String}
    (h : (cm.map Prod.fst).Nodup) : ((chAdd cm c fn).map Prod.fst).Nodup := by
  induction cm with
  | nil => simp [chAdd]
  | cons p ps ih =>
    rw [List.map_cons] at h
    rcases List.nodup_cons.mp h with ⟨hnm, hnd⟩
    rw [chAdd]
    by_cases hp : p.1 = c
    · rw [if_pos hp]
      simp only [List.map_cons]
      exact List.nodup_cons.mpr ⟨hnm, hnd⟩
    · rw [if_neg hp]
      simp only [List.map_cons]
      refine List.nodup_cons.mpr ⟨?_, ih hnd⟩
      intro hmem
      rcases List.mem_map.mp hmem with ⟨q, hq, hq1⟩
      rcases chAdd_keys_sub ps c fn q hq with hin | hc
      · rw [hq1] at hin; exact hnm hin
      · rw [hq1] at hc; exact hp hc

theorem chAdd_groups_ne {cm : List (Int × List String)} {c : Int} {fn : String}
    (h : ∀ g ∈ cm, g.2 ≠ []) : ∀ g ∈ chAdd cm c fn, g.2 ≠ [] := by
  induction cm with
  | nil =>
    intro g hg
    rcases List.mem_singleton.mp hg with rfl
    simp
  | cons p ps ih =>
    intro g hg
    rw [chAdd] at hg
    by_cases hp : p.1 = c
    · rw [if_pos hp] at hg
      rcases List.mem_cons.mp hg with rfl | hg2
      · simp
      · exact h g (List.mem_cons_of_mem _ hg2)
    · rw [if_neg hp] at hg
      rcases List.mem_cons.mp hg with rfl | hg2
      · exact h g (List.mem_cons_self _ _)
      · exact ih (fun g2 hg2b => h g2 (List.mem_cons_of_mem _ hg2b)) g hg2

theorem pbPairs_chAdd (cm : List (Int × List String)) (c : Int) (fn : String) :
    (pbPairs (chAdd cm c fn)).Perm ((c, fn) :: pbPairs cm) := by
  induction cm with
  | nil =>
    unfold chAdd pbPairs
    simp
  | cons p ps ih =>
    rw [chAdd]
    by_cases hp : p.1 = c
    · rw [if_pos hp]
      unfold pbPairs
      simp only [List.map_cons, List.flatten_cons, List.map_append, hp]
      refine List.Perm.trans (List.Perm.of_eq (by simp)) List.perm_middle
    · rw [if_neg hp]
      unfold pbPairs at ih ⊢
      simp only [List.map_cons, List.flatten_cons]
      exact List.Perm.trans (List.Perm.append_left _ ih) List.perm_middle

theorem pbAdd_alookup_same (pb : PerBook) (b : String) (c : Int) (fn : String) :
    alookup (pbAdd pb b c fn) b = some (chAdd ((alookup pb b).getD []) c fn) := by
  induction pb with
  | nil => simp [pbAdd, alookup, chAdd]
  | cons p ps ih =>
    rw [pbAdd]
    by_cases hp : p.1 = b
    · rw [if_pos hp]
      rw [alookup, if_pos hp, alookup, if_pos hp]
      rfl
    · rw [if_neg hp]
      rw [alookup, if_neg hp, alookup, if_neg hp]
      exact ih

theorem pbAdd_alookup_ne {pb : PerBook} {b b2 : String} {c : Int} {fn : String}
    (h : b2 ≠ b) : alookup (pbAdd pb b c fn) b2 = alookup pb b2 := by
  induction pb with
  | nil => simp [pbAdd, alookup, Ne.symm h]
  | cons p ps ih =>
    rw [pbAdd]
    by_cases hp : p.1 = b
    · rw [if_pos hp]
      rw [alookup, alookup, if_neg (by rw [hp]; exact Ne.symm h),
        if_neg (by rw [hp]; exact Ne.symm h)]
    · rw [if_neg hp]
      rw [alookup, alookup]
      by_cases hp2 : p.1 = b2
      · rw [if_pos hp2, if_pos hp2]
      · rw [if_neg hp2, if_neg hp2]
        exact ih

theorem pbPairsOf_pbAdd_same (pb : PerBook) (b : String) (c : Int) (fn : String) :
    (pbPairsOf (pbAdd pb b c fn) b).Perm ((c, fn) :: pbPairsOf pb b) := by
  unfold pbPairsOf
  rw [pbAdd_alookup_same]
  exact pbPairs_chAdd _ _ _

theorem pbPairsOf_pbAdd_ne {pb : PerBook} {b b2 : String} {c : Int} {fn : String}
    (h : b2 ≠ b) : pbPairsOf (pbAdd pb b c fn) b2 = pbPairsOf pb b2 := by
  unfold pbPairsOf
  rw [pbAdd_alookup_ne h]

theorem pbAdd_keys_sub (ps : PerBook) (b : String) (c : Int) (fn : String) :
    ∀ q ∈ pbAdd ps b c fn, q.1 ∈ ps.map Prod.fst ∨ q.1 = b := by
  induction ps with
  | nil =>
    intro q hq
    rcases List.mem_singleton.mp hq with rfl
    exact Or.inr rfl
  | cons r rs ihr =>
    intro q hq
    rw [pbAdd] at hq
    by_cases hr : r.1 = b
    · rw [if_pos hr] at hq
      rcases List.mem_cons.mp hq with rfl | hq3
      · exact Or.inl (by simp)
      · exact Or.inl (by simp [List.mem_map_of_mem Prod.fst hq3])
    · rw [if_neg hr] at hq
      rcases List.mem_cons.mp hq with rfl | hq3
      · exact Or.inl (by simp)
      · rcases ihr q hq3 with hin | hc
        · exact Or.inl (List.mem_cons_of_mem _ hin)
        · exact Or.inr hc

theorem pbAdd_keys_nodup {pb : PerBook} {b : String} {c : Int} {fn : String}
    (h : (pb.map Prod.fst).Nodup) : ((pbAdd pb b c fn).map Prod.fst).Nodup := by
  induction pb with
  | nil => simp [pbAdd]
  | cons p ps ih =>
    rw [List.map_cons] at h
    rcases List.nodup_cons.mp h with ⟨hnm, hnd⟩
    rw [pbAdd]
    by_cases hp : p.1 = b
    · rw [if_pos hp]
      simp only [List.map_cons]
      exact List.nodup_cons.mpr ⟨hnm, hnd⟩
    · rw [if_neg hp]
      simp only [List.map_cons]
      refine List.nodup_cons.mpr ⟨?_, ih hnd⟩
      intro hmem
      rcases List.mem_map.mp hmem with ⟨q, hq, hq1⟩
      rcases pbAdd_keys_sub ps b c fn q hq with hin | hc
      · rw [hq1] at hin; exact hnm hin
      · rw [hq1] at hc; exact hp hc

theorem pbAdd_mem {pb : PerBook} {b : String} {c : Int} {fn : String} :
    ∀ q ∈ pbAdd pb b c fn, q.1 = b ∧ q.2 = chAdd ((alookup pb b).getD []) c fn ∨ q ∈ pb := by
  induction pb with
  | nil =>
    intro q hq
    rcases List.mem_singleton.mp hq with rfl
    exact Or.inl ⟨rfl, rfl⟩
  | cons p ps ih =>
    intro q hq
    rw [pbAdd] at hq
    by_cases hp : p.1 = b
    · rw [if_pos hp] at hq
      rcases List.mem_cons.mp hq with rfl | hq2
      · exact Or.inl ⟨hp, by rw [alookup, if_pos hp]; rfl⟩
      · exact Or.inr (List.mem_cons_of_mem _ hq2)
    · rw [if_neg hp] at hq
      rcases List.mem_cons.mp hq with rfl | hq2
      · exact Or.inr (List.mem_cons_self _ _)
      · rcases ih q hq2 with ⟨h1, h2⟩ | hin
        · refine Or.inl ⟨h1, ?_⟩
          rw [h2, alookup, if_neg hp]
        · exact Or.inr (List.mem_cons_of_mem _ hin)

/-! ## Reductions of one first-pass step -/

theorem phase1Step_dead {st : St1} {fn : String} {refs : List String}
    (h : primary refs = none) : phase1Step st fn refs = st := by
  unfold phase1Step
  unfold primary at h
  cases refs with
  | nil => rfl
  | cons r rs =>
    simp only [] at h
    simp [h]

theorem phase1Step_unreg {st : St1} {fn r : String} {rs : List String}
    {b0 : String} {c0 : Int} (hp : parse_ref r = some (b0, c0))
    (hm : getMaxc b0 = none) : phase1Step st fn (r :: rs) = st := by
  unfold phase1Step
  simp [hp, hm]

theorem phase1Step_inrange {st : St1} {fn r : String} {rs : List String}
    {b0 : String} {c0 m0 : Int} (hp : parse_ref r = some (b0, c0))
    (hm : getMaxc b0 = some m0) (hin : ¬(c0 < 1 ∨ m0 < c0)) :
    phase1Step st fn (r :: rs) = { st with per_book := pbAdd st.per_book b0 c0 fn } := by
  unfold phase1Step
  simp [hp, hm, hin]

theorem phase1Step_out_none {st : St1} {fn r : String} {rs : List String}
    {b0 : String} {c0 m0 : Int} (hp : parse_ref r = some (b0, c0))
    (hm : getMaxc b0 = some m0) (hout : c0 < 1 ∨ m0 < c0)
    (hf : highest_free b0 (usedOf st.data b0 m0) = none) :
    phase1Step st fn (r :: rs) = { st with per_book := pbAdd st.per_book b0 c0 fn } := by
  unfold phase1Step
  simp [hp, hm, hout, hf]

theorem phase1Step_out_some {st : St1} {fn r : String} {rs : List String}
    {b0 : String} {c0 m0 dest : Int} (hp : parse_ref r = some (b0, c0))
    (hm : getMaxc b0 = some m0) (hout : c0 < 1 ∨ m0 < c0)
    (hf : highest_free b0 (usedOf st.data b0 m0) = some dest) :
    phase1Step st fn (r :: rs) =
      ⟨setKey st.data fn [refStr b0 dest], pbAdd st.per_book b0 dest fn,
        st.changes ++ [⟨"fix-range", fn, b0, c0, dest⟩]⟩ := by
  unfold phase1Step
  simp [hp, hm, hout, hf]

/-! ## Auxiliary view lemmas for the induction -/

theorem chaptersOf_append (d₁ d₂ : PMap) (b : String) :
    chaptersOf (d₁ ++ d₂) b = chaptersOf d₁ b ++ chaptersOf d₂ b := by
  unfold chaptersOf
  rw [List.filterMap_append]

theorem usedOf_append (d₁ d₂ : PMap) (b : String) (m : Int) :
    usedOf (d₁ ++ d₂) b m = usedOf d₁ b m ++ usedOf d₂ b m := by
  unfold usedOf
  rw [List.filterMap_append]

theorem nodup_middle_keys {P S : PMap} {fn : String} {refs : List String}
    (h : (keysOf (P ++ (fn, refs) :: S)).Nodup) :
    (∀ q ∈ P, q.1 ≠ fn) ∧ (∀ q ∈ S, q.1 ≠ fn) := by
  rw [keysOf_append] at h
  rcases List.nodup_append.mp h with ⟨h1, h2, hdisj⟩
  constructor
  · intro q hq he
    have hmm : q.1 ∈ P.map Prod.fst := List.mem_map_of_mem Prod.fst hq
    rw [he] at hmm
    exact hdisj hmm (List.mem_cons_self _ _)
  · intro q hq he
    have h3 := List.nodup_cons.mp h2
    have hmm : q.1 ∈ S.map Prod.fst := List.mem_map_of_mem Prod.fst hq
    rw [he] at hmm
    exact h3.1 hmm

theorem entryChap_primary_same {refs : List String} {b0 : String} {c0 : Int}
    (h : primary refs = some (b0, c0)) : entryChap b0 refs = some c0 := by
  rw [entryChap_eq_primary, h]
  simp

theorem entryChap_primary_ne {refs : List String} {b0 b : String} {c0 : Int}
    (h : primary refs = some (b0, c0)) (hne : b ≠ b0) : entryChap b refs = none := by
  rw [entryChap_eq_primary, h]
  simp [Ne.symm hne]

theorem dataPairs_singleton (fn : String) (refs : List String) (b : String) :
    dataPairs [(fn, refs)] b =
      match entryChap b refs with
      | none => []
      | some c => [(c, fn)] := by
  unfold dataPairs
  cases he : entryChap b refs with
  | none => simp [List.filterMap_cons, he]
  | some c => simp [List.filterMap_cons, he]

theorem chaptersOf_singleton (fn : String) (refs : List String) (b : String) :
    chaptersOf [(fn, refs)] b =
      match entryChap b refs with
      | none => []
      | some c => [c] := by
  unfold chaptersOf
  cases he : entryChap b refs with
  | none => simp [List.filterMap_cons, he]
  | some c => simp [List.filterMap_cons, he]

theorem usedOf_singleton (fn : String) (refs : List String) (b : String) (m : Int) :
    usedOf [(fn, refs)] b m =
      match usedEntry b m refs with
      | none => []
      | some c => [c] := by
  unfold usedOf
  cases he : usedEntry b m refs with
  | none => simp [List.filterMap_cons, he]
  | some c => simp [List.filterMap_cons, he]

theorem usedEntry_of_outRange {refs : List String} {b0 : String} {c0 m : Int}
    (h : entryChap b0 refs = some c0) (hout : c0 < 1 ∨ m < c0) :
    usedEntry b0 m refs = none := by
  rw [usedEntry_eq, h]
  have hnr : ¬(1 ≤ c0 ∧ c0 ≤ m) := by omega
  simp [hnr]

theorem usedOf_cons (q : String × List String) (d : PMap) (b : String) (m : Int) :
    usedOf (q :: d) b m =
      match usedEntry b m q.2 with
      | none => usedOf d b m
      | some c => c :: usedOf d b m := by
  unfold usedOf
  cases he : usedEntry b m q.2 <;> simp [List.filterMap_cons, he]

theorem usedEntry_of_entryChap_none {refs : List String} {b : String} {m : Int}
    (h : entryChap b refs = none) : usedEntry b m refs = none := by
  rw [usedEntry_eq, h]

/-! ## Step preservation of the first-pass invariant -/

theorem pre_inert {dorig P S' : PMap} {fn : String} {refs : List String}
    {pb : PerBook} {ch : List ChangeEntry}
    (hpre : Phase1Pre dorig P ((fn, refs) :: S') pb ch)
    (hnone : ∀ b m, getMaxc b = some m → entryChap b refs = none) :
    Phase1Pre dorig (P ++ [(fn, refs)]) S' pb ch := by
  obtain ⟨hnd, horig, hcorr, hpbk, hpbreg, hgk, hgne, hA, hch, hframe⟩ := hpre
  have hs : (P ++ [(fn, refs)]) ++ S' = P ++ (fn, refs) :: S' := by simp
  refine ⟨by rw [hs]; exact hnd,
    fun q hq => horig q (List.mem_cons_of_mem _ hq), ?_, hpbk, hpbreg, hgk, hgne,
    ?_, hch, ?_⟩
  · intro b m hreg
    rw [dataPairs_append, dataPairs_singleton, hnone b m hreg]
    simpa using hcorr b m hreg
  · intro b m hreg c hc hout x hx1 hx2
    rw [chaptersOf_append, chaptersOf_singleton, hnone b m hreg] at hc
    rw [hs]
    exact hA b m hreg c (by simpa using hc) hout x hx1 hx2
  · intro fn2 hfn2
    rw [hs]
    exact hframe fn2 hfn2

theorem pre_keep {dorig P S' : PMap} {fn : String} {refs : List String}
    {pb : PerBook} {ch : List ChangeEntry} {b0 : String} {c0 m0 : Int}
    (hpre : Phase1Pre dorig P ((fn, refs) :: S') pb ch)
    (hprim : primary refs = some (b0, c0))
    (hm : getMaxc b0 = some m0)
    (hfull : outRange m0 c0 → ∀ x : Int, 1 ≤ x → x ≤ m0 →
      x ∈ usedOf (P ++ (fn, refs) :: S') b0 m0) :
    Phase1Pre dorig (P ++ [(fn, refs)]) S' (pbAdd pb b0 c0 fn) ch := by
  obtain ⟨hnd, horig, hcorr, hpbk, hpbreg, hgk, hgne, hA, hch, hframe⟩ := hpre
  have hs : (P ++ [(fn, refs)]) ++ S' = P ++ (fn, refs) :: S' := by simp
  refine ⟨by rw [hs]; exact hnd,
    fun q hq => horig q (List.mem_cons_of_mem _ hq), ?_, pbAdd_keys_nodup hpbk,
    ?_, ?_, ?_, ?_, hch, ?_⟩
  · intro b m hreg
    by_cases hb : b = b0
    · subst hb
      have hmm : m = m0 := by rw [hreg] at hm; injection hm
      subst hmm
      rw [dataPairs_append, dataPairs_singleton, entryChap_primary_same hprim]
      refine (pbPairsOf_pbAdd_same pb b c0 fn).trans ?_
      refine ((hcorr b m hreg).cons (c0, fn)).trans ?_
      exact (List.perm_append_singleton _ _).symm
    · rw [dataPairs_append, dataPairs_singleton, entryChap_primary_ne hprim hb]
      rw [pbPairsOf_pbAdd_ne hb]
      simpa using hcorr b m hreg
  · intro q hq
    rcases pbAdd_mem q hq with ⟨h1, _⟩ | hin
    · rw [h1, hm]; exact fun hx => by cases hx
    · exact hpbreg q hin
  · intro q hq
    rcases pbAdd_mem q hq with ⟨_, h2⟩ | hin
    · rw [h2]
      apply chAdd_keys_nodup
      cases halk : alookup pb b0 with
      | none => simp
      | some cm =>
        have := hgk _ (alookup_some_mem halk)
        simpa [halk] using this
    · exact hgk q hin
  · intro q hq g hg
    rcases pbAdd_mem q hq with ⟨_, h2⟩ | hin
    · rw [h2] at hg
      refine chAdd_groups_ne ?_ g hg
      cases halk : alookup pb b0 with
      | none => simp
      | some cm =>
        intro g2 hg2
        refine hgne _ (alookup_some_mem halk) g2 (by simpa [halk] using hg2)
    · exact hgne q hin g hg
  · intro b m hreg c hc hout x hx1 hx2
    rw [chaptersOf_append, chaptersOf_singleton] at hc
    rw [hs]
    rcases List.mem_append.mp hc with hold | hnew
    · exact hA b m hreg c hold hout x hx1 hx2
    · by_cases hb : b = b0
      · subst hb
        have hmm : m = m0 := by rw [hreg] at hm; injection hm
        subst hmm
        rw [entryChap_primary_same hprim] at hnew
        have hc0 : c = c0 := List.mem_singleton.mp hnew
        subst hc0
        exact hfull hout x hx1 hx2
      · rw [entryChap_primary_ne hprim hb] at hnew
        cases hnew
  · intro fn2 hfn2
    rw [hs]
    exact hframe fn2 hfn2

theorem pre_fix {dorig P S' : PMap} {fn r : String} {rs : List String}
    {pb : PerBook} {ch : List ChangeEntry} {b0 : String} {c0 m0 dest : Int}
    (hpre : Phase1Pre dorig P ((fn, r :: rs) :: S') pb ch)
    (hprim : primary (r :: rs) = some (b0, c0))
    (hm : getMaxc b0 = some m0)
    (hout : c0 < 1 ∨ m0 < c0)
    (hdest1 : 1 ≤ dest) (hdest2 : dest ≤ m0) :
    Phase1Pre dorig (P ++ [(fn, [refStr b0 dest])]) S' (pbAdd pb b0 dest fn)
      (ch ++ [⟨"fix-range", fn, b0, c0, dest⟩]) := by
  obtain ⟨hnd, horig, hcorr, hpbk, hpbreg, hgk, hgne, hA, hch, hframe⟩ := hpre
  have hbsp : ' ' ∉ b0.data := (getMaxc_spec hm).2.2
  have hkeq : keysOf ((P ++ [(fn, [refStr b0 dest])]) ++ S') =
      keysOf (P ++ (fn, r :: rs) :: S') := by simp [keysOf]
  have hdisj := nodup_middle_keys hnd
  have hset : setKey (P ++ (fn, r :: rs) :: S') fn [refStr b0 dest] =
      P ++ (fn, [refStr b0 dest]) :: S' := setKey_split hdisj.1 hdisj.2
  refine ⟨by rw [hkeq]; exact hnd,
    fun q hq => horig q (List.mem_cons_of_mem _ hq), ?_, pbAdd_keys_nodup hpbk,
    ?_, ?_, ?_, ?_, ?_, ?_⟩
  · intro b m hreg
    by_cases hb : b = b0
    · subst hb
      have hmm : m = m0 := by rw [hreg] at hm; injection hm
      subst hmm
      rw [dataPairs_append, dataPairs_singleton, entryChap_refStr_same hbsp hdest1]
      refine (pbPairsOf_pbAdd_same pb b dest fn).trans ?_
      refine ((hcorr b m hreg).cons (dest, fn)).trans ?_
      exact (List.perm_append_singleton _ _).symm
    · rw [dataPairs_append, dataPairs_singleton,
        entryChap_refStr_other hbsp hdest1 hb]
      rw [pbPairsOf_pbAdd_ne hb]
      simpa using hcorr b m hreg
  · intro q hq
    rcases pbAdd_mem q hq with ⟨h1, _⟩ | hin
    · rw [h1, hm]; exact fun hx => by cases hx
    · exact hpbreg q hin
  · intro q hq
    rcases pbAdd_mem q hq with ⟨_, h2⟩ | hin
    · rw [h2]
      apply chAdd_keys_nodup
      cases halk : alookup pb b0 with
      | none => simp
      | some cm =>
        have := hgk _ (alookup_some_mem halk)
        simpa [halk] using this
    · exact hgk q hin
  · intro q hq g hg
    rcases pbAdd_mem q hq with ⟨_, h2⟩ | hin
    · rw [h2] at hg
      refine chAdd_groups_ne ?_ g hg
      cases halk : alookup pb b0 with
      | none => simp
      | some cm =>
        intro g2 hg2
        refine hgne _ (alookup_some_mem halk) g2 (by simpa [halk] using hg2)
    · exact hgne q hin g hg
  · intro b m hreg c hc hout2 x hx1 hx2
    rw [chaptersOf_append, chaptersOf_singleton] at hc
    have hused : ∀ y : Int, y ∈ usedOf (P ++ (fn, r :: rs) :: S') b m →
        y ∈ usedOf ((P ++ [(fn, [refStr b0 dest])]) ++ S') b m := by
      intro y hy
      have hz : usedEntry b m (r :: rs) = none := by
        by_cases hb : b = b0
        · subst hb
          have hmm : m = m0 := by rw [hreg] at hm; injection hm
          subst hmm
          exact usedEntry_of_outRange (entryChap_primary_same hprim) hout
        · exact usedEntry_of_entryChap_none (entryChap_primary_ne hprim hb)
      rw [usedOf_append, usedOf_cons, hz] at hy
      have hl2 : (P ++ [(fn, [refStr b0 dest])]) ++ S' =
          P ++ (fn, [refStr b0 dest]) :: S' := by simp
      rw [hl2, usedOf_append, usedOf_cons]
      cases hz2 : usedEntry b m [refStr b0 dest] with
      | none => exact hy
      | some c =>
        rcases List.mem_append.mp hy with h1 | h1
        · exact List.mem_append_left _ h1
        · exact List.mem_append_right _ (List.mem_cons_of_mem _ h1)
    rcases List.mem_append.mp hc with hold | hnew
    · exact hused x (hA b m hreg c hold hout2 x hx1 hx2)
    · by_cases hb : b = b0
      · subst hb
        have hmm : m = m0 := by rw [hreg] at hm; injection hm
        subst hmm
        rw [entryChap_refStr_same hbsp hdest1] at hnew
        have hcd : c = dest := List.mem_singleton.mp hnew
        subst hcd
        exfalso
        unfold outRange at hout2
        omega
      · rw [entryChap_refStr_other hbsp hdest1 hb] at hnew
        cases hnew
  · intro e he
    rcases List.mem_append.mp he with hold | hnewe
    · exact hch e hold
    · have he2 : e = ⟨"fix-range", fn, b0, c0, dest⟩ := List.mem_singleton.mp hnewe
      subst he2
      exact ⟨r :: rs, (b0, c0), horig (fn, r :: rs) (List.mem_cons_self _ _), hprim⟩
  · intro fn2 hfn2
    have hne : fn2 ≠ fn := by
      have := hfn2 ⟨"fix-range", fn, b0, c0, dest⟩
        (List.mem_append_right _ (List.mem_singleton.mpr rfl))
      exact fun he => this (by rw [he])
    have hl : (P ++ [(fn, [refStr b0 dest])]) ++ S' =
        P ++ (fn, [refStr b0 dest]) :: S' := by simp
    rw [hl, ← hset, setKey_alookup_ne hne]
    exact hframe fn2 (fun e hee => hfn2 e (List.mem_append_left _ hee))

theorem pre_post {dorig P : PMap} {pb : PerBook} {ch : List ChangeEntry}
    (hpre : Phase1Pre dorig P [] pb ch) :
    Phase1Inv dorig (keysOf (P ++ [])) ⟨P ++ [], pb, ch⟩ := by
  obtain ⟨hnd, _, hcorr, hpbk, hpbreg, hgk, hgne, hA, hch, hframe⟩ := hpre
  rw [List.append_nil] at *
  exact ⟨rfl, hcorr, hpbk, hpbreg, hgk, hgne, hA, hch, hframe⟩

/-! ## The first pass establishes its invariant -/

theorem phase1_go (dorig : PMap) :
    ∀ (S P : PMap) (pb : PerBook) (ch : List ChangeEntry),
    Phase1Pre dorig P S pb ch →
    Phase1Inv dorig (keysOf (P ++ S))
      (S.foldl (fun st p => phase1Step st p.1 p.2) ⟨P ++ S, pb, ch⟩) := by
  intro S
  induction S with
  | nil =>
    intro P pb ch hpre
    simp only [List.foldl_nil]
    exact pre_post hpre
  | cons q S' ih =>
    intro P pb ch hpre
    obtain ⟨fn, refs⟩ := q
    rw [List.foldl_cons]
    simp only []
    have hkeq : keysOf (P ++ (fn, refs) :: S') =
        keysOf ((P ++ [(fn, refs)]) ++ S') := by simp [keysOf]
    have hleq : P ++ (fn, refs) :: S' = (P ++ [(fn, refs)]) ++ S' := by simp
    cases hprim : primary refs with
    | none =>
      rw [phase1Step_dead hprim]
      rw [hkeq, hleq]
      exact ih (P ++ [(fn, refs)]) pb ch
        (pre_inert hpre (fun b m _ => entryChap_of_primary_none hprim b))
    | some bc =>
      obtain ⟨b0, c0⟩ := bc
      cases refs with
      | nil => exact absurd hprim (by simp [primary])
      | cons r rs =>
        have hp : parse_ref r = some (b0, c0) := by
          unfold primary at hprim
          simpa using hprim
        cases hm : getMaxc b0 with
        | none =>
          rw [phase1Step_unreg hp hm]
          rw [hkeq, hleq]
          refine ih (P ++ [(fn, r :: rs)]) pb ch (pre_inert hpre ?_)
          intro b m hreg
          by_cases hb : b = b0
          · subst hb; rw [hreg] at hm; cases hm
          · exact entryChap_primary_ne hprim hb
        | some m0 =>
          by_cases hout : c0 < 1 ∨ m0 < c0
          · cases hf : highest_free b0 (usedOf (P ++ (fn, r :: rs) :: S') b0 m0) with
            | none =>
              rw [phase1Step_out_none hp hm hout hf]
              rw [hkeq, hleq]
              refine ih (P ++ [(fn, r :: rs)]) (pbAdd pb b0 c0 fn) ch
                (pre_keep hpre hprim hm ?_)
              intro _ x hx1 hx2
              exact highest_free_none hm hf x hx1 hx2
            | some dest =>
              rw [phase1Step_out_some hp hm hout hf]
              rcases highest_free_some hm hf with ⟨hd1, hd2, _⟩
              have hdisj := nodup_middle_keys hpre.1
              have hset : setKey (P ++ (fn, r :: rs) :: S') fn [refStr b0 dest] =
                  P ++ (fn, [refStr b0 dest]) :: S' := setKey_split hdisj.1 hdisj.2
              rw [hset]
              have hleq2 : P ++ (fn, [refStr b0 dest]) :: S' =
                  (P ++ [(fn, [refStr b0 dest])]) ++ S' := by simp
              have hkeq2 : keysOf (P ++ (fn, r :: rs) :: S') =
                  keysOf ((P ++ [(fn, [refStr b0 dest])]) ++ S') := by simp [keysOf]
              rw [hkeq2, hleq2]
              exact ih (P ++ [(fn, [refStr b0 dest])]) (pbAdd pb b0 dest fn)
                (ch ++ [⟨"fix-range", fn, b0, c0, dest⟩])
                (pre_fix hpre hprim hm hout hd1 hd2)
          · rw [phase1Step_inrange hp hm hout]
            rw [hkeq, hleq]
            refine ih (P ++ [(fn, r :: rs)]) (pbAdd pb b0 c0 fn) ch
              (pre_keep hpre hprim hm ?_)
            intro hout2 x hx1 hx2
            exact absurd hout2 (by unfold outRange at hout2 ⊢; omega)

theorem phase1_inv (d : PMap) (hnd : (keysOf d).Nodup) :
    Phase1Inv d (keysOf d) (phase1 d) := by
  have hpre : Phase1Pre d [] d [] [] := by
    refine ⟨by simpa using hnd, ?_, ?_, by simp, ?_, ?_, ?_, ?_, ?_, ?_⟩
    · intro q hq
      exact alookup_of_mem hq hnd
    · intro b m _
      simp [pbPairsOf, pbPairs, alookup, dataPairs]
    · intro q hq; cases hq
    · intro q hq; cases hq
    · intro q hq; cases hq
    · intro b m _ c hc
      simp [chaptersOf] at hc
    · intro e he; cases he
    · intro fn _
      rfl
  have h := phase1_go d d [] [] [] hpre
  simpa [phase1] using h

/-! ## sortInts and pbPairs structure -/

theorem insertIntSorted_perm (x : Int) (l : List Int) :
    (insertIntSorted x l).Perm (x :: l) := by
  induction l with
  | nil => simp [insertIntSorted]
  | cons y ys ih =>
    by_cases h : x ≤ y
    · simp [insertIntSorted, h]
    · rw [insertIntSorted, if_neg h]
      exact (ih.cons y).trans (List.Perm.swap x y ys)

theorem sortInts_perm (l : List Int) : (sortInts l).Perm l := by
  induction l with
  | nil => simp [sortInts]
  | cons a l ih => exact (insertIntSorted_perm a (sortInts l)).trans (ih.cons a)

theorem pbPairs_cons (p : Int × List String) (ps : List (Int × List String)) :
    pbPairs (p :: ps) = p.2.map (fun fn => (p.1, fn)) ++ pbPairs ps := rfl

theorem dataPairs_cons (q : String × List String) (d : PMap) (b : String) :
    dataPairs (q :: d) b =
      match entryChap b q.2 with
      | none => dataPairs d b
      | some c => (c, q.1) :: dataPairs d b := by
  unfold dataPairs
  rw [List.filterMap_cons]
  cases entryChap b q.2 <;> rfl

theorem chaptersOf_cons (q : String × List String) (d : PMap) (b : String) :
    chaptersOf (q :: d) b =
      match entryChap b q.2 with
      | none => chaptersOf d b
      | some c => c :: chaptersOf d b := by
  unfold chaptersOf
  rw [List.filterMap_cons]
  cases entryChap b q.2 <;> rfl

theorem pbPairs_map_snd (cm : List (Int × List String)) :
    (pbPairs cm).map Prod.snd = (cm.map (fun p => p.2)).flatten := by
  induction cm with
  | nil => rfl
  | cons p ps ih =>
    unfold pbPairs at ih ⊢
    simp only [List.map_cons, List.flatten_cons, List.map_append, ih]
    congr 1
    rw [List.map_map]
    simp

theorem pbPairs_fst_mem {cm : List (Int × List String)} {c : Int} {fn : String}
    (h : (c, fn) ∈ pbPairs cm) : c ∈ cm.map Prod.fst := by
  induction cm with
  | nil => cases h
  | cons p ps ih =>
    unfold pbPairs at h
    simp only [List.map_cons, List.flatten_cons, List.mem_append] at h
    rcases h with h1 | h2
    · rcases List.mem_map.mp h1 with ⟨f2, _, he⟩
      have : (p.1, f2) = (c, fn) := he
      injection this with e1 _
      simp [e1]
    · simp only [List.map_cons]
      exact List.mem_cons_of_mem _ (ih h2)

theorem pbPairs_group_mem {cm : List (Int × List String)}
    (hnd : (cm.map Prod.fst).Nodup) (c : Int) (fn : String) :
    ((c, fn) ∈ pbPairs cm ↔ fn ∈ (alookup cm c).getD []) := by
  induction cm with
  | nil => simp [pbPairs, alookup]
  | cons p ps ih =>
    rw [List.map_cons] at hnd
    rcases List.nodup_cons.mp hnd with ⟨hnm, hnd2⟩
    unfold pbPairs
    simp only [List.map_cons, List.flatten_cons, List.mem_append]
    rw [alookup]
    by_cases hp : p.1 = c
    · rw [if_pos hp]
      constructor
      · intro h
        rcases h with h1 | h2
        · rcases List.mem_map.mp h1 with ⟨f2, hf2, he⟩
          have : (p.1, f2) = (c, fn) := he
          injection this with e1 e2
          subst e2
          simpa using hf2
        · exfalso
          have hc : c ∈ ps.map Prod.fst := pbPairs_fst_mem h2
          rw [hp] at hnm
          exact hnm hc
      · intro h
        left
        have hfm : fn ∈ p.2 := by simpa using h
        have := List.mem_map_of_mem (fun f => (p.1, f)) hfm
        simpa [hp] using this
    · rw [if_neg hp]
      rw [← ih hnd2]
      constructor
      · intro h
        rcases h with h1 | h2
        · exfalso
          rcases List.mem_map.mp h1 with ⟨f2, _, he⟩
          have : (p.1, f2) = (c, fn) := he
          injection this with e1 _
          exact hp e1
        · exact h2
      · intro h
        exact Or.inr h

theorem pbPairs_count_fst {cm : List (Int × List String)}
    (hnd : (cm.map Prod.fst).Nodup) (c : Int) (hc : c ∈ cm.map Prod.fst) :
    ((pbPairs cm).map Prod.fst).count c = ((alookup cm c).getD []).length := by
  induction cm with
  | nil => cases hc
  | cons p ps ih =>
    rw [List.map_cons] at hnd hc
    rcases List.nodup_cons.mp hnd with ⟨hnm, hnd2⟩
    rw [pbPairs_cons, List.map_append, List.count_append, alookup]
    by_cases hp : p.1 = c
    · rw [if_pos hp]
      have h1 : ((p.2.map (fun fn => (p.1, fn))).map Prod.fst).count c = p.2.length := by
        rw [List.map_map]
        have he : (Prod.fst ∘ fun fn => (p.1, fn)) = fun _ : String => p.1 :=
          funext fun _ => rfl
        rw [he, hp]
        simp [List.count_eq_length]
      have h2 : ((pbPairs ps).map Prod.fst).count c = 0 := by
        rw [List.count_eq_zero]
        intro hmem
        rcases List.mem_map.mp hmem with ⟨pr, hpr, hfst⟩
        obtain ⟨cc, ff⟩ := pr
        have hcc : cc = c := hfst
        subst hcc
        have := pbPairs_fst_mem hpr
        rw [hp] at hnm
        exact hnm this
      rw [h1, h2]
      rfl
    · rw [if_neg hp]
      have h1 : ((p.2.map (fun fn => (p.1, fn))).map Prod.fst).count c = 0 := by
        rw [List.count_eq_zero]
        intro hmem
        rcases List.mem_map.mp hmem with ⟨pr, hpr, hfst⟩
        rcases List.mem_map.mp hpr with ⟨f2, _, he⟩
        rw [← he] at hfst
        exact hp hfst
      rw [h1]
      rcases List.mem_cons.mp hc with hc1 | hc2
      · exact absurd hc1.symm hp
      · rw [ih hnd2 hc2]
        omega

theorem pbPairs_count_fst_zero {cm : List (Int × List String)} {c : Int}
    (hc : c ∉ cm.map Prod.fst) : ((pbPairs cm).map Prod.fst).count c = 0 := by
  rw [List.count_eq_zero]
  intro hmem
  rcases List.mem_map.mp hmem with ⟨pr, hpr, hfst⟩
  obtain ⟨cc, ff⟩ := pr
  have hcc : cc = c := hfst
  subst hcc
  exact hc (pbPairs_fst_mem hpr)

theorem dataPairs_snd_sublist (d : PMap) (b : String) :
    ((dataPairs d b).map Prod.snd).Sublist (keysOf d) := by
  induction d with
  | nil => simp [dataPairs, keysOf]
  | cons p ps ih =>
    rw [dataPairs_cons]
    have hk : keysOf (p :: ps) = p.1 :: keysOf ps := rfl
    rw [hk]
    cases he : entryChap b p.2 with
    | none =>
      simp only []
      exact ih.cons p.1
    | some c =>
      simp only [List.map_cons]
      exact ih.cons₂ p.1

theorem dataPairs_mem_alookup {d : PMap} {b : String} {c : Int} {fn : String}
    (hnd : (keysOf d).Nodup) (h : (c, fn) ∈ dataPairs d b) :
    ∃ refs, alookup d fn = some refs ∧ entryChap b refs = some c := by
  unfold dataPairs at h
  rcases List.mem_filterMap.mp h with ⟨p, hp, hmap⟩
  cases he : entryChap b p.2 with
  | none => rw [he] at hmap; cases hmap
  | some c2 =>
    rw [he] at hmap
    have hpair : (c2, p.1) = (c, fn) := by injection hmap
    injection hpair with e1 e2
    subst e1
    refine ⟨p.2, ?_, he⟩
    have hmem : (fn, p.2) ∈ d := by
      rw [← e2]
      exact hp
    exact alookup_of_mem hmem hnd

theorem entryChap_some_primary {b : String} {refs : List String} {c : Int}
    (h : entryChap b refs = some c) : primary refs = some (b, c) := by
  rw [entryChap_eq_primary] at h
  cases hp : primary refs with
  | none => rw [hp] at h; cases h
  | some bc =>
    rw [hp] at h
    simp only [] at h
    by_cases hb : bc.1 = b
    · rw [if_pos hb] at h
      have hc : bc.2 = c := by injection h
      rw [← hb, ← hc]
    · rw [if_neg hb] at h; cases h

theorem dataPairs_eq_views {d d2 : PMap} {b : String}
    (h : dataPairs d b = dataPairs d2 b) :
    chaptersOf d b = chaptersOf d2 b ∧
      ∀ m : Int, usedOf d b m = usedOf d2 b m := by
  have hch : chaptersOf d b = chaptersOf d2 b := by
    rw [chaptersOf_eq_map, chaptersOf_eq_map, h]
  exact ⟨hch, fun m => by rw [usedOf_eq_filter, usedOf_eq_filter, hch]⟩

/-! ## The effect of one displacement on the placement map -/

theorem moveOne_eq (book : String) (maxc chap : Int) (st : St2) (fn : String) :
    moveOne book maxc chap st fn =
      if dupDest book maxc st.used = chap then st
      else ⟨setKey st.data fn [refStr book (dupDest book maxc st.used)],
            dupDest book maxc st.used :: st.used,
            st.changes ++ [⟨"move-dup", fn, book, chap, dupDest book maxc st.used⟩]⟩ := rfl

theorem dupDest_cases {book : String} {maxc : Int} {used : List Int} {m : Int}
    (hreg : getMaxc book = some m) (hm : maxc = m) :
    (1 ≤ dupDest book maxc used ∧ dupDest book maxc used ≤ m) ∧
      (dupDest book maxc used ∉ used ∨
        (dupDest book maxc used = m ∧ ∀ x : Int, 1 ≤ x → x ≤ m → x ∈ used)) := by
  subst hm
  unfold dupDest
  cases hhf : highest_free book used with
  | some d =>
    rcases highest_free_some hreg hhf with ⟨h1, h2, h3⟩
    exact ⟨⟨h1, h2⟩, Or.inl h3⟩
  | none =>
    have hfull := highest_free_none hreg hhf
    have hmpos := (getMaxc_spec hreg).2.1
    exact ⟨⟨hmpos, le_refl _⟩, Or.inr ⟨rfl, hfull⟩⟩

theorem move_views {d : PMap} {b fn : String} {w : List String} {c0 dest : Int}
    (hnd : (keysOf d).Nodup)
    (hal : alookup d fn = some w) (hec : entryChap b w = some c0)
    (hb : ' ' ∉ b.data) (hdest : 1 ≤ dest) :
    keysOf (setKey d fn [refStr b dest]) = keysOf d ∧
    (∀ b2, b2 ≠ b → dataPairs (setKey d fn [refStr b dest]) b2 = dataPairs d b2) ∧
    ∃ A B, dataPairs d b = A ++ (c0, fn) :: B ∧
      dataPairs (setKey d fn [refStr b dest]) b = A ++ (dest, fn) :: B := by
  rcases alookup_split hal with ⟨d₁, d₂, hde, h₁⟩
  subst hde
  have h₂ : ∀ q ∈ d₂, q.1 ≠ fn := (nodup_middle_keys hnd).2
  have hset : setKey (d₁ ++ (fn, w) :: d₂) fn [refStr b dest] =
      d₁ ++ (fn, [refStr b dest]) :: d₂ := setKey_split h₁ h₂
  have hprim : primary w = some (b, c0) := entryChap_some_primary hec
  refine ⟨keysOf_setKey _ _ _, ?_, ?_⟩
  · intro b2 hne
    rw [hset, dataPairs_append, dataPairs_append, dataPairs_cons, dataPairs_cons]
    have hw : entryChap b2 w = none := by
      rw [entryChap_eq_primary, hprim]
      simp only []
      rw [if_neg (fun he => hne he.symm)]
    have hr : entryChap b2 [refStr b dest] = none :=
      entryChap_refStr_other hb hdest hne
    rw [hw, hr]
  · refine ⟨dataPairs d₁ b, dataPairs d₂ b, ?_, ?_⟩
    · rw [dataPairs_append, dataPairs_cons, hec]
    · rw [hset, dataPairs_append, dataPairs_cons, entryChap_refStr_same hb hdest]

theorem count_mid (A B : List Int) (y x : Int) :
    (A ++ y :: B).count x = A.count x + B.count x + (if y = x then 1 else 0) := by
  rw [List.count_append, List.count_cons]
  by_cases h : y = x <;> simp [h] <;> omega

theorem moveOne_MGInv (dorig dz : PMap) (b : String) (m : Int)
    (hreg : getMaxc b = some m) (hndz : (keysOf dz).Nodup)
    (cm : List (Int × List String)) (Rr : List Int) (c0 : Int)
    (fn : String) (rest : List String) (st : St2)
    (hinv : MGInv dorig dz b m cm Rr c0 (fn :: rest) st)
    (hc0u : c0 ∈ st.used)
    (hru : ∀ c ∈ Rr, c ∈ st.used)
    (hc0r : c0 ∉ Rr)
    (hfr : fn ∉ rest)
    (hsep : ∀ c ∈ Rr, fn ∉ (alookup cm c).getD []) :
    MGInv dorig dz b m cm Rr c0 rest (moveOne b m c0 st fn) ∧
    ∀ x ∈ st.used, x ∈ (moveOne b m c0 st fn).used := by
  obtain ⟨hK, hOB, hA, hUS, hUB, hG, hGC, hGM, hD, hDM, hCUR, hCC, hCH, hFR⟩ := hinv
  rw [moveOne_eq]
  set dest := dupDest b m st.used with hdd
  by_cases hskip : dest = c0
  · rw [if_pos hskip]
    have hcs := @dupDest_cases b m st.used m hreg rfl
    rw [← hdd] at hcs
    have hc0m : c0 = m ∧ ∀ x : Int, 1 ≤ x → x ≤ m → x ∈ st.used := by
      rcases hcs.2 with hnu | ⟨hdm, hfull⟩
      · rw [hskip] at hnu
        exact absurd hc0u hnu
      · rw [hskip] at hdm
        exact ⟨hdm, hfull⟩
    obtain ⟨hc0m', hfull⟩ := hc0m
    refine ⟨⟨hK, hOB, hA, hUS, hUB, hG, hGC, hGM, hD, hDM, ?_, ?_, hCH, hFR⟩,
      fun x hx => hx⟩
    · exact fun fn2 h2 => hCUR fn2 (List.mem_cons_of_mem fn h2)
    · constructor
      · intro hne
        exact absurd hc0m' hne
      · intro _
        have h2 := hCC.2 hc0m'
        simp only [List.length_cons] at h2
        exact ⟨by omega, fun _ => fun x hx1 hx2 => hfull x hx1 hx2⟩
  · rw [if_neg hskip]
    have hcs := @dupDest_cases b m st.used m hreg rfl
    rw [← hdd] at hcs
    obtain ⟨⟨hd1, hd2⟩, hdor⟩ := hcs
    have hbs : ' ' ∉ b.data := (getMaxc_spec hreg).2.2
    have hnd : (keysOf st.data).Nodup := by rw [hK]; exact hndz
    have hcur0 : (c0, fn) ∈ dataPairs st.data b := hCUR fn (List.mem_cons_self fn rest)
    obtain ⟨w, hal, hec⟩ := dataPairs_mem_alookup hnd hcur0
    obtain ⟨hkeys, hOB2, A, B, hold, hnew⟩ := move_views hnd hal hec hbs hd1
    have hch : chaptersOf st.data b = A.map Prod.fst ++ c0 :: B.map Prod.fst := by
      rw [chaptersOf_eq_map, hold, List.map_append, List.map_cons]
    have hch2 : chaptersOf (setKey st.data fn [refStr b dest]) b
        = A.map Prod.fst ++ dest :: B.map Prod.fst := by
      rw [chaptersOf_eq_map, hnew, List.map_append, List.map_cons]
    have hcount : ∀ x : Int,
        (chaptersOf (setKey st.data fn [refStr b dest]) b).count x +
          (if c0 = x then 1 else 0)
        = (chaptersOf st.data b).count x + (if dest = x then 1 else 0) := by
      intro x
      rw [hch, hch2, count_mid, count_mid]
      by_cases h1 : c0 = x <;> by_cases h2 : dest = x <;> simp [h1, h2] <;> omega
    have hc02 : 2 ≤ (chaptersOf st.data b).count c0 := by
      rcases eq_or_ne c0 m with he | hne
      · have h2 := (hCC.2 he).1
        simp only [List.length_cons] at h2
        omega
      · have h1 := hCC.1 hne
        simp only [List.length_cons] at h1
        omega
    have hmm2 : ∀ x, x ∈ chaptersOf st.data b →
        x ∈ chaptersOf (setKey st.data fn [refStr b dest]) b := by
      intro x hx
      have hpos : 0 < (chaptersOf st.data b).count x := List.count_pos_iff.mpr hx
      have hc := hcount x
      apply List.count_pos_iff.mp
      by_cases h1 : c0 = x
      · rw [if_pos h1] at hc
        rw [← h1] at hc ⊢
        rw [if_neg hskip] at hc
        omega
      · rw [if_neg h1] at hc
        by_cases h2 : dest = x
        · rw [if_pos h2] at hc
          omega
        · rw [if_neg h2] at hc
          omega
    have hdestmem : dest ∈ chaptersOf (setKey st.data fn [refStr b dest]) b := by
      rw [hch2]
      exact List.mem_append_right _ (List.mem_cons_self dest _)
    have huOf : ∀ x, x ∈ usedOf st.data b m →
        x ∈ usedOf (setKey st.data fn [refStr b dest]) b m := by
      intro x hx
      rw [usedOf_eq_filter] at hx ⊢
      rcases List.mem_filter.mp hx with ⟨hmem, hprop⟩
      exact List.mem_filter.mpr ⟨hmm2 x hmem, hprop⟩
    have hK2 : keysOf (setKey st.data fn [refStr b dest]) = keysOf dz := by
      rw [hkeys, hK]
    have hOB3 : ∀ b2, b2 ≠ b →
        dataPairs (setKey st.data fn [refStr b dest]) b2 = dataPairs dz b2 :=
      fun b2 hne => (hOB2 b2 hne).trans (hOB b2 hne)
    have hA2 : InvA (setKey st.data fn [refStr b dest]) := by
      intro b2 m2 hreg2 c hc hout x hx1 hx2
      by_cases hbb : b2 = b
      · subst hbb
        have hm2 : m2 = m := by
          rw [hreg2] at hreg
          injection hreg
        rw [hm2] at hx2 hreg2 hout ⊢
        rw [hch2] at hc
        rcases List.mem_append.mp hc with hA1 | hB1
        · have hcm : c ∈ chaptersOf st.data b2 := by
            rw [hch]
            exact List.mem_append_left _ hA1
          exact huOf x (hA b2 m hreg2 c hcm hout x hx1 hx2)
        · rcases List.mem_cons.mp hB1 with he | hB2
          · exfalso
            subst he
            rcases hout with h | h <;> omega
          · have hcm : c ∈ chaptersOf st.data b2 := by
              rw [hch]
              exact List.mem_append_right _ (List.mem_cons_of_mem _ hB2)
            exact huOf x (hA b2 m hreg2 c hcm hout x hx1 hx2)
      · have hv := dataPairs_eq_views (hOB2 b2 hbb)
        rw [hv.1] at hc
        rw [hv.2 m2]
        exact hA b2 m2 hreg2 c hc hout x hx1 hx2
    have hUS2 : ∀ c ∈ chaptersOf (setKey st.data fn [refStr b dest]) b,
        c ∈ dest :: st.used := by
      intro c hc
      rw [hch2] at hc
      rcases List.mem_append.mp hc with h1 | h1
      · refine List.mem_cons_of_mem _ (hUS c ?_)
        rw [hch]
        exact List.mem_append_left _ h1
      · rcases List.mem_cons.mp h1 with he | h2
        · rw [he]
          exact List.mem_cons_self _ _
        · refine List.mem_cons_of_mem _ (hUS c ?_)
          rw [hch]
          exact List.mem_append_right _ (List.mem_cons_of_mem _ h2)
    have hUB2 : ∀ x ∈ dest :: st.used,
        x ∈ chaptersOf (setKey st.data fn [refStr b dest]) b := by
      intro x hx
      rcases List.mem_cons.mp hx with he | h2
      · rw [he]
        exact hdestmem
      · exact hmm2 x (hUB x h2)
    have hG2 : ∀ c ∈ Rr, ∀ fn2 ∈ (alookup cm c).getD [],
        (c, fn2) ∈ dataPairs (setKey st.data fn [refStr b dest]) b := by
      intro c hc fn2 hf2
      have hold2 := hG c hc fn2 hf2
      rw [hold] at hold2
      rw [hnew]
      rcases List.mem_append.mp hold2 with h1 | h1
      · exact List.mem_append_left _ h1
      · rcases List.mem_cons.mp h1 with he | h2
        · exfalso
          have h4 := congrArg Prod.snd he
          simp only [] at h4
          rw [h4] at hf2
          exact hsep c hc hf2
        · exact List.mem_append_right _ (List.mem_cons_of_mem _ h2)
    have hGC2 : ∀ c ∈ Rr, c ≠ m →
        (chaptersOf (setKey st.data fn [refStr b dest]) b).count c
          = ((alookup cm c).getD []).length := by
      intro c hc hcm
      have hcc0 : ¬(c0 = c) := fun he => hc0r (he ▸ hc)
      have hdc : ¬(dest = c) := by
        rcases hdor with hnu | ⟨hdm, _⟩
        · intro he
          exact hnu (he ▸ hru c hc)
        · intro he
          rw [hdm] at he
          exact hcm he.symm
      have h := hcount c
      rw [if_neg hcc0, if_neg hdc] at h
      have h2 := hGC c hc hcm
      omega
    have hGM2 : m ∈ Rr →
        ((alookup cm m).getD []).length ≤
          (chaptersOf (setKey st.data fn [refStr b dest]) b).count m ∧
        (((alookup cm m).getD []).length <
          (chaptersOf (setKey st.data fn [refStr b dest]) b).count m →
          ∀ x : Int, 1 ≤ x → x ≤ m → x ∈ dest :: st.used) := by
      intro hmr
      have hmc0 : ¬(c0 = m) := fun he => hc0r (he ▸ hmr)
      have h := hcount m
      rw [if_neg hmc0] at h
      have hGMm := hGM hmr
      by_cases hdm : dest = m
      · rw [if_pos hdm] at h
        refine ⟨by omega, fun _ => ?_⟩
        rcases hdor with hnu | ⟨_, hfull⟩
        · exfalso
          exact hnu (hdm ▸ hru m hmr)
        · exact fun x h1 h2 => List.mem_cons_of_mem _ (hfull x h1 h2)
      · rw [if_neg hdm] at h
        exact ⟨by omega, fun hlt x h1 h2 =>
          List.mem_cons_of_mem _ (hGMm.2 (by omega) x h1 h2)⟩
    have hD2 : ∀ c : Int, c ∉ Rr → c ≠ m → c ≠ c0 →
        (chaptersOf (setKey st.data fn [refStr b dest]) b).count c ≤ 1 := by
      intro c hc hcm hcc0
      have h := hcount c
      rw [if_neg (fun he => hcc0 he.symm)] at h
      by_cases hdc : dest = c
      · rw [if_pos hdc] at h
        rcases hdor with hnu | ⟨hdm, _⟩
        · have hcz : (chaptersOf st.data b).count c = 0 := by
            rw [List.count_eq_zero]
            intro hmem
            exact hnu (hdc ▸ hUS c hmem)
          omega
        · exfalso
          rw [hdm] at hdc
          exact hcm hdc.symm
      · rw [if_neg hdc] at h
        have h2 := hD c hc hcm hcc0
        omega
    have hDM2 : m ∉ Rr → m ≠ c0 →
        1 < (chaptersOf (setKey st.data fn [refStr b dest]) b).count m →
        ∀ x : Int, 1 ≤ x → x ≤ m → x ∈ dest :: st.used := by
      intro hmr hmc0 hlt
      have h := hcount m
      rw [if_neg (fun he => hmc0 he.symm)] at h
      by_cases hdm : dest = m
      · rw [if_pos hdm] at h
        rcases hdor with hnu | ⟨_, hfull⟩
        · exfalso
          have hm1 : 0 < (chaptersOf st.data b).count m := by omega
          exact hnu (hdm ▸ hUS m (List.count_pos_iff.mp hm1))
        · exact fun x h1 h2 => List.mem_cons_of_mem _ (hfull x h1 h2)
      · rw [if_neg hdm] at h
        exact fun x h1 h2 =>
          List.mem_cons_of_mem _ (hDM hmr hmc0 (by omega) x h1 h2)
    have hCUR2 : ∀ fn2 ∈ rest,
        (c0, fn2) ∈ dataPairs (setKey st.data fn [refStr b dest]) b := by
      intro fn2 h2
      have hold2 := hCUR fn2 (List.mem_cons_of_mem _ h2)
      rw [hold] at hold2
      rw [hnew]
      rcases List.mem_append.mp hold2 with h1 | h1
      · exact List.mem_append_left _ h1
      · rcases List.mem_cons.mp h1 with he | h3
        · exfalso
          have h4 := congrArg Prod.snd he
          simp only [] at h4
          rw [h4] at h2
          exact hfr h2
        · exact List.mem_append_right _ (List.mem_cons_of_mem _ h3)
    have hCC2 : (c0 ≠ m →
          (chaptersOf (setKey st.data fn [refStr b dest]) b).count c0
            = 1 + rest.length) ∧
        (c0 = m → 1 + rest.length ≤
            (chaptersOf (setKey st.data fn [refStr b dest]) b).count c0 ∧
          (1 + rest.length <
              (chaptersOf (setKey st.data fn [refStr b dest]) b).count c0 →
            ∀ x : Int, 1 ≤ x → x ≤ m → x ∈ dest :: st.used)) := by
      have h := hcount c0
      rw [if_pos rfl, if_neg hskip] at h
      constructor
      · intro hne
        have h1 := hCC.1 hne
        simp only [List.length_cons] at h1
        omega
      · intro he
        have h2 := hCC.2 he
        simp only [List.length_cons] at h2
        refine ⟨by omega, fun hlt x h1 h2' => ?_⟩
        exact List.mem_cons_of_mem _ (h2.2 (by omega) x h1 h2')
    have hCH2 : ChOk dorig (st.changes ++ [⟨"move-dup", fn, b, c0, dest⟩]) := by
      intro e he
      rcases List.mem_append.mp he with h1 | h1
      · exact hCH e h1
      · have he2 : e = ⟨"move-dup", fn, b, c0, dest⟩ := by simpa using h1
        subst he2
        by_cases hex : ∀ e2 ∈ st.changes, e2.fn ≠ fn
        · have hf := hFR fn hex
          exact ⟨w, (b, c0), by rw [hf] at hal; exact hal,
            entryChap_some_primary hec⟩
        · push_neg at hex
          obtain ⟨e2, he2m, he2f⟩ := hex
          obtain ⟨refs, bc, h1b, h2b⟩ := hCH e2 he2m
          rw [he2f] at h1b
          exact ⟨refs, bc, h1b, h2b⟩
    have hFR2 : FrameOk dorig (setKey st.data fn [refStr b dest])
        (st.changes ++ [⟨"move-dup", fn, b, c0, dest⟩]) := by
      intro fn2 hfn2
      have hne : fn2 ≠ fn := by
        intro he
        exact hfn2 ⟨"move-dup", fn, b, c0, dest⟩
          (List.mem_append_right _ (List.mem_cons_self _ _)) he.symm
      rw [setKey_alookup_ne hne]
      exact hFR fn2 (fun e he => hfn2 e (List.mem_append_left _ he))
    exact ⟨⟨hK2, hOB3, hA2, hUS2, hUB2, hG2, hGC2, hGM2, hD2, hDM2,
      hCUR2, hCC2, hCH2, hFR2⟩, fun x hx => List.mem_cons_of_mem _ hx⟩

theorem moveLoop_MGInv (dorig dz : PMap) (b : String) (m : Int)
    (hreg : getMaxc b = some m) (hndz : (keysOf dz).Nodup)
    (cm : List (Int × List String)) (Rr : List Int) (c0 : Int) :
    ∀ (ftail : List String) (st : St2),
    MGInv dorig dz b m cm Rr c0 ftail st →
    ftail.Nodup →
    (∀ fn ∈ ftail, ∀ c ∈ Rr, fn ∉ (alookup cm c).getD []) →
    c0 ∈ st.used →
    (∀ c ∈ Rr, c ∈ st.used) →
    c0 ∉ Rr →
    MGInv dorig dz b m cm Rr c0 [] (ftail.foldl (moveOne b m c0) st) ∧
    ∀ x ∈ st.used, x ∈ (ftail.foldl (moveOne b m c0) st).used := by
  intro ftail
  induction ftail with
  | nil =>
    intro st hinv _ _ _ _ _
    exact ⟨hinv, fun x hx => hx⟩
  | cons fn rest ih =>
    intro st hinv hnd hsep hc0u hru hc0r
    rcases List.nodup_cons.mp hnd with ⟨hfr, hnd2⟩
    have hstep := moveOne_MGInv dorig dz b m hreg hndz cm Rr c0 fn rest st hinv
      hc0u hru hc0r hfr (hsep fn (List.mem_cons_self fn rest))
    rw [List.foldl_cons]
    have hmono := hstep.2
    have hrec := ih (moveOne b m c0 st fn) hstep.1 hnd2
      (fun fn2 h2 c hc => hsep fn2 (List.mem_cons_of_mem _ h2) c hc)
      (hmono c0 hc0u) (fun c hc => hmono c (hru c hc)) hc0r
    exact ⟨hrec.1, fun x hx => hrec.2 x (hmono x hx)⟩

theorem phase2Chap_eq (book : String) (maxc : Int) (cm : List (Int × List String))
    (st : St2) (chap : Int) :
    phase2Chap book maxc cm st chap =
      if ((alookup cm chap).getD []).length ≤ 1 then st
      else ((alookup cm chap).getD []).tail.foldl (moveOne book maxc chap) st := rfl

theorem phase2Chap_P2In (dorig dz : PMap) (b : String) (m : Int)
    (hreg : getMaxc b = some m) (hndz : (keysOf dz).Nodup)
    (cm : List (Int × List String)) (Rr : List Int) (c0 : Int) (st : St2)
    (hinv : Phase2In dorig dz b m cm (c0 :: Rr) st)
    (hgnodup : ∀ c : Int, ((alookup cm c).getD []).Nodup)
    (hgdisj : ∀ c c2 : Int, c ≠ c2 →
      ∀ fn ∈ (alookup cm c).getD [], fn ∉ (alookup cm c2).getD [])
    (hc0u : c0 ∈ st.used)
    (hru : ∀ c ∈ Rr, c ∈ st.used)
    (hc0r : c0 ∉ Rr) :
    Phase2In dorig dz b m cm Rr (phase2Chap b m cm st c0) ∧
    ∀ x ∈ st.used, x ∈ (phase2Chap b m cm st c0).used := by
  obtain ⟨hK, hOB, hA, hUS, hUB, hG, hGC, hGM, hD, hDM, hCH, hFR⟩ := hinv
  rw [phase2Chap_eq]
  by_cases hlen : ((alookup cm c0).getD []).length ≤ 1
  · rw [if_pos hlen]
    refine ⟨⟨hK, hOB, hA, hUS, hUB,
      fun c hc => hG c (List.mem_cons_of_mem _ hc),
      fun c hc => hGC c (List.mem_cons_of_mem _ hc),
      fun hm => hGM (List.mem_cons_of_mem _ hm), ?_, ?_, hCH, hFR⟩,
      fun x hx => hx⟩
    · intro c hcr hcm
      by_cases hcc0 : c = c0
      · subst hcc0
        rw [hGC c (List.mem_cons_self c Rr) hcm]
        exact hlen
      · exact hD c (fun h2 => hcr ((List.mem_cons.mp h2).resolve_left hcc0)) hcm
    · intro hmr hcnt
      by_cases hmc0 : m = c0
      · have hg := hGM (by rw [hmc0]; exact List.mem_cons_self c0 Rr)
        have hlen2 : ((alookup cm m).getD []).length ≤ 1 := by
          rw [hmc0]
          exact hlen
        exact hg.2 (by omega)
      · exact hDM (fun h2 => hmr ((List.mem_cons.mp h2).resolve_left hmc0)) hcnt
  · rw [if_neg hlen]
    have hlen2 : 2 ≤ ((alookup cm c0).getD []).length := by omega
    cases hfns : (alookup cm c0).getD [] with
    | nil =>
      rw [hfns] at hlen2
      exact absurd hlen2 (by simp)
    | cons f0 ftl =>
      have hcur : ∀ fn ∈ ftl, (c0, fn) ∈ dataPairs st.data b := by
        intro fn h2
        refine hG c0 (List.mem_cons_self c0 Rr) fn ?_
        rw [hfns]
        exact List.mem_cons_of_mem _ h2
      have hgn := hgnodup c0
      rw [hfns] at hgn
      rcases List.nodup_cons.mp hgn with ⟨hf0, hftln⟩
      have hmg : MGInv dorig dz b m cm Rr c0 ftl st := by
        refine ⟨hK, hOB, hA, hUS, hUB,
          fun c hc => hG c (List.mem_cons_of_mem _ hc),
          fun c hc => hGC c (List.mem_cons_of_mem _ hc),
          fun hm => hGM (List.mem_cons_of_mem _ hm),
          fun c hcr hcm hcc0 =>
            hD c (fun h2 => hcr ((List.mem_cons.mp h2).resolve_left hcc0)) hcm,
          fun hmr hmc0 hcnt =>
            hDM (fun h2 => hmr ((List.mem_cons.mp h2).resolve_left hmc0)) hcnt,
          hcur, ?_, hCH, hFR⟩
        constructor
        · intro hne
          have h1 := hGC c0 (List.mem_cons_self c0 Rr) hne
          rw [hfns] at h1
          simp only [List.length_cons] at h1
          omega
        · intro he
          have hg := hGM (List.mem_cons.mpr (Or.inl he.symm))
          have he2 : (alookup cm m).getD [] = f0 :: ftl := by rw [← he, hfns]
          rw [he2] at hg
          simp only [List.length_cons] at hg
          have hcc : (chaptersOf st.data b).count c0 = (chaptersOf st.data b).count m := by
            rw [he]
          rw [hcc]
          exact ⟨by omega, fun hlt => hg.2 (by omega)⟩
      have hloop := moveLoop_MGInv dorig dz b m hreg hndz cm Rr c0 ftl st hmg hftln
        (fun fn h2 c hc => by
          have hcne : c0 ≠ c := fun he => hc0r (he ▸ hc)
          refine hgdisj c0 c hcne fn ?_
          rw [hfns]
          exact List.mem_cons_of_mem _ h2)
        hc0u hru hc0r
      obtain ⟨⟨hK2, hOB2, hA2, hUS2, hUB2, hG2, hGC2, hGM2, hD2, hDM2, hCUR2,
        hCC2, hCH2, hFR2⟩, hmono⟩ := hloop
      have hteq : (f0 :: ftl).tail.foldl (moveOne b m c0) st
          = ftl.foldl (moveOne b m c0) st := rfl
      rw [hteq]
      refine ⟨⟨hK2, hOB2, hA2, hUS2, hUB2, hG2, hGC2, hGM2, ?_, ?_, hCH2, hFR2⟩, hmono⟩
      · intro c hcr hcm
        by_cases hcc0 : c = c0
        · subst hcc0
          rw [hCC2.1 (fun he => hcm he)]
          simp
        · exact hD2 c hcr hcm hcc0
      · intro hmr hcnt
        by_cases hmc0 : m = c0
        · have h2 := hCC2.2 hmc0.symm
          have h3 : (chaptersOf (ftl.foldl (moveOne b m c0) st).data b).count c0 =
              (chaptersOf (ftl.foldl (moveOne b m c0) st).data b).count m := by
            rw [hmc0]
          rw [h3] at h2
          exact h2.2 (by simpa using hcnt)
        · exact hDM2 hmr hmc0 hcnt

theorem chapsFold_P2In (dorig dz : PMap) (b : String) (m : Int)
    (hreg : getMaxc b = some m) (hndz : (keysOf dz).Nodup)
    (cm : List (Int × List String))
    (hgnodup : ∀ c : Int, ((alookup cm c).getD []).Nodup)
    (hgdisj : ∀ c c2 : Int, c ≠ c2 →
      ∀ fn ∈ (alookup cm c).getD [], fn ∉ (alookup cm c2).getD []) :
    ∀ (R : List Int) (st : St2),
    Phase2In dorig dz b m cm R st →
    R.Nodup →
    (∀ c ∈ R, c ∈ st.used) →
    Phase2In dorig dz b m cm []
      (R.foldl (fun st c => phase2Chap b m cm st c) st) := by
  intro R
  induction R with
  | nil =>
    intro st hinv _ _
    exact hinv
  | cons c0 Rr ih =>
    intro st hinv hnd hru
    rcases List.nodup_cons.mp hnd with ⟨hc0r, hnd2⟩
    have hstep := phase2Chap_P2In dorig dz b m hreg hndz cm Rr c0 st hinv
      hgnodup hgdisj (hru c0 (List.mem_cons_self c0 Rr))
      (fun c hc => hru c (List.mem_cons_of_mem _ hc)) hc0r
    rw [List.foldl_cons]
    exact ih (phase2Chap b m cm st c0) hstep.1 hnd2
      (fun c hc => hstep.2 c (hru c (List.mem_cons_of_mem _ hc)))

theorem phase2Book_eq (acc : PMap × List ChangeEntry) (b : String)
    (cm : List (Int × List String)) (m : Int) (hreg : getMaxc b = some m) :
    phase2Book acc (b, cm) =
      (((sortInts (cm.map Prod.fst)).foldl (fun st c => phase2Chap b m cm st c)
          ⟨acc.1, (cm.filter (fun p => !p.2.isEmpty)).map Prod.fst, acc.2⟩).data,
       ((sortInts (cm.map Prod.fst)).foldl (fun st c => phase2Chap b m cm st c)
          ⟨acc.1, (cm.filter (fun p => !p.2.isEmpty)).map Prod.fst, acc.2⟩).changes) := by
  unfold phase2Book
  simp only []
  rw [hreg]

theorem phase2Book_spec (dorig : PMap) (acc : PMap × List ChangeEntry)
    (b : String) (cm : List (Int × List String)) (m : Int)
    (hreg : getMaxc b = some m)
    (hnd : (keysOf acc.1).Nodup)
    (hcorr : (pbPairs cm).Perm (dataPairs acc.1 b))
    (hck : (cm.map Prod.fst).Nodup)
    (hcne : ∀ g ∈ cm, g.2 ≠ [])
    (hA : InvA acc.1)
    (hCH : ChOk dorig acc.2)
    (hFR : FrameOk dorig acc.1 acc.2) :
    keysOf (phase2Book acc (b, cm)).1 = keysOf acc.1 ∧
    (∀ b2, b2 ≠ b →
      dataPairs (phase2Book acc (b, cm)).1 b2 = dataPairs acc.1 b2) ∧
    InvA (phase2Book acc (b, cm)).1 ∧
    BookCnt (phase2Book acc (b, cm)).1 b m ∧
    ChOk dorig (phase2Book acc (b, cm)).2 ∧
    FrameOk dorig (phase2Book acc (b, cm)).1 (phase2Book acc (b, cm)).2 := by
  have hused : (cm.filter (fun p => !p.2.isEmpty)).map Prod.fst = cm.map Prod.fst := by
    congr 1
    apply List.filter_eq_self.mpr
    intro a ha
    cases h2 : a.2 with
    | nil => exact absurd h2 (hcne a ha)
    | cons x xs => rfl
  have hperm : (sortInts (cm.map Prod.fst)).Perm (cm.map Prod.fst) := sortInts_perm _
  have hchnd : (sortInts (cm.map Prod.fst)).Nodup := hperm.nodup_iff.mpr hck
  have hsnd : ((pbPairs cm).map Prod.snd).Nodup := by
    have hsub := dataPairs_snd_sublist acc.1 b
    have hnd2 : ((dataPairs acc.1 b).map Prod.snd).Nodup := hsub.nodup hnd
    exact ((hcorr.map Prod.snd).nodup_iff).mpr hnd2
  have hgnodup : ∀ c : Int, ((alookup cm c).getD []).Nodup := by
    intro c
    cases hlk : alookup cm c with
    | none => exact List.nodup_nil
    | some g =>
      have hmem := alookup_some_mem hlk
      have hgm : g ∈ cm.map (fun p => p.2) :=
        List.mem_map.mpr ⟨(c, g), hmem, rfl⟩
      have hfl : ((cm.map (fun p => p.2)).flatten).Nodup := by
        rw [← pbPairs_map_snd]
        exact hsnd
      exact (List.sublist_flatten_of_mem hgm).nodup hfl
  have hgdisj : ∀ c c2 : Int, c ≠ c2 →
      ∀ fn ∈ (alookup cm c).getD [], fn ∉ (alookup cm c2).getD [] := by
    intro c c2 hne fn h1 h2
    have hp1 : (c, fn) ∈ pbPairs cm := (pbPairs_group_mem hck c fn).mpr h1
    have hp2 : (c2, fn) ∈ pbPairs cm := (pbPairs_group_mem hck c2 fn).mpr h2
    have := List.inj_on_of_nodup_map hsnd hp1 hp2 rfl
    exact hne (congrArg Prod.fst this)
  have hcmem : ∀ x : Int, x ∈ chaptersOf acc.1 b ↔ x ∈ cm.map Prod.fst := by
    intro x
    rw [chaptersOf_eq_map]
    rw [← (hcorr.map Prod.fst).mem_iff]
    constructor
    · intro hx
      rcases List.mem_map.mp hx with ⟨pr, hpr, he⟩
      obtain ⟨cc, ff⟩ := pr
      have : cc = x := he
      subst this
      exact pbPairs_fst_mem hpr
    · intro hx
      rcases List.mem_map.mp hx with ⟨p, hp, he⟩
      have hal : alookup cm x = some p.2 := by
        refine alookup_of_mem ?_ hck
        rw [← he]
        exact hp
      cases h2 : p.2 with
      | nil => exact absurd h2 (hcne p hp)
      | cons f fs =>
        have hfg : f ∈ (alookup cm x).getD [] := by
          rw [hal, h2]
          exact List.mem_cons_self f fs
        have := (pbPairs_group_mem hck x f).mpr hfg
        exact List.mem_map.mpr ⟨(x, f), this, rfl⟩
  have hcnt : ∀ x : Int, x ∈ cm.map Prod.fst →
      (chaptersOf acc.1 b).count x = ((alookup cm x).getD []).length := by
    intro x hx
    rw [chaptersOf_eq_map, ← (hcorr.map Prod.fst).count_eq]
    exact pbPairs_count_fst hck x hx
  have hcnt0 : ∀ x : Int, x ∉ cm.map Prod.fst → (chaptersOf acc.1 b).count x = 0 := by
    intro x hx
    rw [chaptersOf_eq_map, ← (hcorr.map Prod.fst).count_eq]
    exact pbPairs_count_fst_zero hx
  have hinit : Phase2In dorig acc.1 b m cm (sortInts (cm.map Prod.fst))
      ⟨acc.1, (cm.filter (fun p => !p.2.isEmpty)).map Prod.fst, acc.2⟩ := by
    rw [hused]
    refine ⟨rfl, fun b2 _ => rfl, hA, ?_, ?_, ?_, ?_, ?_, ?_, ?_, hCH, hFR⟩
    · intro c hc
      exact (hcmem c).mp hc
    · intro x hx
      exact (hcmem x).mpr hx
    · intro c _ fn hfn
      exact hcorr.subset ((pbPairs_group_mem hck c fn).mpr hfn)
    · intro c hc _
      exact hcnt c (hperm.mem_iff.mp hc)
    · intro hm
      have he := hcnt m (hperm.mem_iff.mp hm)
      refine ⟨le_of_eq he.symm, fun hlt => absurd he ?_⟩
      have hlt2 : ((alookup cm m).getD []).length < (chaptersOf acc.1 b).count m := hlt
      omega
    · intro c hc _
      show (chaptersOf acc.1 b).count c ≤ 1
      rw [hcnt0 c (fun h2 => hc (hperm.mem_iff.mpr h2))]
      omega
    · intro hm hlt
      have hlt2 : 1 < (chaptersOf acc.1 b).count m := hlt
      rw [hcnt0 m (fun h2 => hm (hperm.mem_iff.mpr h2))] at hlt2
      omega
  have hfold := chapsFold_P2In dorig acc.1 b m hreg hnd cm hgnodup hgdisj
    (sortInts (cm.map Prod.fst))
    ⟨acc.1, (cm.filter (fun p => !p.2.isEmpty)).map Prod.fst, acc.2⟩
    hinit hchnd
    (by
      intro c hc
      rw [hused]
      exact hperm.mem_iff.mp hc)
  obtain ⟨hK, hOB, hA2, hUS, hUB, _, _, _, hD, hDM, hCH2, hFR2⟩ := hfold
  rw [phase2Book_eq acc b cm m hreg]
  refine ⟨hK, hOB, hA2, ⟨?_, ?_⟩, hCH2, hFR2⟩
  · intro c hcm
    exact hD c (by simp) hcm
  · intro hlt x hx1 hx2
    have hxu := hDM (by simp) hlt x hx1 hx2
    have hxc := hUB x hxu
    rw [usedOf_eq_filter]
    refine List.mem_filter.mpr ⟨hxc, ?_⟩
    simp [hx1, hx2]

theorem alookup_eq_none {α β : Type} [DecidableEq α] :
    ∀ {l : List (α × β)} {k : α}, k ∉ l.map Prod.fst → alookup l k = none := by
  intro l
  induction l with
  | nil => intro k _; rfl
  | cons p ps ih =>
    intro k h
    rw [List.map_cons] at h
    rw [alookup]
    rw [if_neg (fun he => h (List.mem_cons.mpr (Or.inl he.symm)))]
    exact ih (fun h2 => h (List.mem_cons_of_mem _ h2))

theorem pbFold_spec (dorig d1 : PMap) (hnd1 : (keysOf d1).Nodup) :
    ∀ (R : PerBook) (acc : PMap × List ChangeEntry),
    keysOf acc.1 = keysOf d1 →
    InvA acc.1 →
    (∀ b m, getMaxc b = some m → b ∉ R.map Prod.fst → BookCnt acc.1 b m) →
    (∀ q ∈ R, (pbPairs q.2).Perm (dataPairs acc.1 q.1)) →
    ChOk dorig acc.2 →
    FrameOk dorig acc.1 acc.2 →
    (R.map Prod.fst).Nodup →
    (∀ q ∈ R, getMaxc q.1 ≠ none) →
    (∀ q ∈ R, (q.2.map Prod.fst).Nodup) →
    (∀ q ∈ R, ∀ g ∈ q.2, g.2 ≠ []) →
    keysOf (R.foldl phase2Book acc).1 = keysOf d1 ∧
    InvA (R.foldl phase2Book acc).1 ∧
    (∀ b m, getMaxc b = some m → BookCnt (R.foldl phase2Book acc).1 b m) ∧
    ChOk dorig (R.foldl phase2Book acc).2 ∧
    FrameOk dorig (R.foldl phase2Book acc).1 (R.foldl phase2Book acc).2 := by
  intro R
  induction R with
  | nil =>
    intro acc hka hA hBC hcorr hCH hFR _ _ _ _
    exact ⟨hka, hA, fun b m hreg => hBC b m hreg (by simp), hCH, hFR⟩
  | cons q R2 ih =>
    intro acc hka hA hBC hcorr hCH hFR hknd hregs hgks hgne
    rw [List.map_cons] at hknd
    rcases List.nodup_cons.mp hknd with ⟨hqnot, hknd2⟩
    cases hm : getMaxc q.1 with
    | none => exact absurd hm (hregs q (List.mem_cons_self q R2))
    | some m =>
      have hnda : (keysOf acc.1).Nodup := by rw [hka]; exact hnd1
      have hspec := phase2Book_spec dorig acc q.1 q.2 m hm hnda
        (hcorr q (List.mem_cons_self q R2))
        (hgks q (List.mem_cons_self q R2))
        (hgne q (List.mem_cons_self q R2)) hA hCH hFR
      obtain ⟨hK2, hOB2, hA2, hBC2, hCH2, hFR2⟩ := hspec
      rw [List.foldl_cons]
      refine ih (phase2Book acc q) (hK2.trans hka) hA2 ?_ ?_ hCH2 hFR2
        hknd2 (fun q2 h2 => hregs q2 (List.mem_cons_of_mem _ h2))
        (fun q2 h2 => hgks q2 (List.mem_cons_of_mem _ h2))
        (fun q2 h2 g hg => hgne q2 (List.mem_cons_of_mem _ h2) g hg)
      · intro b m2 hreg2 hbnot
        by_cases hbq : b = q.1
        · subst hbq
          have hm2 : m2 = m := by
            rw [hreg2] at hm
            injection hm
          rw [hm2]
          exact hBC2
        · have hbold : b ∉ (q :: R2).map Prod.fst := by
            rw [List.map_cons]
            intro h2
            rcases List.mem_cons.mp h2 with h3 | h3
            · exact hbq h3
            · exact hbnot h3
          have hbc := hBC b m2 hreg2 hbold
          have hv := dataPairs_eq_views (hOB2 b hbq)
          refine ⟨?_, ?_⟩
          · intro c hcm
            rw [hv.1]
            exact hbc.1 c hcm
          · intro hlt x h1 h2
            rw [hv.1] at hlt
            rw [hv.2 m2]
            exact hbc.2 hlt x h1 h2
      · intro q2 h2
        have hne : q2.1 ≠ q.1 := by
          intro he
          exact hqnot (he ▸ List.mem_map_of_mem Prod.fst h2)
        rw [hOB2 q2.1 hne]
        exact hcorr q2 (List.mem_cons_of_mem _ h2)

theorem normalize_spec (d : PMap) (hnd : (keysOf d).Nodup) :
    keysOf (normalize d).1 = keysOf d ∧
    NormalMap (normalize d).1 ∧
    ChOk d (normalize d).2 ∧
    FrameOk d (normalize d).1 (normalize d).2 := by
  have h1 := phase1_inv d hnd
  obtain ⟨hK, hcorr, hpbnd, hpbreg, hgk, hgne, hA, hCH, hFR⟩ := h1
  have hnd1 : (keysOf (phase1 d).data).Nodup := by rw [hK]; exact hnd
  have hBC0 : ∀ b m, getMaxc b = some m → b ∉ (phase1 d).per_book.map Prod.fst →
      BookCnt (phase1 d).data b m := by
    intro b m hreg hbnot
    have hc := hcorr b m hreg
    have hlke : alookup (phase1 d).per_book b = none := alookup_eq_none hbnot
    have hnil : pbPairsOf (phase1 d).per_book b = [] := by
      unfold pbPairsOf
      rw [hlke]
      rfl
    rw [hnil] at hc
    have hdnil : dataPairs (phase1 d).data b = [] := hc.nil_eq.symm
    have hchnil : chaptersOf (phase1 d).data b = [] := by
      rw [chaptersOf_eq_map, hdnil]
      rfl
    constructor
    · intro c _
      rw [hchnil]
      simp
    · intro hlt
      rw [hchnil] at hlt
      simp at hlt
  have hcorr0 : ∀ q ∈ (phase1 d).per_book,
      (pbPairs q.2).Perm (dataPairs (phase1 d).data q.1) := by
    intro q hq
    cases hm : getMaxc q.1 with
    | none => exact absurd hm (hpbreg q hq)
    | some m =>
      have hc := hcorr q.1 m hm
      have hlk : alookup (phase1 d).per_book q.1 = some q.2 :=
        alookup_of_mem hq hpbnd
      unfold pbPairsOf at hc
      rw [hlk] at hc
      exact hc
  have hfold := pbFold_spec d (phase1 d).data hnd1 (phase1 d).per_book
    ((phase1 d).data, (phase1 d).changes) rfl hA hBC0 hcorr0 hCH hFR
    hpbnd hpbreg hgk hgne
  obtain ⟨hK2, hA2, hBC2, hCH2, hFR2⟩ := hfold
  have hkeq : keysOf (normalize d).1 = keysOf d := by
    rw [normalize]
    exact hK2.trans hK
  refine ⟨hkeq, ?_, ?_, ?_⟩
  · intro b m hreg
    rw [normalize]
    exact ⟨fun c hc hout => hA2 b m hreg c hc hout,
      (hBC2 b m hreg).1, (hBC2 b m hreg).2⟩
  · rw [normalize]
    exact hCH2
  · rw [normalize]
    exact hFR2

/-! ## The Normalizer is inert on maps already in normal form -/

theorem highestFreeFrom_eq_none {used : List Int} :
    ∀ k : Nat, (∀ x : Int, 1 ≤ x → x ≤ (k : Int) → x ∈ used) →
    highestFreeFrom used k = none := by
  intro k
  induction k with
  | zero => intro _; rfl
  | succ k ih =>
    intro h
    rw [highestFreeFrom]
    rw [if_pos (h ((k + 1 : Nat) : Int) (by push_cast; omega) (by push_cast; omega))]
    exact ih (fun x h1 h2 => h x h1 (by push_cast at h2 ⊢; omega))

theorem highest_free_eq_none {b : String} {used : List Int} {m : Int}
    (hm : getMaxc b = some m)
    (hfull : ∀ x : Int, 1 ≤ x → x ≤ m → x ∈ used) :
    highest_free b used = none := by
  unfold highest_free
  rw [hm]
  apply highestFreeFrom_eq_none
  intro x h1 h2
  have hmpos := (getMaxc_spec hm).2.1
  have hc : ((m.toNat : Nat) : Int) = m := Int.toNat_of_nonneg (by omega)
  exact hfull x h1 (by omega)

theorem phase1_noop_go (d : PMap) (hnm : NormalMap d) :
    ∀ (S : List (String × List String)) (st : St1),
    st.data = d → st.changes = [] →
    (∀ p ∈ S, p ∈ d) →
    (S.foldl (fun st p => phase1Step st p.1 p.2) st).data = d ∧
    (S.foldl (fun st p => phase1Step st p.1 p.2) st).changes = [] := by
  intro S
  induction S with
  | nil =>
    intro st h1 h2 _
    exact ⟨h1, h2⟩
  | cons p S2 ih =>
    intro st h1 h2 hsub
    obtain ⟨fn, refs⟩ := p
    rw [List.foldl_cons]
    cases refs with
    | nil =>
      rw [phase1Step_dead (show primary [] = none from rfl)]
      exact ih st h1 h2 (fun q hq => hsub q (List.mem_cons_of_mem _ hq))
    | cons r rs =>
      have hprr : primary (r :: rs) = parse_ref r := rfl
      cases hp : parse_ref r with
      | none =>
        rw [phase1Step_dead (by rw [hprr, hp])]
        exact ih st h1 h2 (fun q hq => hsub q (List.mem_cons_of_mem _ hq))
      | some bc =>
        obtain ⟨b0, c0⟩ := bc
        cases hm : getMaxc b0 with
        | none =>
          rw [phase1Step_unreg hp hm]
          exact ih st h1 h2 (fun q hq => hsub q (List.mem_cons_of_mem _ hq))
        | some m0 =>
          by_cases hout : c0 < 1 ∨ m0 < c0
          · have hmem : (fn, r :: rs) ∈ d :=
              hsub (fn, r :: rs) (List.mem_cons_self _ _)
            have hchap : c0 ∈ chaptersOf d b0 := by
              unfold chaptersOf
              refine List.mem_filterMap.mpr ⟨(fn, r :: rs), hmem, ?_⟩
              rw [entryChap_eq_primary]
              have hpr2 : primary (r :: rs) = some (b0, c0) := by rw [hprr, hp]
              rw [hpr2]
              simp
            have hfull := (hnm b0 m0 hm).1 c0 hchap hout
            have hf : highest_free b0 (usedOf st.data b0 m0) = none := by
              rw [h1]
              exact highest_free_eq_none hm hfull
            rw [phase1Step_out_none hp hm hout hf]
            exact ih _ h1 h2 (fun q hq => hsub q (List.mem_cons_of_mem _ hq))
          · rw [phase1Step_inrange hp hm hout]
            exact ih _ h1 h2 (fun q hq => hsub q (List.mem_cons_of_mem _ hq))

theorem phase1_noop (d : PMap) (hnm : NormalMap d) :
    (phase1 d).data = d ∧ (phase1 d).changes = [] := by
  unfold phase1
  exact phase1_noop_go d hnm d ⟨d, [], []⟩ rfl rfl (fun p hp => hp)

theorem moveOne_skip {b : String} {m chap : Int} {st : St2} {fn : String}
    (hreg : getMaxc b = some m) (hchap : chap = m)
    (hfull : ∀ x : Int, 1 ≤ x → x ≤ m → x ∈ st.used) :
    moveOne b m chap st fn = st := by
  rw [moveOne_eq]
  have hd : dupDest b m st.used = m := by
    unfold dupDest
    rw [highest_free_eq_none hreg hfull]
  rw [hd, hchap]
  simp

theorem moveFold_skip {b : String} {m chap : Int}
    (hreg : getMaxc b = some m) (hchap : chap = m) :
    ∀ (l : List String) (st : St2),
    (∀ x : Int, 1 ≤ x → x ≤ m → x ∈ st.used) →
    l.foldl (moveOne b m chap) st = st := by
  intro l
  induction l with
  | nil => intro st _; rfl
  | cons fn l2 ih =>
    intro st hfull
    rw [List.foldl_cons, moveOne_skip hreg hchap hfull]
    exact ih st hfull

theorem phase2Chap_noop {b : String} {m : Int} {cm : List (Int × List String)}
    {st : St2} {chap : Int} (hreg : getMaxc b = some m)
    (hcond : ((alookup cm chap).getD []).length ≤ 1 ∨
      (chap = m ∧ ∀ x : Int, 1 ≤ x → x ≤ m → x ∈ st.used)) :
    phase2Chap b m cm st chap = st := by
  rw [phase2Chap_eq]
  by_cases hlen : ((alookup cm chap).getD []).length ≤ 1
  · rw [if_pos hlen]
  · rw [if_neg hlen]
    rcases hcond with h1 | ⟨h2, h3⟩
    · exact absurd h1 hlen
    · exact moveFold_skip hreg h2 _ st h3

theorem phase2Book_noop (d : PMap) (ch : List ChangeEntry) (b : String)
    (cm : List (Int × List String)) (m : Int)
    (hreg : getMaxc b = some m)
    (hcorr : (pbPairs cm).Perm (dataPairs d b))
    (hck : (cm.map Prod.fst).Nodup)
    (hcne : ∀ g ∈ cm, g.2 ≠ [])
    (hcnt1 : ∀ c : Int, c ≠ m → (chaptersOf d b).count c ≤ 1)
    (hcntm : 1 < (chaptersOf d b).count m →
      ∀ x : Int, 1 ≤ x → x ≤ m → x ∈ usedOf d b m) :
    phase2Book (d, ch) (b, cm) = (d, ch) := by
  rw [phase2Book_eq (d, ch) b cm m hreg]
  have hused : (cm.filter (fun p => !p.2.isEmpty)).map Prod.fst = cm.map Prod.fst := by
    congr 1
    apply List.filter_eq_self.mpr
    intro a ha
    cases h2 : a.2 with
    | nil => exact absurd h2 (hcne a ha)
    | cons x xs => rfl
  have hcnt : ∀ x : Int, x ∈ cm.map Prod.fst →
      (chaptersOf d b).count x = ((alookup cm x).getD []).length := by
    intro x hx
    rw [chaptersOf_eq_map, ← (hcorr.map Prod.fst).count_eq]
    exact pbPairs_count_fst hck x hx
  have husub : ∀ x : Int, x ∈ usedOf d b m → x ∈ cm.map Prod.fst := by
    intro x hx
    rw [usedOf_eq_filter] at hx
    have hxc := (List.mem_filter.mp hx).1
    rw [chaptersOf_eq_map] at hxc
    rw [← (hcorr.map Prod.fst).mem_iff] at hxc
    rcases List.mem_map.mp hxc with ⟨pr, hpr, he⟩
    obtain ⟨cc, ff⟩ := pr
    have hcc : cc = x := he
    subst hcc
    exact pbPairs_fst_mem hpr
  have hfold : ∀ (L : List Int),
      (∀ c ∈ L, c ∈ cm.map Prod.fst) →
      L.foldl (fun st c => phase2Chap b m cm st c)
        ⟨d, (cm.filter (fun p => !p.2.isEmpty)).map Prod.fst, ch⟩
      = ⟨d, (cm.filter (fun p => !p.2.isEmpty)).map Prod.fst, ch⟩ := by
    intro L
    induction L with
    | nil => intro _; rfl
    | cons c L2 ih =>
      intro hLs
      rw [List.foldl_cons]
      have hcm := hLs c (List.mem_cons_self c L2)
      have hnoop : phase2Chap b m cm
          ⟨d, (cm.filter (fun p => !p.2.isEmpty)).map Prod.fst, ch⟩ c
          = ⟨d, (cm.filter (fun p => !p.2.isEmpty)).map Prod.fst, ch⟩ := by
        refine phase2Chap_noop hreg ?_
        by_cases hcm2 : c = m
        · by_cases hbig : 1 < (chaptersOf d b).count m
          · refine Or.inr ⟨hcm2, fun x h1 h2 => ?_⟩
            have hxu := hcntm hbig x h1 h2
            have := husub x hxu
            rw [hused]
            exact this
          · refine Or.inl ?_
            rw [← hcnt c hcm]
            rw [hcm2]
            omega
        · refine Or.inl ?_
          rw [← hcnt c hcm]
          exact hcnt1 c hcm2
      rw [hnoop]
      exact ih (fun c2 h2 => hLs c2 (List.mem_cons_of_mem _ h2))
  rw [hfold (sortInts (cm.map Prod.fst))
    (fun c hc => (sortInts_perm (cm.map Prod.fst)).mem_iff.mp hc)]

theorem pbFold_noop (d : PMap) (ch : List ChangeEntry) :
    ∀ (R : PerBook),
    (∀ q ∈ R, ∃ m, getMaxc q.1 = some m ∧
      (pbPairs q.2).Perm (dataPairs d q.1) ∧
      (q.2.map Prod.fst).Nodup ∧ (∀ g ∈ q.2, g.2 ≠ []) ∧
      (∀ c : Int, c ≠ m → (chaptersOf d q.1).count c ≤ 1) ∧
      (1 < (chaptersOf d q.1).count m →
        ∀ x : Int, 1 ≤ x → x ≤ m → x ∈ usedOf d q.1 m)) →
    R.foldl phase2Book (d, ch) = (d, ch) := by
  intro R
  induction R with
  | nil => intro _; rfl
  | cons q R2 ih =>
    intro hq
    obtain ⟨m, hreg, hcorr, hck, hcne, h1, h2⟩ := hq q (List.mem_cons_self q R2)
    rw [List.foldl_cons]
    have hqe : phase2Book (d, ch) q = phase2Book (d, ch) (q.1, q.2) := rfl
    rw [hqe, phase2Book_noop d ch q.1 q.2 m hreg hcorr hck hcne h1 h2]
    exact ih (fun q2 hq2 => hq q2 (List.mem_cons_of_mem _ hq2))

theorem normalize_normal (d : PMap) (hnd : (keysOf d).Nodup)
    (hnm : NormalMap d) : normalize d = (d, []) := by
  obtain ⟨hd1, hch1⟩ := phase1_noop d hnm
  have h1 := phase1_inv d hnd
  obtain ⟨_, hcorr, hpbnd, hpbreg, hgk, hgne, _, _, _⟩ := h1
  show (phase1 d).per_book.foldl phase2Book ((phase1 d).data, (phase1 d).changes)
    = (d, [])
  rw [hd1, hch1]
  apply pbFold_noop d [] (phase1 d).per_book
  intro q hq
  cases hm : getMaxc q.1 with
  | none => exact absurd hm (hpbreg q hq)
  | some m =>
    have hc := hcorr q.1 m hm
    have hlk : alookup (phase1 d).per_book q.1 = some q.2 :=
      alookup_of_mem hq hpbnd
    unfold pbPairsOf at hc
    rw [hlk] at hc
    rw [hd1] at hc
    exact ⟨m, rfl, hc, hgk q hq, hgne q hq,
      (hnm q.1 m hm).2.1, (hnm q.1 m hm).2.2⟩

/-! ## Counting helpers for the duplicate bound -/

theorem intsUpTo_zero : intsUpTo 0 = [] := rfl

theorem intsUpTo_succ (n : Nat) :
    intsUpTo (n + 1) = intsUpTo n ++ [(n : Int) + 1] := by
  unfold intsUpTo
  rw [List.range_succ]
  simp

theorem intsUpTo_mem (n : Nat) (x : Int) :
    x ∈ intsUpTo n ↔ 1 ≤ x ∧ x ≤ (n : Int) := by
  induction n with
  | zero =>
    rw [intsUpTo_zero]
    simp only [List.not_mem_nil, false_iff]
    intro h
    omega
  | succ k ih =>
    rw [intsUpTo_succ, List.mem_append, ih]
    constructor
    · rintro (⟨h1, h2⟩ | h)
      · push_cast
        omega
      · have he : x = (k : Int) + 1 := by simpa using h
        push_cast
        omega
    · rintro ⟨h1, h2⟩
      push_cast at h2
      by_cases hx : x ≤ (k : Int)
      · exact Or.inl ⟨h1, hx⟩
      · refine Or.inr ?_
        simp
        omega

theorem intsUpTo_length (n : Nat) : (intsUpTo n).length = n := by
  induction n with
  | zero => rfl
  | succ k ih =>
    rw [intsUpTo_succ, List.length_append, ih]
    rfl

theorem intsUpTo_nodup (n : Nat) : (intsUpTo n).Nodup := by
  induction n with
  | zero => exact List.nodup_nil
  | succ k ih =>
    rw [intsUpTo_succ]
    refine List.Nodup.append ih (List.nodup_singleton _) ?_
    intro x hx hx2
    have h1 := (intsUpTo_mem k x).mp hx
    have h2 : x = (k : Int) + 1 := by simpa using hx2
    omega

theorem full_dup_length {l : List Int} {m : Int} (hm : 1 ≤ m)
    (hmem : ∀ x : Int, 1 ≤ x → x ≤ m → x ∈ l)
    (hdup : 2 ≤ l.count m) : m.toNat < l.length := by
  have hmt : ((m.toNat : Nat) : Int) = m := Int.toNat_of_nonneg (by omega)
  have hsp : (intsUpTo m.toNat ++ [m]).Subperm l := by
    rw [List.subperm_ext_iff]
    intro x hx
    rw [List.count_append]
    have hub : (intsUpTo m.toNat).count x ≤ 1 :=
      List.nodup_iff_count_le_one.mp (intsUpTo_nodup m.toNat) x
    by_cases hxe : x = m
    · subst hxe
      have h1 : ([x] : List Int).count x = 1 := by simp
      omega
    · have hxi : x ∈ intsUpTo m.toNat := by
        rcases List.mem_append.mp hx with h | h
        · exact h
        · exact absurd (by simpa using h) hxe
      have hxb := (intsUpTo_mem m.toNat x).mp hxi
      have hxl : x ∈ l := hmem x hxb.1 (by omega)
      have h2 : 1 ≤ l.count x := List.count_pos_iff.mpr hxl
      have h3 : ([m] : List Int).count x = 0 := by
        simp [hxe]
      omega
  have hlen := hsp.length_le
  rw [List.length_append, intsUpTo_length] at hlen
  simp only [List.length_singleton] at hlen
  omega

/-! ## Claims C1, C2, C3, C10 -/

/-- C1 counterexample: on the two-entry map `{a ↦ Obadiah 1, b ↦ Obadiah 2}`
the Normalizer leaves `b` at chapter 2 although Obadiah has a single
chapter, so an entry with a registered book can survive out of range. -/
theorem c1_out_of_range_counterexample :
    alookup (normalize [("a", ["Obadiah 1"]), ("b", ["Obadiah 2"])]).1 "b"
      = some ["Obadiah 2"] ∧
    primary ["Obadiah 2"] = some ("Obadiah", 2) ∧
    getMaxc "Obadiah" = some 1 ∧
    ¬(1 ≤ (2 : Int) ∧ (2 : Int) ≤ 1) := by
  refine ⟨by rfl, by rfl, by rfl, by decide⟩

/-- C1 (amended): after normalization an entry of a registered book can
be out of range only when every chapter of that book is occupied (the
repair found no free chapter). -/
theorem c1_out_of_range_only_when_full (d : PMap) (hnd : (keysOf d).Nodup)
    (b : String) (m : Int) (hreg : getMaxc b = some m) :
    ∀ c ∈ chaptersOf (normalize d).1 b, outRange m c →
      ∀ x : Int, 1 ≤ x → x ≤ m → x ∈ usedOf (normalize d).1 b m :=
  fun c hc hout => ((normalize_spec d hnd).2.1 b m hreg).1 c hc hout

theorem c1_out_of_range_only_when_full_witness :
    1 ∈ usedOf (normalize [("a", ["Obadiah 1"]), ("b", ["Obadiah 2"])]).1
      "Obadiah" 1 :=
  c1_out_of_range_only_when_full
    [("a", ["Obadiah 1"]), ("b", ["Obadiah 2"])] (by decide)
    "Obadiah" 1 (by rfl) 2 (by decide) (by decide) 1 (by decide) (by decide)

/-- C2: after normalization every chapter except the last of a
registered book carries at most one entry, and a repeat at the last
chapter forces the book to hold more entries than chapters. -/
theorem c2_duplicates (d : PMap) (hnd : (keysOf d).Nodup) (b : String)
    (m : Int) (hreg : getMaxc b = some m) :
    (∀ c : Int, c ≠ m → (chaptersOf (normalize d).1 b).count c ≤ 1) ∧
    (1 < (chaptersOf (normalize d).1 b).count m →
      m.toNat < (chaptersOf (normalize d).1 b).length) := by
  obtain ⟨_, hnm, _, _⟩ := normalize_spec d hnd
  obtain ⟨hA, hcnt, hpile⟩ := hnm b m hreg
  refine ⟨hcnt, fun hlt => ?_⟩
  have hmpos := (getMaxc_spec hreg).2.1
  refine full_dup_length hmpos ?_ (by omega)
  intro x h1 h2
  have hx := hpile hlt x h1 h2
  rw [usedOf_eq_filter] at hx
  exact (List.mem_filter.mp hx).1

theorem c2_duplicates_witness :
    (chaptersOf (normalize [("a", ["Genesis 3"]),
      ("b", ["Genesis 3"])]).1 "Genesis").count 3 ≤ 1 :=
  (c2_duplicates [("a", ["Genesis 3"]), ("b", ["Genesis 3"])] (by decide)
    "Genesis" 50 (by rfl)).1 3 (by decide)

/-- C3: the Normalizer is idempotent — a second run on its own output
returns the same map and an empty change log. -/
theorem c3_idempotent (d : PMap) (hnd : (keysOf d).Nodup) :
    normalize (normalize d).1 = ((normalize d).1, []) := by
  obtain ⟨hk, hnm, _, _⟩ := normalize_spec d hnd
  exact normalize_normal (normalize d).1 (by rw [hk]; exact hnd) hnm

theorem c3_idempotent_witness :
    normalize (normalize [("a", ["Genesis 60"]), ("b", ["Genesis 1"])]).1
      = ((normalize [("a", ["Genesis 60"]), ("b", ["Genesis 1"])]).1, []) :=
  c3_idempotent [("a", ["Genesis 60"]), ("b", ["Genesis 1"])] (by decide)

/-- C10: entries whose reference list is empty or whose first reference
does not parse keep their stored value, get no change-log line, and
contribute nothing to any book's used-chapter set. -/
theorem c10_dead_entries (d : PMap) (hnd : (keysOf d).Nodup) (fn : String)
    (refs : List String) (hmem : (fn, refs) ∈ d)
    (hdead : primary refs = none) :
    alookup (normalize d).1 fn = some refs ∧
    (∀ e ∈ (normalize d).2, e.fn ≠ fn) ∧
    (∀ b : String, ∀ m : Int, usedEntry b m refs = none) := by
  obtain ⟨_, _, hch, hfr⟩ := normalize_spec d hnd
  have hal : alookup d fn = some refs := alookup_of_mem hmem hnd
  have hnoch : ∀ e ∈ (normalize d).2, e.fn ≠ fn := by
    intro e he hef
    obtain ⟨refs2, bc, h1, h2⟩ := hch e he
    rw [hef, hal] at h1
    have he2 : refs = refs2 := by injection h1
    rw [← he2] at h2
    rw [hdead] at h2
    cases h2
  refine ⟨?_, hnoch, fun b m => usedEntry_of_primary_none hdead b m⟩
  rw [hfr fn hnoch]
  exact hal

theorem c10_dead_entries_witness :
    alookup (normalize [("x", ["garbage"]), ("y", ["Genesis 1"])]).1 "x"
      = some ["garbage"] ∧
    (∀ e ∈ (normalize [("x", ["garbage"]), ("y", ["Genesis 1"])]).2,
      e.fn ≠ "x") ∧
    (∀ b : String, ∀ m : Int, usedEntry b m ["garbage"] = none) :=
  c10_dead_entries [("x", ["garbage"]), ("y", ["Genesis 1"])] (by decide)
    "x" ["garbage"] (by decide) (by rfl)

end HebrewBible
